import Mathlib

/-!
Verification of the tree-restructuring engine of morph_utils
(src/morph_utils/modifications.py) against its specification.

Shallow embedding notes.

A morphology is a list of SWC node records.  Coordinates and radii are
embedded as integers; the source compares Euclidean distances of float
coordinates, which we model with exact squared Euclidean distances (a
strictly monotone transform, so every comparison agrees with the real
distances; float rounding is outside the model).

The node/tree library (neuron_morphology) and the traversal helpers
(morph_utils.graph_traversal: get_path_to_root, bfs_tree, dfs_labeling)
are not part of src/.  They are modelled from the spec, sections 4.1 and 6:
 - get_path_to_root: the node-to-root path, the node itself included,
   following parent pointers; it fails on a dangling parent.  Fuel bounds
   the walk; a parent cycle (which makes the Python helper diverge) is
   modelled as a failure.
 - bfs_tree: breadth-first list of the subtree below a node, that node
   first, together with the id-to-depth map.
 - dfs_labeling: sequential labels in depth-first pre-order over a subtree,
   children visited in node-list (discovery) order, recorded in an
   old-to-new dictionary; it returns the number of nodes labelled.
 - Morphology queries: nodes in list order; get_children n = nodes whose
   parent field equals the id of n, in list order; node_by_id = first node
   with the id; get_roots = nodes with parent -1; get_soma = first node of
   type 1 (the spec designates type 1 as soma and has getSoma possibly
   yielding none, so a find over the node list is the reading we take).
 - Morphology construction from a node collection with id/parent callbacks
   keeps one record per identifier (spec section 4.2: deduplicated by
   identifier); the Python code always passes aliases of the same mutable
   record, so every occurrence already carries the final field values.

Python dictionaries are association lists with replace-or-append insert,
which preserves both the insertion order and the overwrite behaviour that
sort_morph_ids relies on.  Python set iteration order over root ids is
unspecified; the model enumerates roots in first-insertion order, and every
property proved below is insensitive to that order.

CPython object aliasing: the source mutates node dictionaries that are
shared between a Morphology and the lists captured from it.  The model
keeps one authoritative node list per tree state, updates it by id
(setParent / setType), and reads nodes back by id; under unique ids this
is exactly the aliasing semantics.  Functions of the source that mutate
node records return, besides their result, the state of the node records
of the tree the caller passed in after the call (callerAfter): the
functions that clone their argument first leave it untouched, the others
return the mutated records.

Exceptions (KeyError, TypeError on a None dereference, ValueError from
list.remove, AssertionError, NameError from a dangling loop variable) are
modelled with Except String; the string names the Python exception class.
Temporary files of sort_morph_ids are an explicit list of file tags.
-/

structure SwcNode where
  id : Int
  type : Int
  x : Int
  y : Int
  z : Int
  radius : Int
  parent : Int
deriving DecidableEq, Repr

abbrev Morphology := List SwcNode

def childrenOfId (m : Morphology) (i : Int) : List SwcNode :=
  m.filter (fun c => c.parent == i)

def get_children (m : Morphology) (n : SwcNode) : List SwcNode :=
  childrenOfId m n.id

def node_by_id (m : Morphology) (i : Int) : Option SwcNode :=
  m.find? (fun c => c.id == i)

def get_roots (m : Morphology) : List SwcNode :=
  m.filter (fun c => c.parent == -1)

def get_soma (m : Morphology) : Option SwcNode :=
  m.find? (fun c => c.type == 1)

/-- Squared Euclidean distance between two node coordinates. -/
def sqDist (a b : SwcNode) : Int :=
  (a.x - b.x)^2 + (a.y - b.y)^2 + (a.z - b.z)^2

/-- Update the parent field of the node with id i (in-place mutation by id). -/
def setParent (m : Morphology) (i p : Int) : Morphology :=
  m.map (fun n => if n.id = i then { n with parent := p } else n)

/-- Update the type field of the node with id i (in-place mutation by id). -/
def setType (m : Morphology) (i t : Int) : Morphology :=
  m.map (fun n => if n.id = i then { n with type := t } else n)

/-- Python dict insert: replace in place if the key exists, else append. -/
def dinsert {α : Type} (d : List (Int × α)) (k : Int) (v : α) : List (Int × α) :=
  if (d.find? (fun p => p.1 == k)).isSome then
    d.map (fun p => if p.1 == k then (k, v) else p)
  else d ++ [(k, v)]

/-- Python dict lookup. -/
def dget? {α : Type} (d : List (Int × α)) (k : Int) : Option α :=
  (d.find? (fun p => p.1 == k)).map (·.2)

/-- Modelled from the spec: path from a node up to and including its root,
following parent pointers, with fuel; none = dangling parent or a walk that
does not terminate within the fuel (a parent cycle). -/
def pathToRootF (m : Morphology) : Nat → SwcNode → Option (List SwcNode)
  | 0, _ => none
  | f+1, n =>
    if n.parent = -1 then some [n]
    else match node_by_id m n.parent with
      | none => none
      | some p => (pathToRootF m f p).map (n :: ·)

/-- Modelled from the spec: `pathToRoot(node, tree)` of morph_utils.graph_traversal
(not under src/); the fuel m.length + 1 covers every acyclic parent chain. -/
def get_path_to_root (n : SwcNode) (m : Morphology) : Option (List SwcNode) :=
  pathToRootF m (m.length + 1) n

/-- Depth-first pre-order node list below a node; fuel bounds the depth. -/
def dfsF (m : Morphology) : Nat → SwcNode → List SwcNode
  | 0, _ => []
  | f+1, n => n :: (get_children m n).flatMap (dfsF m f)

/-- The consecutive integer labels st, st+1, ..., st+len-1. -/
def intsFrom (st len : Nat) : List Int :=
  List.map (fun k : Nat => (k : Int)) (List.range' st len)

/-- Modelled from the spec: `dfs_labeling(node, start_label, id_map, morph)` of
morph_utils.graph_traversal (not under src/): records old-id to new-label
pairs for the subtree in pre-order and returns the updated map and the count. -/
def dfs_labeling (n : SwcNode) (start_label : Nat) (new_node_ids : List (Int × Int))
    (m : Morphology) : List (Int × Int) × Nat :=
  let order := (dfsF m (m.length + 1) n).map (·.id)
  let pairs := order.zip (intsFrom start_label order.length)
  (pairs.foldl (fun d kv => dinsert d kv.1 kv.2) new_node_ids, order.length)

/-- Breadth-first queue walk carrying depths; fuel bounds the number of visits. -/
def bfsQ (m : Morphology) : Nat → List (SwcNode × Nat) → List (SwcNode × Nat)
  | 0, _ => []
  | _+1, [] => []
  | f+1, (n, d) :: q => (n, d) :: bfsQ m f (q ++ (get_children m n).map (fun c => (c, d+1)))

/-- Modelled from the spec: `bfs_tree(node, morph)` of morph_utils.graph_traversal
(not under src/): the breadth-first subtree list (the node itself first) and
the id-to-depth map. -/
def bfs_tree (n : SwcNode) (m : Morphology) : List SwcNode × List (Int × Nat) :=
  let visited := bfsQ m (m.length + 1) [(n, 0)]
  (visited.map (·.1), visited.map (fun p => (p.1.id, p.2)))

/-- Well-formed tree per spec section 3: unique identifiers, no identifier
equal to the root sentinel -1, and every parent chain resolves and terminates. -/
def valid (m : Morphology) : Prop :=
  (m.map (·.id)).Nodup ∧ (∀ n ∈ m, n.id ≠ -1) ∧ ∀ n ∈ m, (get_path_to_root n m).isSome

instance : DecidablePred valid := fun m => by
  unfold valid
  infer_instance

/-- First-occurrence deduplication of an id list (models inserting into a
Python set; iteration order of a CPython int set is unspecified, the model
fixes insertion order and nothing proved below depends on it). -/
def dedupAux (seen : List Int) : List Int → List Int
  | [] => []
  | i :: rest => if i ∈ seen then dedupAux seen rest else i :: dedupAux (i :: seen) rest

def dedupInt (l : List Int) : List Int := dedupAux [] l

/-- Morphology construction from a node collection: one record per id,
first occurrence kept (spec section 4.2). -/
def dedupByIdAux (seen : List Int) : Morphology → Morphology
  | [] => []
  | n :: rest => if n.id ∈ seen then dedupByIdAux seen rest
                 else n :: dedupByIdAux (n.id :: seen) rest

def dedupById (l : Morphology) : Morphology := dedupByIdAux [] l

/-! ## sort_morph_ids (modifications.py lines 184-256)

The serialize-relabel-reparse round trip through SWC text is embedded with
the line `id type x y z radius parent` carried as the node record itself
(spec section 6 fixes the format); the two temporary files are tracked as a
list of tags.  Every failure of the Python function occurs after the
unsorted temporary file is written and before any file is removed. -/

inductive TempSwc where
  | tempUnsorted : Nat → TempSwc
  | tempSorted : Nat → TempSwc
deriving DecidableEq, Repr

/-- Insertion into a sorted integer list (ascending). -/
def insSorted (k : Int) : List Int → List Int
  | [] => [k]
  | a :: t => if k ≤ a then k :: a :: t else a :: insSorted k t

/-- Structural insertion sort for the new-id keys (Python writes the
output dictionary in ascending key order); structural recursion keeps the
whole pipeline kernel-computable. -/
def isort : List Int → List Int
  | [] => []
  | a :: t => insSorted a (isort t)

/-- Fetch nodes by id, failing like `morph.node_by_id` on a missing id. -/
def fetchAll (m : Morphology) : List Int → Except String (List SwcNode)
  | [] => .ok []
  | i :: rest =>
    match node_by_id m i with
    | none => .error "KeyError"
    | some n => (fetchAll m rest).map (n :: ·)

/-- One line of the relabeling loop: new id for the node, parent -1 kept,
other parents remapped through the old-to-new table; KeyError when a node
or its parent never received a label. -/
def remapOne (d : List (Int × Int)) (n : SwcNode) : Except String SwcNode :=
  match dget? d n.id with
  | none => .error "KeyError"
  | some nid =>
    if n.parent = -1 then .ok { n with id := nid }
    else match dget? d n.parent with
      | none => .error "KeyError"
      | some np => .ok { n with id := nid, parent := np }

/-- The relabeling loop over the unsorted-file dictionary, building
new_output_dict keyed by new id. -/
def remapAll (d : List (Int × Int)) (out : List (Int × SwcNode)) :
    List (Int × SwcNode) → Except String (List (Int × SwcNode))
  | [] => .ok out
  | (_, n) :: rest =>
    match remapOne d n with
    | .error e => .error e
    | .ok n2 => remapAll d (dinsert out n2.id n2) rest

/-- The root relabeling passes after the soma pass: each root labels its
subtree from the running start label (dict writes overwrite). -/
def rootPasses (m : Morphology) : List SwcNode → List (Int × Int) × Nat →
    List (Int × Int) × Nat
  | [], acc => acc
  | r :: rest, (d, st) =>
    let res := dfs_labeling r st d m
    rootPasses m rest (res.1, st + res.2)

def sort_morph_ids (m : Morphology) (soma_node : Option SwcNode) (specimen_id : Nat) :
    Except String Morphology × List TempSwc :=
  let fs1 := [TempSwc.tempUnsorted specimen_id]
  let info : List (Int × SwcNode) := m.foldl (fun d n => dinsert d n.id n) []
  match (match soma_node with | some s => some s | none => get_soma m) with
  | none => (.error "TypeError", fs1)
  | some s =>
    let rootIds := dedupInt (((get_roots m) ++ [s]).map (·.id))
    match fetchAll m rootIds with
    | .error e => (.error e, fs1)
    | .ok rl =>
      if s ∈ rl then
        let rl2 := rl.erase s
        let ds := dfs_labeling s 1 [] m
        let dAll := (rootPasses m rl2 (ds.1, 1 + ds.2)).1
        match remapAll dAll [] info with
        | .error e => (.error e, fs1)
        | .ok outD =>
          let keys := isort (outD.map (·.1))
          let y := keys.filterMap (fun k => dget? outD k)
          (.ok y, [])
      else (.error "ValueError", fs1)

/-! ## re_root_morphology (lines 365-397)

The queue in the source walks the parent chain from the new start node to
the root, pairing every visited node with the previously visited one, then
mutates the parent fields of the caller's node records and rebuilds.  A
dangling parent raises in Python and a parent cycle diverges; both are
the none case of the path and are modelled as an error.  The caller's tree
is NOT cloned: the second component is the caller's node records after
the call. -/
def re_root_morphology (new_start_node : SwcNode) (morphology : Morphology) :
    Except String Morphology × Morphology :=
  match get_path_to_root new_start_node morphology with
  | none => (.error "TypeError", morphology)
  | some p =>
    let updates := (p.map (·.id)).zip (-1 :: p.map (·.id))
    let m2 := updates.foldl (fun mm kv => setParent mm kv.1 kv.2) morphology
    (.ok m2, m2)

/-! ## re_structure_segment (lines 259-303); clones its argument. -/

/-- The reparenting loop: ct counts iterations, each up-path node takes its
unique qualifying child (restricted to the up-path) as new parent, the
first iteration force-links to the new root when no qualifying child
exists, any other cardinality is an AssertionError. -/
def reStructGo (pathIds : List Int) (newRootId : Int) :
    Morphology → Nat → List Int → Except String Morphology
  | mm, _, [] => .ok mm
  | mm, ct, i :: rest =>
    let cs := ((childrenOfId mm i).filter (fun c => pathIds.contains c.id)).map (·.id)
    let cs := if ct = 0 ∧ cs = [] then [newRootId] else cs
    match cs with
    | [fp] => reStructGo pathIds newRootId (setParent mm i fp) (ct+1) rest
    | _ => .error "AssertionError"

def re_structure_segment (morphology : Morphology) (new_root_node : SwcNode)
    (new_roots_parent : Int) (overwrite_soma : Bool) :
    (Except String Morphology × Morphology) × List String :=
  let m := morphology
  match get_path_to_root new_root_node m with
  | none => ((.error "TypeError", morphology), [])
  | some p0 =>
    let path_up := p0.filter (fun n => !(n == new_root_node))
    match path_up.getLast? with
    | none => ((.error "IndexError", morphology), [])
    | some current_root =>
      let _path_down := ((bfs_tree new_root_node m).1).filter (fun n => !(n == new_root_node))
      if ¬ overwrite_soma ∧ current_root.type = 1 then
        ((.ok m, morphology),
         ["You are trying to re-root a segment that has a node of type 1 as its curent root"])
      else
        match reStructGo (path_up.map (·.id)) new_root_node.id m 0 (path_up.map (·.id)) with
        | .error e => ((.error e, morphology), [])
        | .ok m1 =>
          let m2 := setParent m1 new_root_node.id new_roots_parent
          ((.ok m2, morphology), [])

/-! ## assign_soma_by_node_degree (lines 64-119)

Does NOT clone: the chosen node's type is promoted on the caller's own node
records.  The centroid tie-break compares distances to the coordinate mean;
the model scales by the node count to stay in the integers (comparisons are
unchanged).  Returns (result, callerAfter, messages). -/

def scaledCentroidDist (count sx sy sz : Int) (n : SwcNode) : Int :=
  (count * n.x - sx)^2 + (count * n.y - sy)^2 + (count * n.z - sz)^2

/-- Running strict minimum, first minimizer wins (Python starts at inf). -/
def pickClosest (dist : SwcNode → Int) : Option (Int × Int) → List SwcNode → Option (Int × Int)
  | acc, [] => acc
  | none, nd :: rest => pickClosest dist (some (dist nd, nd.id)) rest
  | some (bd, bi), nd :: rest =>
    if dist nd < bd then pickClosest dist (some (dist nd, nd.id)) rest
    else pickClosest dist (some (bd, bi)) rest

def assign_soma_by_node_degree (morphology : Morphology) (num_children_threshold : Nat) :
    (Except String Morphology × Morphology) × List String :=
  let somaTypes := morphology.filter (fun n => n.type == 1)
  if somaTypes.length = 1 then ((.ok morphology, morphology), [])
  else
    match morphology with
    | [] => ((.error "ValueError", morphology), [])
    | _ =>
      let counts := morphology.map (fun n => (n.id, (childrenOfId morphology n.id).length))
      let maxC := (counts.map (·.2)).foldl max 0
      if num_children_threshold ≤ maxC then
        let no_ids := (counts.filter (fun p => p.2 == maxC)).map (·.1)
        let cand := no_ids.filterMap (node_by_id morphology)
        let chosen :=
          if 1 < no_ids.length then
            let count : Int := morphology.length
            let sx := (morphology.map (·.x)).sum
            let sy := (morphology.map (·.y)).sum
            let sz := (morphology.map (·.z)).sum
            match pickClosest (scaledCentroidDist count sx sy sz) none cand with
            | some best => best.2
            | none => no_ids.headD 0
          else no_ids.headD 0
        let m2 := setType morphology chosen 1
        ((.ok m2, m2), ["New Morphs Soma"])
      else
        ((.ok morphology, morphology), ["no nodes reach the child count threshold"])

/-! ## remove_duplicate_soma (lines 122-181); clones its argument.

The soma coordinates are dereferenced (line 138) before the no-soma
diagnostic branch (line 151) can run, so a missing soma is a TypeError.
Returns (result, callerAfter, messages). -/
/-- The body of remove_duplicate_soma once the soma option has been
dereferenced (everything from line 138 on); the line-143 test on the soma
option is kept, its else branch being the no-soma diagnostic of line 151. -/
def removeDupCore (morphology : Morphology) (s : SwcNode) :
    (Except String Morphology × Morphology) × List String :=
  let m := morphology
  let dups0 := m.filter (fun n => n.x == s.x && n.y == s.y && n.z == s.z)
  if s ∈ dups0 then
    let dups := dups0.erase s
    if dups = [] then
      if (some s : Option SwcNode).isSome then
        if s.id ≠ 1 then
          match (sort_morph_ids m (some s) 0).1 with
          | .error e => ((.error e, morphology), [])
          | .ok y =>
            match get_soma y with
            | none => ((.error "TypeError", morphology), [])
            | some s2 =>
              ((.ok y, morphology),
               if s2.parent ≠ -1 then ["UH SOMAS PARENT IS NOT -1"] else [])
        else
          ((.ok m, morphology), if s.parent ≠ -1 then ["UH SOMAS PARENT IS NOT -1"] else [])
      else ((.ok m, morphology), ["No Soma?"])
    else
      let dupIds := dups.map (·.id)
      let children_of_soma := m.filter
        (fun n => dupIds.contains n.parent && !(dups.contains n))
      let m1 := children_of_soma.foldl (fun mm n => setParent mm n.id s.id) m
      let m2 := setType (setParent m1 s.id (-1)) s.id 1
      let keeping := m2.filter (fun n => !(dupIds.contains n.id))
      match get_soma keeping with
      | none => ((.error "TypeError", morphology), [])
      | some s2 =>
        if s2.id ≠ 1 then
          match (sort_morph_ids keeping none 0).1 with
          | .error e => ((.error e, morphology), [])
          | .ok y => ((.ok y, morphology), [])
        else ((.ok keeping, morphology), [])
  else ((.error "ValueError", morphology), [])

def remove_duplicate_soma (morphology : Morphology) (soma : Option SwcNode) :
    (Except String Morphology × Morphology) × List String :=
  match (match soma with | some s => some s | none => get_soma morphology) with
  | none => ((.error "TypeError", morphology), [])
  | some s => removeDupCore morphology s

/-! ## generate_irreducible_morph (lines 12-61); clones its argument.

The per-leaf pass keeps the binding of the loop variable next_node_up
across passes (lastTop); a pass whose filtered path has a single node
either raises NameError (no previous binding) or re-marks and re-appends
the stale node. -/

structure IrrState where
  nodes : Morphology
  appended : List Int
  lastTop : Option Int
deriving Repr

def irrLeafStep (irrIds : List Int) (st : IrrState) (leafId : Int) : Except String IrrState :=
  match node_by_id st.nodes leafId with
  | none => .error "KeyError"
  | some leafCur =>
    match get_path_to_root leafCur st.nodes with
    | none => .error "TypeError"
    | some p0 =>
      let p := if leafCur ∈ p0 then p0 else leafCur :: p0
      let filt := p.filter (fun n => irrIds.contains n.id)
      let pairs := filt.zip filt.tail
      match pairs.getLast? with
      | some lastPr =>
        let nodes2 := pairs.foldl (fun mm pr => setParent mm pr.1.id pr.2.id) st.nodes
        .ok { nodes := setType nodes2 lastPr.2.id 1,
              appended := st.appended ++ pairs.map (·.1.id) ++ [lastPr.2.id],
              lastTop := some lastPr.2.id }
      | none =>
        match st.lastTop with
        | none => .error "NameError"
        | some tid =>
          .ok { nodes := setType st.nodes tid 1,
                appended := st.appended ++ [tid],
                lastTop := some tid }

def irrLoop (irrIds : List Int) : IrrState → List Int → Except String IrrState
  | st, [] => .ok st
  | st, l :: rest =>
    match irrLeafStep irrIds st l with
    | .error e => .error e
    | .ok st2 => irrLoop irrIds st2 rest

def generate_irreducible_morph (morph : Morphology) :
    Except String (Option Morphology) × Morphology :=
  let m := morph
  let irrIds0 := (m.filter (fun n =>
      decide (1 < (get_children m n).length) || decide ((get_children m n).length = 0)
        || (n.parent == -1))).map (·.id)
  let somaRes : Option (SwcNode × List Int) :=
    match get_soma m with
    | some s => some (s, if irrIds0.contains s.id then irrIds0 else irrIds0 ++ [s.id])
    | none =>
      let soma_list := m.filter (fun n => n.parent == -1)
      match soma_list with
      | [s] => some (s, irrIds0)
      | _ => none
  match somaRes with
  | none => (.ok none, morph)
  | some (_, irrIds) =>
    let leaves := (m.filter (fun n => (get_children m n).length = 0)).map (·.id)
    match irrLoop irrIds { nodes := m, appended := [], lastTop := none } leaves with
    | .error e => (.error e, morph)
    | .ok stF =>
      (.ok (some (dedupById (stF.appended.filterMap (node_by_id stF.nodes)))), morph)

/-! ## check_morph_for_segment_restructuring (lines 322-362); clones its
argument, then repeatedly calls re_root_morphology on its working copy. -/

/-- The inner leaf loop: running strict minimum of the squared distance to
the soma coordinate, flagging a change whenever a leaf improves on it. -/
def closestStep (s : SwcNode) (acc : Bool × Int × SwcNode) (leaf : SwcNode) :
    Bool × Int × SwcNode :=
  if sqDist leaf s < acc.2.1 then (true, sqDist leaf s, leaf) else acc

def checkRootStep (s : SwcNode) (cur : Morphology) (changes : Bool) (rid : Int) :
    Except String (Morphology × Bool) :=
  match node_by_id cur rid with
  | none => .error "KeyError"
  | some r =>
    let seg := (bfs_tree r cur).1
    let leafs := seg.filter (fun n => (get_children cur n).isEmpty)
    let res := leafs.foldl (closestStep s) (changes, sqDist r s, r)
    if res.2.2 == r then .ok (cur, res.1)
    else
      match (re_root_morphology res.2.2 cur).1 with
      | .error e => .error e
      | .ok m2 => .ok (m2, res.1)

def checkLoop (s : SwcNode) : Morphology → Bool → List Int → Except String (Morphology × Bool)
  | cur, ch, [] => .ok (cur, ch)
  | cur, ch, rid :: rest =>
    match checkRootStep s cur ch rid with
    | .error e => .error e
    | .ok (m2, ch2) => checkLoop s m2 ch2 rest

def check_morph_for_segment_restructuring (morph : Morphology) :
    Except String (Morphology × Bool) × Morphology :=
  let m := morph
  match get_soma m with
  | none => (.ok (m, false), morph)
  | some s =>
    let roots0 := ((get_roots m).filter (fun n => !(n == s))).map (·.id)
    (checkLoop s m false roots0, morph)

/-! ## Derived predicates and concrete example trees used in the theorems -/

/-- The node-to-root path relation: p is the parent chain from n (included)
up to and including the root. -/
inductive IsPath (m : Morphology) : SwcNode → List SwcNode → Prop
  | root (n : SwcNode) : n.parent = -1 → IsPath m n [n]
  | step (n pn : SwcNode) (q : List SwcNode) :
      n.parent ≠ -1 → node_by_id m n.parent = some pn → IsPath m pn q →
      IsPath m n (n :: q)

/-- a is a weak ancestor of x (x is in the subtree below a). -/
def Anc (m : Morphology) (a x : SwcNode) : Prop :=
  ∃ p, IsPath m x p ∧ a ∈ p

/-- Pointwise application of a parent-update list to one node. -/
def applyUpds (us : List (Int × Int)) (n : SwcNode) : SwcNode :=
  us.foldl (fun nn kv => if nn.id = kv.1 then { nn with parent := kv.2 } else nn) n

/-- The parent assigned by walking a chain id list: the head id maps to
prev, every later id maps to its predecessor in the list. -/
def chainAssign (prev : Int) : List Int → Int → Option Int
  | [], _ => none
  | a :: t, i => if i = a then some prev else chainAssign a t i

/-- One chain update as a pointwise node function. -/
def chainUpd (prev : Int) (ks : List Int) (x : SwcNode) : SwcNode :=
  match chainAssign prev ks x.id with
  | some v => { x with parent := v }
  | none => x

/-- The node enumeration order of sort_morph_ids: the soma subtree in
depth-first pre-order, then each remaining root subtree in turn. -/
def sortOrder (m : Morphology) (s : SwcNode) : Morphology :=
  dfsF m (m.length + 1) s ++
    ((get_roots m).erase s).flatMap (dfsF m (m.length + 1))

/-- The node a line of the sorted file carries: position i of the sort
order keeps its fields, receives id i+1, and its parent is remapped to the
position (plus one) of its old parent in the order; parent -1 stays -1. -/
def relabelNode (L : Morphology) (i : Nat) (n : SwcNode) : SwcNode :=
  { n with
    id := (i : Int) + 1
    parent := if n.parent = -1 then -1
      else (match L.findIdx? (fun c => c.id == n.parent) with
        | some j => (j : Int) + 1
        | none => n.parent) }

/-- The morphology sort_morph_ids reparses from the sorted file. -/
def sortedOf (m : Morphology) (s : SwcNode) : Morphology :=
  (sortOrder m s).mapIdx (fun i n => relabelNode (sortOrder m s) i n)

/-- Leaf identifiers of a tree: nodes with no children. -/
def leafIds (m : Morphology) : List Int :=
  (m.filter (fun n => (get_children m n).isEmpty)).map (·.id)

/-- A compact node builder for the example trees (y, z, radius fixed). -/
def nd (i t x p : Int) : SwcNode :=
  { id := i, type := t, x := x, y := 0, z := 0, radius := 1, parent := p }

/-- Soma chain 3 -> 5 -> 4 plus a separate root 9 with child 7. -/
def exSorted : Morphology := [nd 5 3 0 3, nd 3 1 0 (-1), nd 4 3 0 5, nd 9 3 5 (-1), nd 7 3 6 9]

/-- Soma 1 with leaf 2, plus the isolated node 3 (both a root and a leaf). -/
def exIsolated : Morphology := [nd 1 1 0 (-1), nd 2 3 1 1, nd 3 3 2 (-1)]

/-- A tree whose only node is isolated (a root and a leaf at once). -/
def exIsolatedOnly : Morphology := [nd 3 3 2 (-1)]

/-- The isolated node 3 comes first in node order, so it is the first leaf
enumerated; the soma 1 with its leaf 2 follows. -/
def exIsolatedFirst : Morphology := [nd 3 3 2 (-1), nd 1 1 0 (-1), nd 2 3 1 1]

/-- A soma-less single node tree. -/
def exNoSoma : Morphology := [nd 1 3 0 (-1)]

/-- Chain 3 -> 5 -> 4 with soma 3 at the root. -/
def exChain : Morphology := [nd 5 3 0 3, nd 3 1 0 (-1), nd 4 3 0 5]

/-- Three nodes, no soma, node 1 has two children: assign_soma promotes node 1
on the caller's own records. -/
def exDegree : Morphology := [nd 1 3 0 (-1), nd 2 3 1 1, nd 3 3 2 1]

/-- The idempotence counterexample: the first type-1 node (id 2) hangs below
root 1 behind chain node 5, a second type-1 node (id 3) sits deeper in the
same subtree, and node 4 is a coordinate twin of node 3 on its own root. -/
def exDupTwin : Morphology :=
  [ { id := 5, type := 0, x := 1, y := 0, z := 0, radius := 1, parent := 1 },
    { id := 2, type := 1, x := 0, y := 0, z := 0, radius := 1, parent := 1 },
    { id := 3, type := 1, x := 10, y := 0, z := 0, radius := 1, parent := 5 },
    { id := 1, type := 3, x := 5, y := 0, z := 0, radius := 1, parent := -1 },
    { id := 4, type := 0, x := 10, y := 0, z := 0, radius := 1, parent := -1 } ]

/-- Soma at the origin and a disconnected chain 10 -> 11 -> 12 whose leaf 12
is far nearer the soma than the segment root 10. -/
def exSegment : Morphology := [nd 1 1 0 (-1), nd 10 3 100 (-1), nd 11 3 50 10, nd 12 3 1 11]

/-- Relabeling through the first position of a node id in the enumeration
order; id-based form of relabelNode used to describe the remapping loop. -/
def relabelById (L : Morphology) (n : SwcNode) : SwcNode :=
  match L.findIdx? (fun c => c.id == n.id) with
  | some j => relabelNode L j n
  | none => n

/-- A unique soma that is not a root: root 1 of type 3 with the soma 2 as
its only child. -/
def exNonRootSoma : Morphology := [nd 1 3 0 (-1), nd 2 1 0 1]

/-- The duplicate-soma list of remove_duplicate_soma: nodes at the soma
coordinates, with the soma record itself erased. -/
def dupsOf (m : Morphology) (s : SwcNode) : Morphology :=
  (m.filter (fun n => n.x == s.x && n.y == s.y && n.z == s.z)).erase s

def dupIdsOf (m : Morphology) (s : SwcNode) : List Int := (dupsOf m s).map (·.id)

/-- The children-of-soma test of remove_duplicate_soma line 158. -/
def childTest (m : Morphology) (s : SwcNode) (n : SwcNode) : Bool :=
  (dupIdsOf m s).contains n.parent && !((dupsOf m s).contains n)

/-- The pointwise record update performed by the duplicate branch: adopted
children take the soma as parent, then the soma record is forced to parent
-1 and type 1. -/
def keepFun (m : Morphology) (s : SwcNode) (n : SwcNode) : SwcNode :=
  let n1 := if n.id ∈ (m.filter (childTest m s)).map (·.id) then { n with parent := s.id }
            else n
  let n2 := if n1.id = s.id then { n1 with parent := -1 } else n1
  if n2.id = s.id then { n2 with type := 1 } else n2

/-- The node list kept by the duplicate branch of remove_duplicate_soma. -/
def keepingOf (m : Morphology) (s : SwcNode) : Morphology :=
  (m.filter (fun n => !((dupIdsOf m s).contains n.id))).map (keepFun m s)

/-- A segment root is stable when no leaf below it is strictly nearer the
soma coordinate than the root itself. -/
def Stable (s : SwcNode) (M : Morphology) (z : SwcNode) : Prop :=
  ∀ y ∈ M, Anc M z y → (get_children M y).isEmpty = true →
    ¬ (sqDist y s < sqDist z s)

/-- cur is m with the same records in the same positions, only parent
fields reassigned. -/
def ParentsOnly (m cur : Morphology) : Prop :=
  cur.length = m.length ∧ ∀ j, ∀ hj : j < cur.length, ∀ hj2 : j < m.length,
    cur.get ⟨j, hj⟩ = { m.get ⟨j, hj2⟩ with parent := (cur.get ⟨j, hj⟩).parent }

/-- The segment of the root with id rid is untouched: the root record and
every node below it (with its child list) are exactly as in m. -/
def SegSame (m cur : Morphology) (rid : Int) : Prop :=
  ∃ r, node_by_id m rid = some r ∧ r.parent = -1 ∧ node_by_id cur rid = some r ∧
    (∀ y ∈ m, Anc m r y → y ∈ cur ∧ get_children cur y = get_children m y)

/-- Loop invariant of check_morph_for_segment_restructuring: the working
tree stays valid, only parents moved, pending segments untouched, and all
finished non-soma roots stable. -/
def LoopInv (m : Morphology) (s : SwcNode) (cur : Morphology) (rest : List Int) : Prop :=
  valid cur ∧ ParentsOnly m cur ∧
  (∀ rid ∈ rest, SegSame m cur rid) ∧
  (∀ z ∈ get_roots cur, z.id ∉ rest → z.id = s.id ∨ Stable s cur z)

/-- The root with id rid has a leaf strictly nearer the soma than itself. -/
def Unstable (s : SwcNode) (m : Morphology) (rid : Int) : Prop :=
  ∃ r y, node_by_id m rid = some r ∧ y ∈ m ∧ Anc m r y ∧
    (get_children m y).isEmpty = true ∧ sqDist y s < sqDist r s

/-! ## Basic lookup lemmas -/

theorem node_by_id_mem {m : Morphology} {i : Int} {n : SwcNode}
    (h : node_by_id m i = some n) : n ∈ m ∧ n.id = i := by
  unfold node_by_id at h
  refine ⟨List.mem_of_find?_eq_some h, ?_⟩
  have := List.find?_some h
  simpa using this

theorem node_by_id_self {m : Morphology} (hn : (m.map (·.id)).Nodup)
    {n : SwcNode} (h : n ∈ m) : node_by_id m n.id = some n := by
  unfold node_by_id
  induction m with
  | nil => simp at h
  | cons a t ih =>
    simp only [List.map_cons, List.nodup_cons] at hn
    rcases List.mem_cons.1 h with rfl | ht
    · simp
    · have hne : ¬ (a.id == n.id) := by
        intro hbe
        exact hn.1 (by
          have hmm : n.id ∈ t.map (·.id) := List.mem_map.2 ⟨n, ht, rfl⟩
          simpa [eq_comm, (beq_iff_eq).1 hbe] using hmm)
      simp only [List.find?]
      rw [show (a.id == n.id) = false from by simpa using hne]
      exact ih hn.2 ht

theorem mem_childrenOfId {m : Morphology} {i : Int} {c : SwcNode} :
    c ∈ childrenOfId m i ↔ c ∈ m ∧ c.parent = i := by
  unfold childrenOfId
  simp [List.mem_filter]

theorem mem_get_roots {m : Morphology} {c : SwcNode} :
    c ∈ get_roots m ↔ c ∈ m ∧ c.parent = -1 := by
  unfold get_roots
  simp [List.mem_filter]

theorem nodes_eq_of_id_eq {m : Morphology} (hn : (m.map (·.id)).Nodup)
    {a b : SwcNode} (ha : a ∈ m) (hb : b ∈ m) (hid : a.id = b.id) : a = b := by
  have h1 := node_by_id_self hn ha
  have h2 := node_by_id_self hn hb
  rw [hid] at h1
  rw [h1] at h2
  exact Option.some.inj h2

/-! ## The path predicate -/

theorem IsPath.head_cons {m : Morphology} {n : SwcNode} {p : List SwcNode}
    (h : IsPath m n p) : ∃ q, p = n :: q := by
  cases h with
  | root n hr => exact ⟨[], rfl⟩
  | step n pn q hnr hf hq => exact ⟨q, rfl⟩

theorem IsPath.ne_nil {m : Morphology} {n : SwcNode} {p : List SwcNode}
    (h : IsPath m n p) : p ≠ [] := by
  obtain ⟨q, rfl⟩ := h.head_cons
  simp

theorem IsPath.deterministic {m : Morphology} {n : SwcNode} {p q : List SwcNode}
    (hp : IsPath m n p) (hq : IsPath m n q) : p = q := by
  induction hp generalizing q with
  | root a har =>
    cases hq with
    | root _ _ => rfl
    | step _ pn q2 hnr hf h2 => exact absurd har hnr
  | step a pa qa hnr hf hqa ih =>
    cases hq with
    | root _ har => exact absurd har hnr
    | step _ pb qb hnr2 hf2 h2 =>
      rw [hf] at hf2
      cases hf2
      rw [ih h2]

theorem IsPath.tail_subset {m : Morphology} {n : SwcNode} {p : List SwcNode}
    (h : IsPath m n p) : ∀ x ∈ p, x = n ∨ x ∈ m := by
  induction h with
  | root a har => intro x hx; left; simpa using hx
  | step a pa qa hnr hf hqa ih =>
    intro x hx
    rcases List.mem_cons.1 hx with rfl | hx2
    · exact Or.inl rfl
    · rcases ih x hx2 with rfl | hm
      · exact Or.inr (node_by_id_mem hf).1
      · exact Or.inr hm

theorem IsPath.subset_of_mem {m : Morphology} {n : SwcNode} {p : List SwcNode}
    (h : IsPath m n p) (hn : n ∈ m) : ∀ x ∈ p, x ∈ m := by
  intro x hx
  rcases h.tail_subset x hx with rfl | hm
  · exact hn
  · exact hm

/-- Every suffix of a path starting at one of its members is that member's path. -/
theorem IsPath.drop {m : Morphology} {n : SwcNode} {p : List SwcNode}
    (h : IsPath m n p) : ∀ i, ∀ hi : i < p.length, IsPath m (p.get ⟨i, hi⟩) (p.drop i) := by
  induction h with
  | root a har =>
    intro i hi
    simp only [List.length_singleton] at hi
    interval_cases i
    · simpa using @IsPath.root m a har
  | step a pa qa hnr hf hqa ih =>
    intro i hi
    match i with
    | 0 => simpa using IsPath.step a pa qa hnr hf hqa
    | Nat.succ j =>
      simp only [List.length_cons, Nat.succ_lt_succ_iff] at hi
      simpa using ih j hi

theorem IsPath.mem_imp_path {m : Morphology} {n : SwcNode} {p : List SwcNode}
    (h : IsPath m n p) {x : SwcNode} (hx : x ∈ p) : ∃ i, ∃ hi : i < p.length,
      p.get ⟨i, hi⟩ = x ∧ IsPath m x (p.drop i) := by
  obtain ⟨⟨i, hi⟩, hget⟩ := List.mem_iff_get.1 hx
  refine ⟨i, hi, hget, ?_⟩
  have := h.drop i hi
  rwa [hget] at this

theorem IsPath.nodup {m : Morphology} {n : SwcNode} {p : List SwcNode}
    (h : IsPath m n p) : p.Nodup := by
  rw [List.nodup_iff_injective_get]
  rintro ⟨i, hi⟩ ⟨j, hj⟩ hij
  by_contra hne
  have hi' := h.drop i hi
  have hj' := h.drop j hj
  rw [hij] at hi'
  have := hi'.deterministic hj'
  have hlen : p.length - i = p.length - j := by
    have := congrArg List.length this
    simpa using this
  have : i = j := by omega
  exact hne (by simpa using this)

theorem IsPath.last_root {m : Morphology} {n : SwcNode} {p : List SwcNode}
    (h : IsPath m n p) : (p.getLast h.ne_nil).parent = -1 := by

  induction h with
  | root a har => simpa using har
  | step a pa qa hnr hf hqa ih =>
    rwa [List.getLast_cons hqa.ne_nil]

/-- Consecutive path entries: each entry's parent resolves to the next entry. -/
theorem IsPath.consecutive {m : Morphology} {n : SwcNode} {p : List SwcNode}
    (h : IsPath m n p) : ∀ i, ∀ hi : i + 1 < p.length,
      (p.get ⟨i, by omega⟩).parent ≠ -1 ∧
      node_by_id m ((p.get ⟨i, by omega⟩).parent) = some (p.get ⟨i + 1, hi⟩) := by
  induction h with
  | root a har =>
    intro i hi
    simp at hi
  | step a pa qa hnr hf hqa ih =>
    intro i hi
    match i with
    | 0 =>
      obtain ⟨q2, rfl⟩ := hqa.head_cons
      exact ⟨hnr, by simpa using hf⟩
    | Nat.succ j =>
      simp only [List.length_cons, Nat.succ_lt_succ_iff] at hi
      simpa using ih j hi

/-! ## Relating the fuelled walk to the path predicate -/

theorem pathToRootF_isPath {m : Morphology} :
    ∀ {f : Nat} {n : SwcNode} {p : List SwcNode},
      pathToRootF m f n = some p → IsPath m n p := by
  intro f
  induction f with
  | zero => intro n p h; simp [pathToRootF] at h
  | succ f ih =>
    intro n p h
    unfold pathToRootF at h
    by_cases hr : n.parent = -1
    · simp only [hr, if_pos rfl] at h
      cases h
      exact IsPath.root n hr
    · rw [if_neg hr] at h
      cases hf : node_by_id m n.parent with
      | none => rw [hf] at h; simp at h
      | some pn =>
        rw [hf] at h
        dsimp only at h
        cases hq : pathToRootF m f pn with
        | none => rw [hq] at h; simp at h
        | some q =>
          rw [hq] at h
          have h2 : some (n :: q) = some p := h
          cases h2
          exact IsPath.step n pn q hr hf (ih hq)

theorem isPath_pathToRootF {m : Morphology} {n : SwcNode} {p : List SwcNode}
    (h : IsPath m n p) : ∀ f, p.length ≤ f → pathToRootF m f n = some p := by
  induction h with
  | root a har =>
    intro f hf
    match f with
    | Nat.succ f2 => simp [pathToRootF, har]
  | step a pa qa hnr hf2 hqa ih =>
    intro f hf
    match f with
    | Nat.succ f2 =>
      unfold pathToRootF
      rw [if_neg hnr, hf2]
      dsimp only
      rw [ih f2 (by simpa using Nat.succ_le_succ_iff.1 hf)]
      rfl

theorem IsPath.length_le {m : Morphology} {n : SwcNode} {p : List SwcNode}
    (h : IsPath m n p) (hn : n ∈ m) : p.length ≤ m.length :=
  ((h.nodup).subperm (fun x hx => h.subset_of_mem hn x hx)).length_le

theorem IsPath.get_path {m : Morphology} {n : SwcNode} {p : List SwcNode}
    (h : IsPath m n p) (hn : n ∈ m) : get_path_to_root n m = some p :=
  isPath_pathToRootF h _ (Nat.le_succ_of_le (h.length_le hn))

theorem valid_isPath {m : Morphology} (hv : valid m) {n : SwcNode} (hn : n ∈ m) :
    ∃ p, IsPath m n p := by
  rcases hv with ⟨_, _, hp⟩
  have := hp n hn
  cases h : get_path_to_root n m with
  | none => rw [h] at this; simp at this
  | some p => exact ⟨p, pathToRootF_isPath h⟩

/-! ## Ancestry -/

theorem Anc.refl {m : Morphology} {x : SwcNode} {p : List SwcNode}
    (h : IsPath m x p) : Anc m x x := by
  obtain ⟨q, rfl⟩ := h.head_cons
  exact ⟨x :: q, h, List.mem_cons_self x q⟩

/-- The path of a weak ancestor is a suffix of the path. -/
theorem Anc.path_suffix {m : Morphology} {a x : SwcNode} {p : List SwcNode}
    (hp : IsPath m x p) (ha : a ∈ p) : ∃ i, ∃ hi : i < p.length,
      p.get ⟨i, hi⟩ = a ∧ IsPath m a (p.drop i) :=
  hp.mem_imp_path ha

/-- A strict descendant lies below a child of the ancestor. -/
theorem Anc.exists_child {m : Morphology}
    {a x : SwcNode} (hx : x ∈ m) (h : Anc m a x) (hne : x ≠ a) :
    ∃ c, c ∈ m ∧ c.parent = a.id ∧ Anc m c x := by
  obtain ⟨p, hp, hap⟩ := h
  obtain ⟨i, hi, hget, hdrop⟩ := hp.mem_imp_path hap
  match i with
  | 0 =>
    exfalso
    obtain ⟨q, rfl⟩ := hp.head_cons
    simp only [List.get] at hget
    exact hne hget
  | Nat.succ j =>
    have hcons := hp.consecutive j hi
    set c := p.get ⟨j, by omega⟩ with hc
    have hcp : node_by_id m c.parent = some (p.get ⟨j+1, hi⟩) := hcons.2
    have hcm : c ∈ m := hp.subset_of_mem hx c (List.get_mem p j (by omega))
    refine ⟨c, hcm, ?_, ⟨p, hp, List.get_mem p j (by omega)⟩⟩
    have := (node_by_id_mem hcp).2
    rw [hget] at this
    exact this.symm

/-! ## Claim C9 -/

/-- C9: remove_duplicate_soma requires a soma: when the soma lookup yields
none and the soma argument is omitted, the call fails with the TypeError of
dereferencing the absent soma coordinates (line 138), and the no-soma
diagnostic branch of line 151 is unreachable: no call ever emits it. -/
theorem remove_duplicate_soma_requires_soma :
    (∀ m : Morphology, get_soma m = none →
      (remove_duplicate_soma m none).1.1 = .error "TypeError") ∧
    (∀ (m : Morphology) (a : Option SwcNode),
      "No Soma?" ∉ (remove_duplicate_soma m a).2) := by
  have hcore : ∀ (m : Morphology) (s : SwcNode), "No Soma?" ∉ (removeDupCore m s).2 := by
    intro m s
    unfold removeDupCore
    dsimp only
    split
    · split
      · split
        · split
          · split
            · simp
            · split
              · simp
              · split <;> simp
          · split <;> simp
        · next h => exact absurd rfl h
      · split
        · simp
        · split
          · split <;> simp
          · simp
    · simp
  constructor
  · intro m hs
    unfold remove_duplicate_soma
    dsimp only
    rw [hs]
  · intro m a
    unfold remove_duplicate_soma
    cases a with
    | some s => exact hcore m s
    | none =>
      cases hs : get_soma m with
      | none => simp
      | some s =>
        dsimp only
        exact hcore m s

/-- C9 witness: a soma-less tree makes the call fail with TypeError. -/
theorem remove_duplicate_soma_requires_soma_witness :
    (remove_duplicate_soma exNoSoma none).1.1 = .error "TypeError" :=
  remove_duplicate_soma_requires_soma.1 exNoSoma (by decide)

/-! ## Claim C7 -/

/-- The temporary-file ledger of sort_morph_ids as a function of its
outcome: success removes both files, every failure leaves the unsorted one
(each failure point of the source lies after the unsorted file is written
at line 201 and before the removals at lines 254-255, and no handler
deletes it). -/
theorem sort_fs_spec (m : Morphology) (s : Option SwcNode) (sid : Nat) :
    (sort_morph_ids m s sid).2 =
      (match (sort_morph_ids m s sid).1 with
        | .ok _ => []
        | .error _ => [TempSwc.tempUnsorted sid]) := by
  unfold sort_morph_ids
  dsimp only
  split
  · rfl
  · split
    · rfl
    · split
      · split
        · rfl
        · rfl
      · rfl

/-- C7 counterexample: on a soma-less tree the call fails and its unsorted
temporary file remains on disk, so not every exit path releases the
temporary serialized representation. -/
theorem sort_temp_leak_cex :
    (sort_morph_ids exNoSoma none 7).1 = .error "TypeError" ∧
    (sort_morph_ids exNoSoma none 7).2 = [TempSwc.tempUnsorted 7] :=
  ⟨rfl, rfl⟩

/-- C7 amended: sort_morph_ids removes both temporary files on the
successful exit path, but on every failing path (there is no try/finally in
the source) the unsorted temporary file created at line 201 remains. -/
theorem sort_temp_cleanup_success_only :
    (∀ (m : Morphology) (s : Option SwcNode) (sid : Nat) (y : Morphology),
      (sort_morph_ids m s sid).1 = .ok y → (sort_morph_ids m s sid).2 = []) ∧
    (∀ (m : Morphology) (s : Option SwcNode) (sid : Nat) (e : String),
      (sort_morph_ids m s sid).1 = .error e →
        (sort_morph_ids m s sid).2 = [TempSwc.tempUnsorted sid]) := by
  constructor
  · intro m s sid y h
    rw [sort_fs_spec, h]
  · intro m s sid e h
    rw [sort_fs_spec, h]

/-- C7 amended witness: a successful call leaves no file, a failing call
leaves the unsorted file. -/
theorem sort_temp_cleanup_success_only_witness :
    (sort_morph_ids exChain none 3).2 = [] ∧
    (sort_morph_ids exNoSoma none 7).2 = [TempSwc.tempUnsorted 7] :=
  ⟨sort_temp_cleanup_success_only.1 exChain none 3
     [nd 1 1 0 (-1), nd 2 3 0 1, nd 3 3 0 2] (by rfl),
   sort_temp_cleanup_success_only.2 exNoSoma none 7 "TypeError" (by rfl)⟩

/-! ## Claim C3 -/

/-- C3 counterexample: assign_soma_by_node_degree and re_root_morphology
mutate the node records of the tree the caller passes in (neither clones):
after the calls the caller's records differ from what was passed. -/
theorem caller_tree_mutated_cex :
    (assign_soma_by_node_degree exDegree 2).1.2 ≠ exDegree ∧
    (re_root_morphology (nd 4 3 0 5) exChain).2 ≠ exChain := by
  constructor
  · decide
  · decide

/-- C3 amended: generate_irreducible_morph, remove_duplicate_soma,
re_structure_segment and check_morph_for_segment_restructuring operate on a
cloned copy, leaving the node records of the caller's tree unchanged, but
assign_soma_by_node_degree and re_root_morphology mutate the caller's node
records in place (the promoted type field, resp. the reversed parent
fields). -/
theorem clone_discipline :
    (∀ m : Morphology, (generate_irreducible_morph m).2 = m) ∧
    (∀ (m : Morphology) (a : Option SwcNode), (remove_duplicate_soma m a).1.2 = m) ∧
    (∀ (m : Morphology) (n : SwcNode) (p : Int) (b : Bool),
      (re_structure_segment m n p b).1.2 = m) ∧
    (∀ m : Morphology, (check_morph_for_segment_restructuring m).2 = m) ∧
    (assign_soma_by_node_degree exDegree 2).1.2 ≠ exDegree ∧
    (re_root_morphology (nd 4 3 0 5) exChain).2 ≠ exChain := by
  refine ⟨?_, ?_, ?_, ?_, by decide, by decide⟩
  · intro m
    unfold generate_irreducible_morph
    dsimp only
    split
    · rfl
    · split
      · rfl
      · rfl
  · intro m a
    have hcore : ∀ (mm : Morphology) (s : SwcNode), (removeDupCore mm s).1.2 = mm := by
      intro mm s
      unfold removeDupCore
      dsimp only
      split
      · split
        · split
          · split
            · split
              · rfl
              · split
                · rfl
                · rfl
            · rfl
          · rfl
        · split
          · rfl
          · split
            · split <;> rfl
            · rfl
      · rfl
    unfold remove_duplicate_soma
    split
    · rfl
    · exact hcore m _
  · intro m n p b
    unfold re_structure_segment
    dsimp only
    split
    · rfl
    · split
      · rfl
      · split
        · rfl
        · split <;> rfl
  · intro m
    unfold check_morph_for_segment_restructuring
    dsimp only
    split <;> rfl

/-! ## Claim C5 -/

/-- C5: generate_irreducible_morph does not preserve the set of leaf
identifiers: on exIsolated it succeeds yet the isolated node 3, a leaf of
the input, is absent from the output (the dangling next_node_up loop
variable of lines 46-55 re-marks the previous top instead of processing the
isolated leaf, contradicting the function docstring that all tip nodes
remain). -/
theorem irreducible_drops_isolated_leaf :
    (generate_irreducible_morph exIsolated).1 =
      .ok (some [nd 2 3 1 1, nd 1 1 0 (-1)]) ∧
    (3 : Int) ∈ leafIds exIsolated ∧
    (3 : Int) ∉ leafIds [nd 2 3 1 1, nd 1 1 0 (-1)] := by
  refine ⟨rfl, by decide, by decide⟩

/-! ## Claim C10 -/

/-- C10: generate_irreducible_morph is not total on trees with a node that
is both a leaf and a root.  First part: when such a node is the first leaf
enumerated, its root path is just itself, the re-linking loop never runs
and the use of the loop variable next_node_up at line 54 is an unbound
NameError that aborts the call.  Second part: when it is enumerated after
some other leaf, the pass appends and re-marks as soma the stale top of
the previous leaf's path instead, and the isolated node itself is neither
re-linked nor appended. -/
theorem generate_irreducible_not_total :
    (∀ (m : Morphology) (l : SwcNode), valid m → (get_soma m).isSome →
      (m.filter (fun n => (get_children m n).length = 0)).head? = some l →
      l.parent = -1 →
      (generate_irreducible_morph m).1 = .error "NameError") ∧
    (∀ (irrIds : List Int) (st : IrrState) (l : SwcNode) (t : Int),
      node_by_id st.nodes l.id = some l → l.parent = -1 → irrIds.contains l.id →
      st.lastTop = some t →
      irrLeafStep irrIds st l.id =
        .ok { nodes := setType st.nodes t 1, appended := st.appended ++ [t],
              lastTop := some t }) := by
  have hstep : ∀ (irrIds : List Int) (st : IrrState) (l : SwcNode),
      node_by_id st.nodes l.id = some l → l.parent = -1 → irrIds.contains l.id →
      irrLeafStep irrIds st l.id =
        (match st.lastTop with
         | none => .error "NameError"
         | some tid => .ok { nodes := setType st.nodes tid 1,
                             appended := st.appended ++ [tid], lastTop := some tid }) := by
    intro irrIds st l hfind hpar hcont
    have hpath : get_path_to_root l st.nodes = some [l] :=
      isPath_pathToRootF (IsPath.root l hpar) _ (by simp)
    have hmem : (if l ∈ [l] then [l] else l :: [l]) = [l] := by simp
    have hfilt : ([l].filter (fun n => irrIds.contains n.id)) = [l] := by
      have hcont2 : l.id ∈ irrIds := by simpa using hcont
      simp [List.filter, hcont2]
    unfold irrLeafStep
    rw [hfind]
    dsimp only
    rw [hpath]
    dsimp only
    rw [hmem, hfilt]
    rfl
  constructor
  · intro m l hv hs hhead hpar
    obtain ⟨s, hsome⟩ := Option.isSome_iff_exists.1 hs
    obtain ⟨tl, htl⟩ : ∃ tl, m.filter (fun n => (get_children m n).length = 0) = l :: tl := by
      cases hfl : m.filter (fun n => (get_children m n).length = 0) with
      | nil => rw [hfl] at hhead; simp at hhead
      | cons a t =>
        rw [hfl] at hhead
        simp only [List.head?] at hhead
        cases hhead
        exact ⟨t, rfl⟩
    have hl_mem_filter : l ∈ m.filter (fun n => (get_children m n).length = 0) := by
      rw [htl]
      exact List.mem_cons_self l tl
    have hlm : l ∈ m := (List.mem_filter.1 hl_mem_filter).1
    have hlleaf : (get_children m l).length = 0 := by
      have := (List.mem_filter.1 hl_mem_filter).2
      simpa using this
    have hfind : node_by_id m l.id = some l := node_by_id_self hv.1 hlm
    have hloop : ∀ I : List Int, I.contains l.id →
        irrLoop I { nodes := m, appended := [], lastTop := none }
          (l.id :: tl.map (·.id)) = .error "NameError" := by
      intro I hI
      unfold irrLoop
      rw [hstep I _ l hfind hpar hI]
    have hl0 : l.id ∈ (m.filter (fun n =>
        decide (1 < (get_children m n).length) || decide ((get_children m n).length = 0)
          || (n.parent == -1))).map (·.id) := by
      refine List.mem_map.2 ⟨l, ?_, rfl⟩
      refine List.mem_filter.2 ⟨hlm, ?_⟩
      simp [hlleaf]
    have hcont : ∀ irrIds0 : List Int, l.id ∈ irrIds0 →
        (if irrIds0.contains s.id then irrIds0 else irrIds0 ++ [s.id]).contains l.id := by
      intro irrIds0 h0
      split
      · simpa using h0
      · simp [h0]
    unfold generate_irreducible_morph
    dsimp only
    rw [hsome]
    dsimp only
    rw [htl]
    dsimp only [List.map]
    rw [hloop _ (hcont _ hl0)]
  · intro irrIds st l t hfind hpar hcont hlast
    rw [hstep irrIds st l hfind hpar hcont, hlast]

/-- C10 witness: the isolated node of exIsolatedFirst is the first leaf and
the call raises NameError; at the step level, an isolated leaf processed
with a stale previous top re-marks and re-appends that top. -/
theorem generate_irreducible_not_total_witness :
    (generate_irreducible_morph exIsolatedFirst).1 = .error "NameError" ∧
    irrLeafStep [3] { nodes := exIsolatedOnly, appended := [9], lastTop := some 9 } 3 =
      .ok { nodes := setType exIsolatedOnly 9 1, appended := [9, 9], lastTop := some 9 } := by
  constructor
  · exact generate_irreducible_not_total.1 exIsolatedFirst (nd 3 3 2 (-1))
      (by decide) (by decide) (by decide) (by decide)
  · exact generate_irreducible_not_total.2 [3]
      { nodes := exIsolatedOnly, appended := [9], lastTop := some 9 }
      (nd 3 3 2 (-1)) 9 (by decide) (by decide) (by decide) rfl

/-! ## Claim C8 -/

/-- C8: when the current root at the top of the new root node's up-path has
type 1 (soma) and overwrite_soma is false, re_structure_segment reports via
message and returns the (cloned) tree unchanged, with the caller's tree
also untouched. -/
theorem re_structure_refuses_soma_root {m : Morphology} {n r : SwcNode}
    {pth : List SwcNode}
    (hn : n ∈ m) (hnr : n.parent ≠ -1)
    (hp : IsPath m n pth) (hlast : pth.getLast? = some r) (hr1 : r.type = 1)
    (parentArg : Int) :
    re_structure_segment m n parentArg false =
      ((.ok m, m),
       ["You are trying to re-root a segment that has a node of type 1 as its curent root"]) := by
  cases hp with
  | root _ har => exact absurd har hnr
  | step _ pn q hnr2 hf hq =>
    have hp2 : IsPath m n (n :: q) := IsPath.step n pn q hnr2 hf hq
    have hget : get_path_to_root n m = some (n :: q) := hp2.get_path hn
    have hnotin : n ∉ q := (List.nodup_cons.1 hp2.nodup).1
    have hfilter : (n :: q).filter (fun x => !(x == n)) = q := by
      rw [List.filter_cons]
      have h1 : (!(n == n)) = false := by simp
      rw [h1]
      simp only [Bool.false_eq_true, if_false]
      refine List.filter_eq_self.2 ?_
      intro x hx
      have : x ≠ n := fun hxy => hnotin (hxy ▸ hx)
      simpa using this
    have hlast2 : q.getLast? = some r := by
      cases q with
      | nil => exact absurd rfl hq.ne_nil
      | cons b t => rwa [List.getLast?_cons_cons] at hlast
    unfold re_structure_segment
    dsimp only
    rw [hget]
    dsimp only
    rw [hfilter, hlast2]
    dsimp only
    rw [if_pos ⟨by simp, hr1⟩]

/-- C8 witness: on the chain 3 -> 5 -> 4 with soma root 3, asking to
re-root at node 4 with overwrite_soma set to false is refused. -/
theorem re_structure_refuses_soma_root_witness :
    re_structure_segment exChain (nd 4 3 0 5) (-1) false =
      ((.ok exChain, exChain),
       ["You are trying to re-root a segment that has a node of type 1 as its curent root"]) :=
  @re_structure_refuses_soma_root exChain (nd 4 3 0 5) (nd 3 1 0 (-1))
    [nd 4 3 0 5, nd 5 3 0 3, nd 3 1 0 (-1)]
    (by decide) (by decide)
    (@pathToRootF_isPath exChain 4 (nd 4 3 0 5)
      [nd 4 3 0 5, nd 5 3 0 3, nd 3 1 0 (-1)] (by decide))
    (by decide) (by decide) (-1)

/-! ## Parent-update machinery for the re-rooting proofs -/

theorem foldl_setParent_map (us : List (Int × Int)) (m : Morphology) :
    us.foldl (fun mm kv => setParent mm kv.1 kv.2) m = m.map (applyUpds us) := by
  induction us generalizing m with
  | nil =>
    rw [List.foldl_nil]
    have h0 : applyUpds [] = fun n : SwcNode => n := rfl
    rw [h0, List.map_id']
  | cons u t ih =>
    rw [List.foldl_cons, ih, setParent, List.map_map]
    rfl

theorem applyUpds_id (us : List (Int × Int)) (n : SwcNode) :
    (applyUpds us n).id = n.id := by
  induction us generalizing n with
  | nil => rfl
  | cons u t ih =>
    unfold applyUpds
    rw [List.foldl_cons]
    by_cases h : n.id = u.1
    · rw [if_pos h]
      have := ih { n with parent := u.2 }
      simp only [applyUpds] at this
      rw [this]
    · rw [if_neg h]
      have := ih n
      simp only [applyUpds] at this
      rw [this]

theorem chainAssign_of_not_mem {ks : List Int} {i : Int} (h : i ∉ ks) (prev : Int) :
    chainAssign prev ks i = none := by
  induction ks generalizing prev with
  | nil => rfl
  | cons a t ih =>
    unfold chainAssign
    rw [if_neg (fun he => h (by rw [he]; exact List.mem_cons_self a t))]
    exact ih (fun ht => h (List.mem_cons_of_mem a ht)) a

theorem applyUpds_zip_chain {ks : List Int} (hk : ks.Nodup) (prev : Int) (n : SwcNode) :
    applyUpds (ks.zip (prev :: ks)) n =
      (match chainAssign prev ks n.id with
       | some v => { n with parent := v }
       | none => n) := by
  induction ks generalizing prev n with
  | nil => rfl
  | cons a t ih =>
    have hk2 := List.nodup_cons.1 hk
    unfold applyUpds chainAssign
    rw [List.zip_cons_cons, List.foldl_cons]
    by_cases h : n.id = a
    · rw [if_pos h]
      have hrest : applyUpds (t.zip (a :: t)) { n with parent := prev } =
          { n with parent := prev } := by
        rw [ih hk2.2]
        have : chainAssign a t n.id = none := chainAssign_of_not_mem (h ▸ hk2.1) a
        rw [this]
      simp only [applyUpds] at hrest
      rw [hrest, if_pos h]
    · rw [if_neg h, if_neg h]
      have := ih hk2.2 a n
      simp only [applyUpds] at this
      rw [this]

theorem chainAssign_get {ks : List Int} (hk : ks.Nodup) (prev : Int) :
    ∀ i, ∀ hi : i < ks.length,
      chainAssign prev ks (ks.get ⟨i, hi⟩) =
        some ((prev :: ks).get ⟨i, by simpa using Nat.lt_succ_of_lt hi⟩) := by
  induction ks generalizing prev with
  | nil => intro i hi; simp at hi
  | cons a t ih =>
    intro i hi
    have hk2 := List.nodup_cons.1 hk
    match i with
    | 0 => simp [chainAssign]
    | Nat.succ j =>
      have hj : j < t.length := by simpa using Nat.succ_lt_succ_iff.1 hi
      have hne : t.get ⟨j, hj⟩ ≠ a := by
        intro he
        exact hk2.1 (he ▸ t.get_mem j hj)
      simp only [List.get_cons_succ]
      unfold chainAssign
      rw [if_neg hne]
      exact ih hk2.2 a j hj

theorem node_by_id_map {m : Morphology} {f : SwcNode → SwcNode}
    (hf : ∀ x, (f x).id = x.id) (i : Int) :
    node_by_id (m.map f) i = (node_by_id m i).map f := by
  unfold node_by_id
  induction m with
  | nil => rfl
  | cons a t ih =>
    simp only [List.map_cons, List.find?]
    rw [hf a]
    by_cases h : (a.id == i)
    · rw [h]
      rfl
    · rw [Bool.not_eq_true] at h
      rw [h]
      exact ih

theorem chainUpd_id (prev : Int) (ks : List Int) (x : SwcNode) :
    (chainUpd prev ks x).id = x.id := by
  unfold chainUpd
  cases chainAssign prev ks x.id <;> rfl

theorem applyUpds_eq_chainUpd {ks : List Int} (hk : ks.Nodup) (prev : Int) (n : SwcNode) :
    applyUpds (ks.zip (prev :: ks)) n = chainUpd prev ks n :=
  applyUpds_zip_chain hk prev n

theorem chainUpd_of_not_mem {ks : List Int} {x : SwcNode} (h : x.id ∉ ks) (prev : Int) :
    chainUpd prev ks x = x := by
  unfold chainUpd
  rw [chainAssign_of_not_mem h]

theorem take_succ_get {α : Type} (l : List α) : ∀ (j : Nat) (hj : j < l.length),
    l.take (j+1) = l.take j ++ [l.get ⟨j, hj⟩] := by
  induction l with
  | nil => intro j hj; simp at hj
  | cons a t ih =>
    intro j hj
    match j with
    | 0 => simp
    | Nat.succ k =>
      have hk : k < t.length := by simpa using Nat.succ_lt_succ_iff.1 hj
      show a :: t.take (k+1) = a :: t.take k ++ [t.get ⟨k, hk⟩]
      rw [ih k hk]
      rfl

theorem path_ids_nodup {m : Morphology} (hv : valid m) {n : SwcNode} (hn : n ∈ m)
    {p : List SwcNode} (hp : IsPath m n p) : (p.map (·.id)).Nodup := by
  refine List.Nodup.map_on ?_ hp.nodup
  intro x hx y hy hxy
  exact nodes_eq_of_id_eq hv.1 (hp.subset_of_mem hn x hx) (hp.subset_of_mem hn y hy) hxy

theorem chainUpd_at_get {p : List SwcNode} (hids : (p.map (·.id)).Nodup) (prev : Int) :
    ∀ j, ∀ hj : j < p.length,
      chainUpd prev (p.map (·.id)) (p.get ⟨j, hj⟩) =
        { p.get ⟨j, hj⟩ with
          parent := (prev :: p.map (·.id)).get ⟨j, by simp; omega⟩ } := by
  intro j hj
  unfold chainUpd
  have hjm : j < (p.map (·.id)).length := by simpa using hj
  have hg : (p.map (·.id)).get ⟨j, hjm⟩ = (p.get ⟨j, hj⟩).id := by
    simp
  have := chainAssign_get hids prev j hjm
  rw [hg] at this
  rw [this]

/-- Applying the walk updates of re_root_morphology reverses the path: in
the updated tree the former root heads the reversed path down to the new
root. -/
theorem rev_path {m : Morphology} (hv : valid m) {n : SwcNode} (hn : n ∈ m)
    {p : List SwcNode} (hp : IsPath m n p) :
    ∀ j, ∀ hj : j < p.length,
      IsPath (m.map (chainUpd (-1) (p.map (·.id))))
        (chainUpd (-1) (p.map (·.id)) (p.get ⟨j, hj⟩))
        ((p.take (j+1)).map (chainUpd (-1) (p.map (·.id)))).reverse := by
  have hids := path_ids_nodup hv hn hp
  intro j
  induction j with
  | zero =>
    intro hj
    have h0 : p.take 1 = [p.get ⟨0, hj⟩] := by
      have := take_succ_get p 0 hj
      simpa using this
    rw [h0]
    simp only [List.map_cons, List.map_nil, List.reverse_cons, List.reverse_nil,
      List.nil_append]
    have hc := chainUpd_at_get hids (-1) 0 hj
    rw [hc]
    exact IsPath.root _ rfl
  | succ k ih =>
    intro hj
    have hk : k < p.length := by omega
    rw [take_succ_get p (k+1) hj, List.map_append, List.reverse_append]
    simp only [List.map_cons, List.map_nil, List.reverse_cons, List.reverse_nil,
      List.nil_append, List.singleton_append]
    have hvk : p.get ⟨k, hk⟩ ∈ m := hp.subset_of_mem hn _ (List.get_mem p k hk)
    have hparent : (chainUpd (-1) (p.map (·.id)) (p.get ⟨k+1, hj⟩)).parent =
        (p.get ⟨k, hk⟩).id := by
      rw [chainUpd_at_get hids (-1) (k+1) hj]
      show (p.map (·.id)).get ⟨k, by simpa using hk⟩ = _
      simp
    refine IsPath.step _ (chainUpd (-1) (p.map (·.id)) (p.get ⟨k, hk⟩)) _ ?_ ?_ (ih hk)
    · rw [hparent]
      exact hv.2.1 _ hvk
    · rw [hparent, node_by_id_map (chainUpd_id _ _), node_by_id_self hv.1 hvk]
      rfl

/-- Walking up from the former root of a re-rooted tree and applying the
updates again restores every node. -/
theorem chainUpd_round {m : Morphology} (hv : valid m) {n : SwcNode} (hn : n ∈ m)
    {p : List SwcNode} (hp : IsPath m n p) :
    ∀ x ∈ m, chainUpd (-1) ((p.map (·.id)).reverse)
        (chainUpd (-1) (p.map (·.id)) x) = x := by
  have hids := path_ids_nodup hv hn hp
  have hidsr : ((p.map (·.id)).reverse).Nodup := List.nodup_reverse.2 hids
  intro x hx
  by_cases hmem : x.id ∈ p.map (·.id)
  · obtain ⟨⟨i, hi⟩, hgi⟩ := List.mem_iff_get.1 hmem
    have hip : i < p.length := by simpa using hi
    have hxe : x = p.get ⟨i, hip⟩ := by
      apply nodes_eq_of_id_eq hv.1 hx (hp.subset_of_mem hn _ (List.get_mem p i hip))
      rw [← hgi]
      simp
    have hj1 : p.length - 1 - i < ((p.map (·.id)).reverse).length := by
      simp
      omega
    have hgetrev : ((p.map (·.id)).reverse).get ⟨p.length - 1 - i, hj1⟩ =
        (p.get ⟨i, hip⟩).id := by
      have hidx : (⟨p.length - 1 - i, hj1⟩ : Fin ((p.map (·.id)).reverse).length) =
          ⟨(p.map (·.id)).length - 1 - i, by simp; omega⟩ := by
        apply Fin.ext
        simp
      rw [hidx, List.get_reverse (p.map (·.id)) i (by simp; omega) hi, hgi, hxe]
    have hAssign := chainAssign_get hidsr (-1) (p.length - 1 - i) hj1
    rw [hgetrev] at hAssign
    have hval : ((-1 : Int) :: (p.map (·.id)).reverse).get
        ⟨p.length - 1 - i, by simpa using Nat.lt_succ_of_lt hj1⟩ =
        (p.get ⟨i, hip⟩).parent := by
      rcases Nat.eq_zero_or_pos (p.length - 1 - i) with h0 | hpos
      · simp only [h0]
        have hieq : i = p.length - 1 := by omega
        have hlast : p.get ⟨i, hip⟩ = p.getLast hp.ne_nil := by
          rw [List.getLast_eq_getElem, List.get_eq_getElem]
          simp only [hieq]
        rw [hlast, hp.last_root]
        simp
      · have hi1 : i + 1 < p.length := by omega
        have hsucc : p.length - 1 - i = (p.length - 2 - i) + 1 := by omega
        simp only [hsucc]
        rw [List.get_cons_succ]
        have hb2 : (p.map (·.id)).length - 1 - (i+1) <
            ((p.map (·.id)).reverse).length := by
          simp
          omega
        have hcons := hp.consecutive i hi1
        have hpid := (node_by_id_mem hcons.2).2
        have hg := List.get_reverse (p.map (·.id)) (i+1) hb2 (by simpa using hi1)
        have hmap : (p.map (·.id)).get ⟨i+1, by simpa using hi1⟩ =
            (p.get ⟨i+1, hi1⟩).id := by
          simp
        rw [hmap] at hg
        rw [← hpid, ← hg]
        congr 1
        apply Fin.ext
        simp
        omega
    rw [hxe, chainUpd_at_get hids (-1) i hip]
    show chainUpd (-1) ((p.map (·.id)).reverse)
        { p.get ⟨i, hip⟩ with
          parent := ((-1 : Int) :: p.map (·.id)).get ⟨i, by simp; omega⟩ } = p.get ⟨i, hip⟩
    unfold chainUpd
    have hAssign2 : chainAssign (-1) ((p.map (·.id)).reverse)
        (({ p.get ⟨i, hip⟩ with
            parent := ((-1 : Int) :: p.map (·.id)).get ⟨i, by simp; omega⟩ } : SwcNode).id) =
        some (((-1 : Int) :: (p.map (·.id)).reverse).get
          ⟨p.length - 1 - i, by simpa using Nat.lt_succ_of_lt hj1⟩) := hAssign
    rw [hAssign2, hval]
  · rw [chainUpd_of_not_mem hmem]
    exact chainUpd_of_not_mem (by simpa using hmem) (-1)

/-! ## Claim C2 -/

/-- C2: re-rooting at any node and then re-rooting the result at the former
root (the top of that node's root path) restores the original parent/child
structure exactly. -/
theorem re_root_round_trip {m : Morphology} (hv : valid m) {n : SwcNode} (hn : n ∈ m)
    {p : List SwcNode} (hp : IsPath m n p) :
    ∃ m1 r2, (re_root_morphology n m).1 = .ok m1 ∧
      node_by_id m1 ((p.getLast hp.ne_nil).id) = some r2 ∧
      (re_root_morphology r2 m1).1 = .ok m := by
  have hids := path_ids_nodup hv hn hp
  have hidsr : ((p.map (·.id)).reverse).Nodup := List.nodup_reverse.2 hids
  have hlenpos : 0 < p.length := List.length_pos.2 hp.ne_nil
  have h1 : (re_root_morphology n m).1 =
      .ok (m.map (chainUpd (-1) (p.map (·.id)))) := by
    unfold re_root_morphology
    rw [hp.get_path hn]
    dsimp only
    rw [foldl_setParent_map]
    have hmapeq : m.map (applyUpds ((p.map (·.id)).zip (-1 :: p.map (·.id)))) =
        m.map (chainUpd (-1) (p.map (·.id))) :=
      List.map_congr_left (fun x _ => applyUpds_eq_chainUpd hids (-1) x)
    rw [hmapeq]
  have hrootmem : p.getLast hp.ne_nil ∈ m :=
    hp.subset_of_mem hn _ (List.getLast_mem hp.ne_nil)
  have h2 : node_by_id (m.map (chainUpd (-1) (p.map (·.id))))
      ((p.getLast hp.ne_nil).id) =
      some (chainUpd (-1) (p.map (·.id)) (p.getLast hp.ne_nil)) := by
    rw [node_by_id_map (chainUpd_id _ _), node_by_id_self hv.1 hrootmem]
    rfl
  have hplast : p.getLast hp.ne_nil = p.get ⟨p.length - 1, by omega⟩ := by
    rw [List.getLast_eq_getElem, List.get_eq_getElem]
  have hrev := rev_path hv hn hp (p.length - 1) (by omega)
  rw [show p.length - 1 + 1 = p.length from by omega, List.take_length] at hrev
  have hmem1 : chainUpd (-1) (p.map (·.id)) (p.get ⟨p.length - 1, by omega⟩) ∈
      m.map (chainUpd (-1) (p.map (·.id))) :=
    List.mem_map.2 ⟨_, hp.subset_of_mem hn _ (List.get_mem p _ _), rfl⟩
  have hget2 : get_path_to_root
      (chainUpd (-1) (p.map (·.id)) (p.get ⟨p.length - 1, by omega⟩))
      (m.map (chainUpd (-1) (p.map (·.id)))) =
      some ((p.map (chainUpd (-1) (p.map (·.id)))).reverse) := hrev.get_path hmem1
  refine ⟨m.map (chainUpd (-1) (p.map (·.id))),
    chainUpd (-1) (p.map (·.id)) (p.getLast hp.ne_nil), h1, h2, ?_⟩
  unfold re_root_morphology
  rw [hplast, hget2]
  dsimp only
  rw [foldl_setParent_map]
  have hids2 : ((p.map (chainUpd (-1) (p.map (·.id)))).reverse).map (·.id) =
      (p.map (·.id)).reverse := by
    rw [List.map_reverse, List.map_map]
    have : ((·.id) ∘ chainUpd (-1) (p.map (·.id))) = fun x : SwcNode => x.id := by
      funext x
      exact chainUpd_id _ _ x
    rw [this]
  rw [hids2]
  have hmapeq2 : (m.map (chainUpd (-1) (p.map (·.id)))).map
      (applyUpds (((p.map (·.id)).reverse).zip (-1 :: (p.map (·.id)).reverse))) =
      (m.map (chainUpd (-1) (p.map (·.id)))).map
        (chainUpd (-1) ((p.map (·.id)).reverse)) :=
    List.map_congr_left (fun x _ => applyUpds_eq_chainUpd hidsr (-1) x)
  rw [hmapeq2, List.map_map]
  have hfinal : m.map (chainUpd (-1) ((p.map (·.id)).reverse) ∘
      chainUpd (-1) (p.map (·.id))) = m.map (fun x => x) :=
    List.map_congr_left (fun x hx => chainUpd_round hv hn hp x hx)
  rw [hfinal, List.map_id']

/-- C2 witness: re-rooting the chain 3 -> 5 -> 4 at node 4 and then at the
former root 3 restores the original tree. -/
theorem re_root_round_trip_witness :
    ∃ m1 r2, (re_root_morphology (nd 4 3 0 5) exChain).1 = .ok m1 ∧
      node_by_id m1
        (([nd 4 3 0 5, nd 5 3 0 3, nd 3 1 0 (-1)].getLast (by decide)).id) = some r2 ∧
      (re_root_morphology r2 m1).1 = .ok exChain :=
  @re_root_round_trip exChain (by decide) (nd 4 3 0 5) (by decide)
    [nd 4 3 0 5, nd 5 3 0 3, nd 3 1 0 (-1)]
    (@pathToRootF_isPath exChain 4 (nd 4 3 0 5)
      [nd 4 3 0 5, nd 5 3 0 3, nd 3 1 0 (-1)] (by decide))

/-! ## Depth-first traversal correctness -/

theorem child_path {m : Morphology} (hv : valid m) {c n : SwcNode}
    (hn : n ∈ m) (hpar : c.parent = n.id) {q : List SwcNode}
    (hq : IsPath m n q) : IsPath m c (c :: q) := by
  refine IsPath.step c n q ?_ ?_ hq
  · rw [hpar]
    exact hv.2.1 n hn
  · rw [hpar]
    exact node_by_id_self hv.1 hn

/-- A node is never on the root path of the node it points to as parent
(no parent cycles in a valid tree). -/
theorem child_not_anc {m : Morphology} (hv : valid m) {c n : SwcNode}
    (hn : n ∈ m) (hpar : c.parent = n.id) : ¬ Anc m c n := by
  rintro ⟨pn, hpn, hcp⟩
  have hcc : IsPath m c (c :: pn) := child_path hv hn hpar hpn
  obtain ⟨g, hg, hget, hdrop⟩ := hpn.mem_imp_path hcp
  have := hdrop.deterministic hcc
  have hlen := congrArg List.length this
  simp at hlen
  omega

/-- Ancestry is preserved up one parent edge. -/
theorem anc_parent_lift {m : Morphology} (hv : valid m) {c n x : SwcNode}
    (hn : n ∈ m) (hpar : c.parent = n.id)
    (h : Anc m c x) : Anc m n x := by
  obtain ⟨px, hpx, hcp⟩ := h
  obtain ⟨g, hg, hget, hdrop⟩ := hpx.mem_imp_path hcp
  refine ⟨px, hpx, ?_⟩
  -- n is the next entry after position g in px
  have hg1 : g + 1 < px.length := by
    by_contra hge
    have hgeq : g = px.length - 1 := by omega
    subst hgeq
    have hlr := hpx.last_root
    rw [List.getLast_eq_getElem] at hlr
    rw [List.get_eq_getElem] at hget
    rw [hget, hpar] at hlr
    exact hv.2.1 n hn hlr
  have hcons := hpx.consecutive g hg1
  have hres := hcons.2
  rw [hget, hpar, node_by_id_self hv.1 hn] at hres
  have : px.get ⟨g+1, hg1⟩ = n := (Option.some.inj hres).symm
  rw [← this]
  exact List.get_mem px _ _

theorem dfs_mem_anc {m : Morphology} (hv : valid m) :
    ∀ {f : Nat} {n x : SwcNode}, n ∈ m → x ∈ dfsF m f n → x ∈ m ∧ Anc m n x := by
  intro f
  induction f with
  | zero => intro n x _ hx; simp [dfsF] at hx
  | succ f ih =>
    intro n x hn hx
    rw [dfsF] at hx
    rcases List.mem_cons.1 hx with rfl | hx2
    · obtain ⟨p, hp⟩ := valid_isPath hv hn
      exact ⟨hn, Anc.refl hp⟩
    · obtain ⟨c, hcmem, hcx⟩ := List.mem_flatMap.1 hx2
      have hcm : c ∈ m := (mem_childrenOfId.1 hcmem).1
      have hcp : c.parent = n.id := (mem_childrenOfId.1 hcmem).2
      obtain ⟨hxm, hanc⟩ := ih hcm hcx
      exact ⟨hxm, anc_parent_lift hv hn hcp hanc⟩

theorem dfs_complete {m : Morphology} {x : SwcNode}
    (hx : x ∈ m) {px : List SwcNode} (hpx : IsPath m x px) :
    ∀ g, ∀ hg : g < px.length, ∀ f, g + 1 ≤ f → x ∈ dfsF m f (px.get ⟨g, hg⟩) := by
  intro g
  induction g with
  | zero =>
    intro hg f hf
    obtain ⟨f2, rfl⟩ : ∃ f2, f = f2 + 1 := ⟨f - 1, by omega⟩
    obtain ⟨q, rfl⟩ := hpx.head_cons
    rw [dfsF]
    exact List.mem_cons_self _ _
  | succ g ih =>
    intro hg f hf
    obtain ⟨f2, rfl⟩ : ∃ f2, f = f2 + 1 := ⟨f - 1, by omega⟩
    have hgl : g < px.length := by omega
    have hcons := hpx.consecutive g hg
    have hcm : px.get ⟨g, hgl⟩ ∈ m := hpx.subset_of_mem hx _ (List.get_mem px _ _)
    have hchild : px.get ⟨g, hgl⟩ ∈ get_children m (px.get ⟨g+1, hg⟩) := by
      refine mem_childrenOfId.2 ⟨hcm, ?_⟩
      exact (node_by_id_mem hcons.2).2.symm
    rw [dfsF]
    refine List.mem_cons_of_mem _ (List.mem_flatMap.2 ⟨px.get ⟨g, hgl⟩, hchild, ?_⟩)
    exact ih hgl f2 (by omega)

/-- Below a node, two different children head disjoint subtrees. -/
theorem anc_two_children_false {m : Morphology} (hv : valid m) {n c1 c2 y : SwcNode}
    (hn : n ∈ m) (hp1 : c1.parent = n.id) (hp2 : c2.parent = n.id)
    (hne : c1 ≠ c2) (ha1 : Anc m c1 y) (ha2 : Anc m c2 y) : False := by
  obtain ⟨p1, hpp1, hm1⟩ := ha1
  obtain ⟨p2, hpp2, hm2⟩ := ha2
  rw [hpp2.deterministic hpp1] at hm2
  have key : ∀ c : SwcNode, c.parent = n.id → c ∈ p1 →
      ∃ a, ∃ ha1 : a + 1 < p1.length, p1.get ⟨a, by omega⟩ = c ∧
        p1.get ⟨a+1, ha1⟩ = n := by
    intro c hpar hcin
    obtain ⟨g, hg, hget, _⟩ := hpp1.mem_imp_path hcin
    have hg1 : g + 1 < p1.length := by
      by_contra hge
      have hgeq : g = p1.length - 1 := by omega
      subst hgeq
      have hlr := hpp1.last_root
      rw [List.getLast_eq_getElem] at hlr
      rw [List.get_eq_getElem] at hget
      rw [hget, hpar] at hlr
      exact hv.2.1 n hn hlr
    refine ⟨g, hg1, hget, ?_⟩
    have hres := (hpp1.consecutive g hg1).2
    rw [hget, hpar, node_by_id_self hv.1 hn] at hres
    exact (Option.some.inj hres).symm
  obtain ⟨a, ha, hga, hgan⟩ := key c1 hp1 hm1
  obtain ⟨b, hb, hgb, hgbn⟩ := key c2 hp2 hm2
  have hab : a ≠ b := by
    intro he
    subst he
    rw [hga] at hgb
    exact hne hgb
  have hinj := List.nodup_iff_injective_get.1 hpp1.nodup
  have : (⟨a+1, ha⟩ : Fin p1.length) = ⟨b+1, hb⟩ := hinj (by rw [hgan, hgbn])
  simp at this
  omega

theorem dfs_nodup {m : Morphology} (hv : valid m) :
    ∀ {f : Nat} {n : SwcNode}, n ∈ m → ((dfsF m f n).map (·.id)).Nodup := by
  intro f
  induction f with
  | zero => intro n _; simp [dfsF]
  | succ f ih =>
    intro n hn
    rw [dfsF, List.map_cons, List.nodup_cons]
    constructor
    · intro hmem
      rw [List.map_flatMap] at hmem
      obtain ⟨c, hc, hidin⟩ := List.mem_flatMap.1 hmem
      obtain ⟨y, hy, hyid⟩ := List.mem_map.1 hidin
      obtain ⟨hym, hanc⟩ := dfs_mem_anc hv (mem_childrenOfId.1 hc).1 hy
      have heq : y = n := nodes_eq_of_id_eq hv.1 hym hn hyid
      subst heq
      exact child_not_anc hv hn (mem_childrenOfId.1 hc).2 hanc
    · rw [List.map_flatMap, List.nodup_flatMap]
      refine ⟨fun c hc => ih (mem_childrenOfId.1 hc).1, ?_⟩
      have hmnodup : m.Nodup := hv.1.of_map _
      have hchildnodup : (get_children m n).Nodup := hmnodup.filter _
      refine List.Pairwise.imp_of_mem ?_ hchildnodup
      intro c1 c2 h1 h2 hne i hi1 hi2
      obtain ⟨y1, hy1, hy1id⟩ := List.mem_map.1 hi1
      obtain ⟨y2, hy2, hy2id⟩ := List.mem_map.1 hi2
      obtain ⟨hy1m, hanc1⟩ := dfs_mem_anc hv (mem_childrenOfId.1 h1).1 hy1
      obtain ⟨hy2m, hanc2⟩ := dfs_mem_anc hv (mem_childrenOfId.1 h2).1 hy2
      have hyy : y1 = y2 := nodes_eq_of_id_eq hv.1 hy1m hy2m (by rw [hy1id, hy2id])
      subst hyy
      exact anc_two_children_false hv hn (mem_childrenOfId.1 h1).2
        (mem_childrenOfId.1 h2).2 hne hanc1 hanc2

/-- A root appearing on a root path is its last entry. -/
theorem root_anc_last {m : Morphology} {r y : SwcNode}
    (hr : r.parent = -1) {py : List SwcNode}
    (hpy : IsPath m y py) (hrin : r ∈ py) : r = py.getLast hpy.ne_nil := by
  obtain ⟨g, hg, hget, _⟩ := hpy.mem_imp_path hrin
  by_cases hg1 : g + 1 < py.length
  · exfalso
    have := (hpy.consecutive g hg1).1
    rw [hget] at this
    exact this hr
  · have hgeq : g = py.length - 1 := by omega
    subst hgeq
    rw [← hget, List.getLast_eq_getElem, List.get_eq_getElem]

/-- Every node of a valid tree appears in the depth-first traversal of the
root its parent chain reaches. -/
theorem mem_dfs_chainRoot {m : Morphology} {x : SwcNode}
    (hx : x ∈ m) {px : List SwcNode} (hpx : IsPath m x px) :
    x ∈ dfsF m (m.length + 1) (px.getLast hpx.ne_nil) ∧
      px.getLast hpx.ne_nil ∈ get_roots m := by
  have hlenpos : 0 < px.length := List.length_pos.2 hpx.ne_nil
  have hlen := hpx.length_le hx
  constructor
  · have := dfs_complete hx hpx (px.length - 1) (by omega) (m.length + 1) (by omega)
    have hge : px.get ⟨px.length - 1, by omega⟩ = px.getLast hpx.ne_nil := by
      rw [List.getLast_eq_getElem, List.get_eq_getElem]
    rwa [hge] at this
  · exact mem_get_roots.2
      ⟨hpx.subset_of_mem hx _ (List.getLast_mem hpx.ne_nil), hpx.last_root⟩

/-- Two roots with a common descendant coincide. -/
theorem two_roots_common_desc {m : Morphology} {r1 r2 y1 y2 : SwcNode}
    (hr1 : r1.parent = -1) (hr2 : r2.parent = -1)
    (h1 : Anc m r1 y1) (h2 : Anc m r2 y2) (heq : y1 = y2) : r1 = r2 := by
  subst heq
  obtain ⟨p1, hp1, hm1⟩ := h1
  obtain ⟨p2, hp2, hm2⟩ := h2
  rw [hp2.deterministic hp1] at hm2
  rw [root_anc_last hr1 hp1 hm1, root_anc_last hr2 hp1 hm2]

theorem sortOrder_ids_nodup {m : Morphology} (hv : valid m) {s : SwcNode}
    (hs : s ∈ m) (hsr : s.parent = -1) : ((sortOrder m s).map (·.id)).Nodup := by
  have hrootsnodup : (get_roots m).Nodup := (hv.1.of_map _).filter _
  unfold sortOrder
  rw [List.map_append, List.nodup_append]
  refine ⟨dfs_nodup hv hs, ?_, ?_⟩
  · rw [List.map_flatMap, List.nodup_flatMap]
    refine ⟨fun r hr => dfs_nodup hv (mem_get_roots.1 (List.mem_of_mem_erase hr)).1, ?_⟩
    refine List.Pairwise.imp_of_mem ?_ (hrootsnodup.erase s)
    intro r1 r2 h1 h2 hne i hi1 hi2
    obtain ⟨y1, hy1, hy1id⟩ := List.mem_map.1 hi1
    obtain ⟨y2, hy2, hy2id⟩ := List.mem_map.1 hi2
    obtain ⟨hy1m, ha1⟩ := dfs_mem_anc hv (mem_get_roots.1 (List.mem_of_mem_erase h1)).1 hy1
    obtain ⟨hy2m, ha2⟩ := dfs_mem_anc hv (mem_get_roots.1 (List.mem_of_mem_erase h2)).1 hy2
    have heq : y1 = y2 := nodes_eq_of_id_eq hv.1 hy1m hy2m (by rw [hy1id, hy2id])
    exact hne (two_roots_common_desc
      (mem_get_roots.1 (List.mem_of_mem_erase h1)).2
      (mem_get_roots.1 (List.mem_of_mem_erase h2)).2 ha1 ha2 heq)
  · intro i hiA hiB
    rw [List.map_flatMap] at hiB
    obtain ⟨y1, hy1, hy1id⟩ := List.mem_map.1 hiA
    obtain ⟨r, hr, hir⟩ := List.mem_flatMap.1 hiB
    obtain ⟨y2, hy2, hy2id⟩ := List.mem_map.1 hir
    obtain ⟨hy1m, ha1⟩ := dfs_mem_anc hv hs hy1
    obtain ⟨hy2m, ha2⟩ := dfs_mem_anc hv (mem_get_roots.1 (List.mem_of_mem_erase hr)).1 hy2
    have heq : y1 = y2 := nodes_eq_of_id_eq hv.1 hy1m hy2m (by rw [hy1id, hy2id])
    have hrs : s = r := two_roots_common_desc hsr
      (mem_get_roots.1 (List.mem_of_mem_erase hr)).2 ha1 ha2 heq
    exact ((hrootsnodup.mem_erase_iff).1 hr).1 hrs.symm

theorem mem_sortOrder {m : Morphology} (hv : valid m) {s : SwcNode}
    (hs : s ∈ m) :
    ∀ x, x ∈ sortOrder m s ↔ x ∈ m := by
  intro x
  unfold sortOrder
  constructor
  · intro hx
    rcases List.mem_append.1 hx with h | h
    · exact (dfs_mem_anc hv hs h).1
    · obtain ⟨r, hr, hxr⟩ := List.mem_flatMap.1 h
      exact (dfs_mem_anc hv (mem_get_roots.1 (List.mem_of_mem_erase hr)).1 hxr).1
  · intro hx
    obtain ⟨px, hpx⟩ := valid_isPath hv hx
    obtain ⟨hdfs, hroot⟩ := mem_dfs_chainRoot hx hpx
    by_cases hrs : px.getLast hpx.ne_nil = s
    · rw [hrs] at hdfs
      exact List.mem_append.2 (Or.inl hdfs)
    · refine List.mem_append.2 (Or.inr (List.mem_flatMap.2
        ⟨px.getLast hpx.ne_nil, ?_, hdfs⟩))
      have hrootsnodup : (get_roots m).Nodup := (hv.1.of_map _).filter _
      exact (hrootsnodup.mem_erase_iff).2 ⟨hrs, hroot⟩

theorem sortOrder_perm {m : Morphology} (hv : valid m) {s : SwcNode}
    (hs : s ∈ m) (hsr : s.parent = -1) : (sortOrder m s).Perm m := by
  refine (List.perm_ext_iff_of_nodup ?_ (hv.1.of_map _)).2 (mem_sortOrder hv hs)
  exact (sortOrder_ids_nodup hv hs hsr).of_map _

/-! ## Dictionary lemmas -/

theorem dget?_none_iff {α : Type} {d : List (Int × α)} {k : Int} :
    dget? d k = none ↔ k ∉ d.map (·.1) := by
  unfold dget?
  rw [Option.map_eq_none', List.find?_eq_none]
  constructor
  · intro h hk
    obtain ⟨p, hp, hpk⟩ := List.mem_map.1 hk
    exact absurd (by simpa using hpk) (by simpa using h p hp)
  · intro h p hp
    intro hbe
    exact h (List.mem_map.2 ⟨p, hp, by simpa using hbe⟩)

theorem dinsert_fresh {α : Type} {d : List (Int × α)} {k : Int}
    (h : dget? d k = none) (v : α) : dinsert d k v = d ++ [(k, v)] := by
  unfold dinsert
  unfold dget? at h
  rw [Option.map_eq_none'] at h
  rw [h]
  rfl

theorem dget?_append {α : Type} (d1 d2 : List (Int × α)) (k : Int) :
    dget? (d1 ++ d2) k =
      (match dget? d1 k with
       | some v => some v
       | none => dget? d2 k) := by
  unfold dget?
  rw [List.find?_append]
  cases h : d1.find? (fun p => p.1 == k) <;> simp [Option.or]

/-- Folding Python-dict inserts of fresh, pairwise-distinct keys appends. -/
theorem foldl_dinsert_fresh {α : Type} :
    ∀ (ps : List (Int × α)) (d : List (Int × α)),
      (∀ p ∈ ps, dget? d p.1 = none) → (ps.map (·.1)).Nodup →
      ps.foldl (fun dd kv => dinsert dd kv.1 kv.2) d = d ++ ps := by
  intro ps
  induction ps with
  | nil => intro d _ _; simp
  | cons p t ih =>
    intro d hfresh hnodup
    rw [List.foldl_cons, dinsert_fresh (hfresh p (List.mem_cons_self p t)) p.2]
    rw [List.map_cons] at hnodup
    have hnodup2 := List.nodup_cons.1 hnodup
    have hfresh2 : ∀ q ∈ t, dget? (d ++ [(p.1, p.2)]) q.1 = none := by
      intro q hq
      rw [dget?_append, hfresh q (List.mem_cons_of_mem p hq)]
      rw [dget?_none_iff]
      intro hmem
      simp at hmem
      exact hnodup2.1 (hmem ▸ List.mem_map.2 ⟨q, hq, rfl⟩)
    rw [ih (d ++ [(p.1, p.2)]) hfresh2 hnodup2.2]
    simp

theorem dget?_of_mem_nodup {α : Type} :
    ∀ {d : List (Int × α)} {k : Int} {v : α},
      (d.map (·.1)).Nodup → (k, v) ∈ d → dget? d k = some v := by
  intro d
  induction d with
  | nil => intro k v _ h; simp at h
  | cons p t ih =>
    intro k v hnodup hmem
    rw [List.map_cons] at hnodup
    have hnodup2 := List.nodup_cons.1 hnodup
    rcases List.mem_cons.1 hmem with rfl | hmem2
    · unfold dget?
      simp [List.find?]
    · have hk : k ≠ p.1 := by
        intro he
        exact hnodup2.1 (he ▸ List.mem_map.2 ⟨(k, v), hmem2, rfl⟩)
      unfold dget?
      simp only [List.find?]
      rw [show (p.1 == k) = false from by simpa using fun he => hk he.symm]
      exact ih hnodup2.2 hmem2

theorem dget?_zip_none {α : Type} {K : List Int} {V : List α} {i : Int}
    (h : i ∉ K) : dget? (K.zip V) i = none := by
  rw [dget?_none_iff]
  intro hmem
  obtain ⟨⟨a, b⟩, hp, hpk⟩ := List.mem_map.1 hmem
  exact h (hpk ▸ (List.of_mem_zip hp).1)

theorem dget?_zip {α : Type} {K : List Int} {V : List α} (hk : K.Nodup)
    (hlen : K.length ≤ V.length) : ∀ j, ∀ hj : j < K.length,
    dget? (K.zip V) (K.get ⟨j, hj⟩) = some (V.get ⟨j, by omega⟩) := by
  intro j hj
  have hkeys : (K.zip V).map (·.1) = K := List.map_fst_zip K V hlen
  refine dget?_of_mem_nodup (by rw [hkeys]; exact hk) ?_
  have hjz : j < (K.zip V).length := by
    rw [List.length_zip]
    omega
  have hz : (K.zip V).get ⟨j, hjz⟩ = (K.get ⟨j, hj⟩, V.get ⟨j, by omega⟩) := by
    rw [List.get_eq_getElem, List.getElem_zip]
    rw [List.get_eq_getElem, List.get_eq_getElem]
  rw [← hz]
  exact List.get_mem _ _ _

theorem fetchAll_map_id {m : Morphology} (hids : (m.map (·.id)).Nodup) :
    ∀ (l : Morphology), (∀ x ∈ l, x ∈ m) → fetchAll m (l.map (·.id)) = .ok l := by
  intro l
  induction l with
  | nil => intro _; rfl
  | cons a t ih =>
    intro hsub
    rw [List.map_cons]
    unfold fetchAll
    rw [node_by_id_self hids (hsub a (List.mem_cons_self a t))]
    rw [ih (fun x hx => hsub x (List.mem_cons_of_mem a hx))]
    rfl

theorem dedupAux_append_mem :
    ∀ (l : List Int) (seen : List Int) (a : Int),
      (∀ x ∈ l, x ∉ seen) → l.Nodup → (a ∈ l ∨ a ∈ seen) →
      dedupAux seen (l ++ [a]) = l := by
  intro l
  induction l with
  | nil =>
    intro seen a _ _ ha
    rcases ha with h | h
    · simp at h
    · simp [dedupAux, h]
  | cons b t ih =>
    intro seen a hnotseen hnodup ha
    rw [List.cons_append]
    unfold dedupAux
    rw [if_neg (hnotseen b (List.mem_cons_self b t))]
    have hnodup2 := List.nodup_cons.1 hnodup
    rw [ih (b :: seen) a ?_ hnodup2.2 ?_]
    · intro x hx
      intro hmem
      rcases List.mem_cons.1 hmem with rfl | hmem2
      · exact hnodup2.1 hx
      · exact hnotseen x (List.mem_cons_of_mem b hx) hmem2
    · rcases ha with h | h
      · rcases List.mem_cons.1 h with rfl | h2
        · exact Or.inr (List.mem_cons_self a seen)
        · exact Or.inl h2
      · exact Or.inr (List.mem_cons_of_mem b h)

theorem dedupInt_append_mem {l : List Int} (hnodup : l.Nodup) {a : Int} (ha : a ∈ l) :
    dedupInt (l ++ [a]) = l :=
  dedupAux_append_mem l [] a (by simp) hnodup (Or.inl ha)

theorem get_roots_ids_nodup {m : Morphology} (hids : (m.map (·.id)).Nodup) :
    ((get_roots m).map (·.id)).Nodup :=
  ((List.filter_sublist m).map (·.id)).nodup hids

theorem intsFrom_length (st len : Nat) : (intsFrom st len).length = len := by
  rw [intsFrom, List.length_map, List.length_range']

theorem dfs_labeling_eq {m : Morphology} (n : SwcNode) (st : Nat) (d : List (Int × Int))
    (hfresh : ∀ i ∈ (dfsF m (m.length+1) n).map (·.id), dget? d i = none)
    (hnodup : ((dfsF m (m.length+1) n).map (·.id)).Nodup) :
    dfs_labeling n st d m =
      (d ++ ((dfsF m (m.length+1) n).map (·.id)).zip
        (intsFrom st (dfsF m (m.length+1) n).length),
       (dfsF m (m.length+1) n).length) := by
  unfold dfs_labeling
  dsimp only
  rw [List.length_map]
  have hkeys : (((dfsF m (m.length+1) n).map (·.id)).zip
      (intsFrom st (dfsF m (m.length+1) n).length)).map (·.1) =
      (dfsF m (m.length+1) n).map (·.id) := by
    refine List.map_fst_zip _ _ ?_
    rw [intsFrom_length, List.length_map]
  rw [foldl_dinsert_fresh _ d ?_ ?_]
  · intro p hp
    exact hfresh p.1 (hkeys ▸ List.mem_map.2 ⟨p, hp, rfl⟩)
  · rw [hkeys]
    exact hnodup

theorem intsFrom_append (st a b : Nat) :
    intsFrom st a ++ intsFrom (st + a) b = intsFrom st (a + b) := by
  unfold intsFrom
  rw [← List.map_append]
  congr 1
  have h := List.range'_append st a b 1
  simpa [Nat.add_comm] using h

theorem intsFrom_get (st len : Nat) : ∀ j, ∀ hj : j < len,
    (intsFrom st len).get ⟨j, by rw [intsFrom_length]; exact hj⟩ = ((st + j : Nat) : Int) := by
  intro j hj
  unfold intsFrom
  rw [List.get_eq_getElem, List.getElem_map, List.getElem_range']
  simp


theorem rootPasses_eq {m : Morphology} :
    ∀ (rs : List SwcNode) (P : Morphology),
      (((P ++ rs.flatMap (dfsF m (m.length+1))).map (·.id)).Nodup) →
      rootPasses m rs ((P.map (·.id)).zip (intsFrom 1 P.length), 1 + P.length) =
        (((P ++ rs.flatMap (dfsF m (m.length+1))).map (·.id)).zip
          (intsFrom 1 (P ++ rs.flatMap (dfsF m (m.length+1))).length),
         1 + (P ++ rs.flatMap (dfsF m (m.length+1))).length) := by
  intro rs
  induction rs with
  | nil =>
    intro P _
    rw [rootPasses]
    rw [List.flatMap_nil, List.append_nil]
  | cons r rest ih =>
    intro P hnodup
    rw [List.flatMap_cons, ← List.append_assoc] at hnodup
    have h1 : (((P ++ dfsF m (m.length+1) r)).map (·.id)).Nodup := by
      rw [List.map_append, List.nodup_append] at hnodup
      exact hnodup.1
    have h2 := h1
    rw [List.map_append, List.nodup_append] at h2
    have hBfresh : ∀ i ∈ (dfsF m (m.length+1) r).map (·.id),
        dget? ((P.map (·.id)).zip (intsFrom 1 P.length)) i = none := by
      intro i hi
      refine dget?_zip_none ?_
      intro hiP
      exact h2.2.2 hiP hi
    have hBnodup : ((dfsF m (m.length+1) r).map (·.id)).Nodup := h2.2.1
    rw [rootPasses]
    rw [dfs_labeling_eq r (1 + P.length) _ hBfresh hBnodup]
    have hzipapp : (P.map (·.id)).zip (intsFrom 1 P.length) ++
        ((dfsF m (m.length+1) r).map (·.id)).zip
          (intsFrom (1 + P.length) (dfsF m (m.length+1) r).length) =
        ((P ++ dfsF m (m.length+1) r).map (·.id)).zip
          (intsFrom 1 (P ++ dfsF m (m.length+1) r).length) := by
      rw [List.map_append, List.length_append]
      rw [← intsFrom_append 1 P.length (dfsF m (m.length+1) r).length]
      rw [List.zip_append]
      rw [List.length_map, intsFrom_length]
    rw [hzipapp]
    have hlen2 : 1 + P.length + (dfsF m (m.length+1) r).length =
        1 + (P ++ dfsF m (m.length+1) r).length := by
      rw [List.length_append]
      omega
    rw [hlen2]
    rw [ih (P ++ dfsF m (m.length+1) r) hnodup]
    rw [List.append_assoc, List.flatMap_cons]

theorem findIdx?_id_get :
    ∀ (L : Morphology), ((L.map (·.id)).Nodup) → ∀ i, ∀ hi : i < L.length,
      L.findIdx? (fun c => c.id == (L.get ⟨i, hi⟩).id) = some i := by
  intro L
  induction L with
  | nil => intro _ i hi; exact absurd hi (by simp)
  | cons a t ih =>
    intro hnodup i hi
    rw [List.map_cons, List.nodup_cons] at hnodup
    match i with
    | 0 =>
      rw [List.findIdx?_cons]
      rw [if_pos (by simp)]
    | i0+1 =>
      have hi0 : i0 < t.length := by simpa using hi
      have hgt : (a :: t).get ⟨i0+1, hi⟩ = t.get ⟨i0, hi0⟩ := rfl
      rw [List.findIdx?_cons, List.findIdx?_succ, hgt]
      have hne : ¬ ((fun c => c.id == (t.get ⟨i0, hi0⟩).id) a = true) := by
        intro hfalse
        rw [beq_iff_eq] at hfalse
        exact hnodup.1 (List.mem_map.2 ⟨t.get ⟨i0, hi0⟩, List.get_mem t _ _, hfalse.symm⟩)
      rw [if_neg hne, ih hnodup.2 i0 hi0]
      rfl

theorem findIdx?_id_of_mem {L : Morphology} (hnodup : (L.map (·.id)).Nodup)
    {n : SwcNode} (hn : n ∈ L) :
    ∃ j, ∃ hj : j < L.length,
      L.findIdx? (fun c => c.id == n.id) = some j ∧ (L.get ⟨j, hj⟩).id = n.id := by
  obtain ⟨⟨i, hi⟩, hget⟩ := List.mem_iff_get.1 hn
  subst hget
  exact ⟨i, hi, findIdx?_id_get L hnodup i hi, rfl⟩

theorem dget?_label {L : Morphology} (hnodup : (L.map (·.id)).Nodup)
    (i : Nat) (hi : i < L.length) :
    dget? ((L.map (·.id)).zip (intsFrom 1 L.length)) ((L.get ⟨i, hi⟩).id) =
      some ((i : Int) + 1) := by
  have hil : i < (L.map (·.id)).length := by rwa [List.length_map]
  have h := dget?_zip hnodup
    (le_of_eq (by rw [intsFrom_length 1 L.length, List.length_map])) i hil
  have hk : (L.map (·.id)).get ⟨i, hil⟩ = (L.get ⟨i, hi⟩).id := by
    rw [List.get_eq_getElem, List.getElem_map]
    rw [List.get_eq_getElem]
  have hvget : (intsFrom 1 L.length).get ⟨i, by rw [intsFrom_length]; rwa [List.length_map] at hil⟩ = ((1 + i : Nat) : Int) :=
    intsFrom_get 1 L.length i (by rwa [List.length_map] at hil)
  rw [hk] at h
  rw [h, hvget]
  congr 1
  push_cast
  ring

theorem parent_lookup {m : Morphology} (hv : valid m) {n : SwcNode} (hn : n ∈ m)
    (hp : n.parent ≠ -1) : ∃ q, node_by_id m n.parent = some q := by
  obtain ⟨p, hpath⟩ := valid_isPath hv hn
  cases hpath with
  | root _ hr => exact absurd hr hp
  | step _ pn q hnr hf _ => exact ⟨pn, hf⟩

theorem remapOne_eq {m : Morphology} (hv : valid m) {s : SwcNode} (hs : s ∈ m)
    (hsr : s.parent = -1) {n : SwcNode} (hn : n ∈ m) :
    remapOne (((sortOrder m s).map (·.id)).zip (intsFrom 1 (sortOrder m s).length)) n =
      .ok (relabelById (sortOrder m s) n) := by
  have hLnodup : ((sortOrder m s).map (·.id)).Nodup := sortOrder_ids_nodup hv hs hsr
  have hnL : n ∈ sortOrder m s := (mem_sortOrder hv hs n).2 hn
  obtain ⟨j, hj, hfind, hid⟩ := findIdx?_id_of_mem hLnodup hnL
  have hdn : dget? (((sortOrder m s).map (·.id)).zip (intsFrom 1 (sortOrder m s).length)) n.id =
      some ((j : Int) + 1) := by
    have h := dget?_label hLnodup j hj
    rwa [hid] at h
  unfold remapOne relabelById
  rw [hdn, hfind]
  dsimp only
  unfold relabelNode
  by_cases hp : n.parent = -1
  · rw [if_pos hp, if_pos hp]
    rw [← hp]
  · rw [if_neg hp, if_neg hp]
    obtain ⟨q, hq⟩ := parent_lookup hv hn hp
    have hqm := node_by_id_mem hq
    have hqL : q ∈ sortOrder m s := (mem_sortOrder hv hs q).2 hqm.1
    obtain ⟨jp, hjp, hfindp, hidp⟩ := findIdx?_id_of_mem hLnodup hqL
    rw [hqm.2] at hfindp hidp
    have hdp : dget? (((sortOrder m s).map (·.id)).zip (intsFrom 1 (sortOrder m s).length)) n.parent =
        some ((jp : Int) + 1) := by
      have h := dget?_label hLnodup jp hjp
      rwa [hidp] at h
    rw [hdp, hfindp]

theorem remapAll_eq {m : Morphology} (hv : valid m) {s : SwcNode} (hs : s ∈ m)
    (hsr : s.parent = -1) :
    ∀ (ps : List (Int × SwcNode)) (out : List (Int × SwcNode)),
      (∀ p ∈ ps, p.2 ∈ m) →
      (∀ p ∈ ps, dget? out (relabelById (sortOrder m s) p.2).id = none) →
      ((ps.map (fun p => (relabelById (sortOrder m s) p.2).id)).Nodup) →
      remapAll (((sortOrder m s).map (·.id)).zip (intsFrom 1 (sortOrder m s).length)) out ps =
        .ok (out ++ ps.map (fun p =>
          ((relabelById (sortOrder m s) p.2).id, relabelById (sortOrder m s) p.2))) := by
  intro ps
  induction ps with
  | nil => intro out _ _ _; simp [remapAll]
  | cons p t ih =>
    intro out hsub hfresh hnodup
    rw [List.map_cons, List.nodup_cons] at hnodup
    rw [remapAll]
    rw [remapOne_eq hv hs hsr (hsub p (List.mem_cons_self p t))]
    dsimp only
    rw [dinsert_fresh (hfresh p (List.mem_cons_self p t))]
    have hfresh2 : ∀ q ∈ t, dget?
        (out ++ [((relabelById (sortOrder m s) p.2).id, relabelById (sortOrder m s) p.2)])
        (relabelById (sortOrder m s) q.2).id = none := by
      intro q hq
      rw [dget?_append, hfresh q (List.mem_cons_of_mem p hq)]
      rw [dget?_none_iff]
      intro hmem
      simp at hmem
      exact hnodup.1 (hmem ▸ List.mem_map.2 ⟨q, hq, rfl⟩)
    rw [ih (out ++ [((relabelById (sortOrder m s) p.2).id, relabelById (sortOrder m s) p.2)])
          (fun q hq => hsub q (List.mem_cons_of_mem p hq)) hfresh2 hnodup.2]
    rw [List.map_cons, List.append_assoc]
    rfl

theorem map_relabelById_id {L : Morphology} (hnodup : (L.map (·.id)).Nodup) :
    L.map (fun n => (relabelById L n).id) = intsFrom 1 L.length := by
  apply List.ext_getElem
  · rw [List.length_map, intsFrom_length]
  · intro i h1 h2
    have hiL : i < L.length := by rwa [List.length_map] at h1
    rw [List.getElem_map]
    have hfind := findIdx?_id_get L hnodup i hiL
    rw [List.get_eq_getElem] at hfind
    unfold relabelById
    rw [hfind]
    have hv := intsFrom_get 1 L.length i hiL
    rw [List.get_eq_getElem] at hv
    rw [hv]
    show (i : Int) + 1 = ((1 + i : Nat) : Int)
    push_cast
    ring

theorem sortedOf_eq_map_relabelById {m : Morphology} (hv : valid m) {s : SwcNode}
    (hs : s ∈ m) (hsr : s.parent = -1) :
    sortedOf m s = (sortOrder m s).map (relabelById (sortOrder m s)) := by
  unfold sortedOf
  apply List.ext_getElem
  · rw [List.length_mapIdx, List.length_map]
  · intro i h1 h2
    have hiL : i < (sortOrder m s).length := by rwa [List.length_mapIdx] at h1
    rw [List.getElem_mapIdx, List.getElem_map]
    have hfind := findIdx?_id_get _ (sortOrder_ids_nodup hv hs hsr) i hiL
    rw [List.get_eq_getElem] at hfind
    unfold relabelById
    rw [hfind]

theorem insSorted_perm (k : Int) : ∀ l : List Int, (insSorted k l).Perm (k :: l) := by
  intro l
  induction l with
  | nil => exact List.Perm.refl _
  | cons a t ih =>
    unfold insSorted
    by_cases h : k ≤ a
    · rw [if_pos h]
    · rw [if_neg h]
      exact (ih.cons a).trans (List.Perm.swap k a t)

theorem isort_perm : ∀ l : List Int, (isort l).Perm l := by
  intro l
  induction l with
  | nil => exact List.Perm.refl _
  | cons a t ih =>
    unfold isort
    exact (insSorted_perm a (isort t)).trans (ih.cons a)

theorem insSorted_sorted (k : Int) :
    ∀ {l : List Int}, l.Sorted (· ≤ ·) → (insSorted k l).Sorted (· ≤ ·) := by
  intro l
  induction l with
  | nil => intro _; simp [insSorted]
  | cons a t ih =>
    intro hs
    rw [List.sorted_cons] at hs
    unfold insSorted
    by_cases h : k ≤ a
    · rw [if_pos h]
      rw [List.sorted_cons]
      refine ⟨?_, List.sorted_cons.2 hs⟩
      intro b hb
      rcases List.mem_cons.1 hb with rfl | hbt
      · exact h
      · exact le_trans h (hs.1 b hbt)
    · rw [if_neg h]
      rw [List.sorted_cons]
      refine ⟨?_, ih hs.2⟩
      intro b hb
      rcases List.mem_cons.1 ((insSorted_perm k t).mem_iff.1 hb) with rfl | hbt
      · exact le_of_not_le h
      · exact hs.1 b hbt

theorem isort_sorted : ∀ l : List Int, (isort l).Sorted (· ≤ ·) := by
  intro l
  induction l with
  | nil => simp [isort]
  | cons a t ih =>
    unfold isort
    exact insSorted_sorted a ih

theorem intsFrom_sorted (st len : Nat) : (intsFrom st len).Sorted (· ≤ ·) := by
  unfold intsFrom
  have hp := List.pairwise_lt_range' st len 1 (by omega)
  exact hp.map _ (fun a b hab => by exact_mod_cast Nat.le_of_lt hab)

theorem intsFrom_nodup (st len : Nat) : (intsFrom st len).Nodup := by
  unfold intsFrom
  have hp := List.pairwise_lt_range' st len 1 (by omega)
  exact List.Nodup.map (fun a b hab => by exact_mod_cast hab) (hp.imp (fun h => Nat.ne_of_lt h))

theorem isort_eq_intsFrom {l : List Int} {N : Nat} (hp : l.Perm (intsFrom 1 N)) :
    isort l = intsFrom 1 N :=
  List.eq_of_perm_of_sorted ((isort_perm l).trans hp) (isort_sorted l) (intsFrom_sorted 1 N)

theorem dget?_some_mem {α : Type} {D : List (Int × α)} {k : Int} {v : α}
    (h : dget? D k = some v) : (k, v) ∈ D := by
  unfold dget? at h
  cases hf : D.find? (fun p => p.1 == k) with
  | none => rw [hf] at h; simp at h
  | some p =>
    rw [hf] at h
    have hpm := List.mem_of_find?_eq_some hf
    have hpk := List.find?_some hf
    rw [beq_iff_eq] at hpk
    have hv : p.2 = v := by simpa using h
    have : (k, v) = p := by
      rw [← hpk, ← hv]
    rw [this]
    exact hpm

theorem dget?_perm {α : Type} {D1 D2 : List (Int × α)} (hp : D1.Perm D2)
    (hnodup : (D1.map (·.1)).Nodup) (k : Int) : dget? D1 k = dget? D2 k := by
  have hnodup2 : (D2.map (·.1)).Nodup := ((hp.map (·.1)).nodup_iff).1 hnodup
  cases h1 : dget? D1 k with
  | none =>
    have h2 : dget? D2 k = none := by
      rw [dget?_none_iff]
      intro hm
      exact (dget?_none_iff.1 h1) ((hp.map (·.1)).mem_iff.2 hm)
    rw [h2]
  | some v =>
    have hmem : (k, v) ∈ D2 := hp.mem_iff.1 (dget?_some_mem h1)
    rw [dget?_of_mem_nodup hnodup2 hmem]

theorem filterMap_dget_keys {α : Type} :
    ∀ (D : List (Int × α)), ((D.map (·.1)).Nodup) →
      (D.map (·.1)).filterMap (fun k => dget? D k) = D.map (·.2) := by
  intro D
  induction D with
  | nil => intro _; rfl
  | cons p t ih =>
    intro hnodup
    rw [List.map_cons] at hnodup
    have hn2 := List.nodup_cons.1 hnodup
    rw [List.map_cons, List.filterMap_cons]
    have h1 : dget? (p :: t) p.1 = some p.2 := by
      unfold dget?
      simp [List.find?]
    rw [h1]
    dsimp only
    rw [List.map_cons]
    congr 1
    have hcongr : ∀ k ∈ t.map (·.1), dget? (p :: t) k = dget? t k := by
      intro k hk
      unfold dget?
      simp only [List.find?]
      have hfalse : (p.1 == k) = false := by
        rw [beq_eq_false_iff_ne]
        intro he
        exact hn2.1 (he ▸ hk)
      rw [hfalse]
    rw [List.filterMap_congr hcongr]
    exact ih hn2.2

theorem sortedOf_map_id {m : Morphology} (hv : valid m) {s : SwcNode}
    (hs : s ∈ m) (hsr : s.parent = -1) :
    (sortedOf m s).map (·.id) = intsFrom 1 m.length := by
  rw [sortedOf_eq_map_relabelById hv hs hsr, List.map_map]
  have h := map_relabelById_id (sortOrder_ids_nodup hv hs hsr)
  have hlen : (sortOrder m s).length = m.length := (sortOrder_perm hv hs hsr).length_eq
  rw [hlen] at h
  exact h

theorem keys_filter_eq {m : Morphology} (hv : valid m) {s : SwcNode} (hs : s ∈ m)
    (hsr : s.parent = -1) (outD : List (Int × SwcNode))
    (houtD : outD.Perm ((sortedOf m s).map (fun n2 => (n2.id, n2))))
    (hkeys : (outD.map (·.1)).Nodup) :
    (isort (outD.map (·.1))).filterMap (fun k => dget? outD k) = sortedOf m s := by
  have hkeysD2 : (((sortedOf m s).map (fun n2 => (n2.id, n2))).map (·.1)) =
      intsFrom 1 m.length := by
    rw [List.map_map]
    exact sortedOf_map_id hv hs hsr
  have hkperm : (outD.map (·.1)).Perm (intsFrom 1 m.length) := by
    have h := houtD.map (·.1)
    rwa [hkeysD2] at h
  rw [isort_eq_intsFrom hkperm]
  rw [List.filterMap_congr (fun k _ => dget?_perm houtD hkeys k)]
  rw [← hkeysD2]
  rw [filterMap_dget_keys _ (by rw [hkeysD2]; exact intsFrom_nodup 1 m.length)]
  rw [List.map_map]
  have hid : ((·.2) ∘ (fun n2 : SwcNode => (n2.id, n2))) = id := rfl
  rw [hid, List.map_id]

theorem sort_morph_ids_eq {m : Morphology} (hv : valid m) {s : SwcNode} (hs : s ∈ m)
    (hsr : s.parent = -1) (soma_node : Option SwcNode) (sid : Nat)
    (hres : (match soma_node with | some s0 => some s0 | none => get_soma m) = some s) :
    sort_morph_ids m soma_node sid = (.ok (sortedOf m s), []) := by
  have hids := hv.1
  have hLnodup := sortOrder_ids_nodup hv hs hsr
  have hperm := sortOrder_perm hv hs hsr
  have hlenL : (sortOrder m s).length = m.length := hperm.length_eq
  have hsroot : s ∈ get_roots m := mem_get_roots.2 ⟨hs, hsr⟩
  have hrootIds : dedupInt (((get_roots m) ++ [s]).map (·.id)) = (get_roots m).map (·.id) := by
    rw [List.map_append]
    exact dedupInt_append_mem (get_roots_ids_nodup hids) (List.mem_map.2 ⟨s, hsroot, rfl⟩)
  have hinfo : m.foldl (fun d n => dinsert d n.id n) [] = m.map (fun n => (n.id, n)) := by
    have hkeys : ((m.map (fun n => (n.id, n))).map (·.1)).Nodup := by
      rw [List.map_map]
      exact hids
    calc m.foldl (fun d n => dinsert d n.id n) []
        = (m.map (fun n => (n.id, n))).foldl (fun d kv => dinsert d kv.1 kv.2) [] := by
          rw [List.foldl_map]
      _ = [] ++ m.map (fun n => (n.id, n)) :=
          foldl_dinsert_fresh (m.map (fun n => (n.id, n))) [] (fun p _ => rfl) hkeys
      _ = m.map (fun n => (n.id, n)) := List.nil_append _
  have hsplit : ((dfsF m (m.length+1) s ++
      ((get_roots m).erase s).flatMap (dfsF m (m.length+1))).map (·.id)).Nodup := hLnodup
  have hfct : ∀ p ∈ m.map (fun n => (n.id, n)), p.2 ∈ m := by
    intro p hp
    obtain ⟨n, hn, rfl⟩ := List.mem_map.1 hp
    exact hn
  have hpermf : (m.map (fun n => (relabelById (sortOrder m s) n).id)).Perm
      (intsFrom 1 m.length) := by
    have h2 := map_relabelById_id hLnodup
    rw [hlenL] at h2
    have h3 := (hperm.map (fun n => (relabelById (sortOrder m s) n).id)).symm
    rwa [h2] at h3
  have hmapids : (m.map (fun n => (n.id, n))).map
      (fun p => (relabelById (sortOrder m s) p.2).id) =
      m.map (fun n => (relabelById (sortOrder m s) n).id) := by
    rw [List.map_map]
    rfl
  have hremapnodup : ((m.map (fun n => (n.id, n))).map
      (fun p => (relabelById (sortOrder m s) p.2).id)).Nodup := by
    rw [hmapids]
    exact hpermf.nodup_iff.2 (intsFrom_nodup 1 m.length)
  have houtD : ((m.map (fun n => (n.id, n))).map (fun p =>
      ((relabelById (sortOrder m s) p.2).id, relabelById (sortOrder m s) p.2))).Perm
      ((sortedOf m s).map (fun n2 => (n2.id, n2))) := by
    have e1 : (m.map (fun n => (n.id, n))).map (fun p =>
        ((relabelById (sortOrder m s) p.2).id, relabelById (sortOrder m s) p.2)) =
        m.map (fun n =>
          ((relabelById (sortOrder m s) n).id, relabelById (sortOrder m s) n)) := by
      rw [List.map_map]
      rfl
    have e2 : (sortedOf m s).map (fun n2 => (n2.id, n2)) =
        (sortOrder m s).map (fun n =>
          ((relabelById (sortOrder m s) n).id, relabelById (sortOrder m s) n)) := by
      rw [sortedOf_eq_map_relabelById hv hs hsr, List.map_map]
      rfl
    rw [e1, e2]
    exact (hperm.map _).symm
  have hkeysout : (((m.map (fun n => (n.id, n))).map (fun p =>
      ((relabelById (sortOrder m s) p.2).id, relabelById (sortOrder m s) p.2))).map
      (·.1)).Nodup := by
    rw [List.map_map]
    exact hremapnodup
  unfold sort_morph_ids
  rw [hres]
  dsimp only
  rw [hrootIds, fetchAll_map_id hids (get_roots m) (fun x hx => (mem_get_roots.1 hx).1)]
  dsimp only
  rw [if_pos hsroot]
  rw [dfs_labeling_eq s 1 [] (fun i _ => rfl) (dfs_nodup hv hs)]
  dsimp only
  rw [List.nil_append]
  rw [rootPasses_eq ((get_roots m).erase s) (dfsF m (m.length+1) s) hsplit]
  dsimp only
  rw [hinfo]
  have hfold : dfsF m (m.length+1) s ++
      ((get_roots m).erase s).flatMap (dfsF m (m.length+1)) = sortOrder m s := rfl
  rw [hfold]
  rw [remapAll_eq hv hs hsr (m.map (fun n => (n.id, n))) [] hfct (fun p _ => rfl)
    hremapnodup]
  dsimp only
  rw [List.nil_append]
  rw [keys_filter_eq hv hs hsr _ houtD hkeysout]

theorem sortedOf_head {m : Morphology} {s : SwcNode} (hsr : s.parent = -1) :
    (sortedOf m s).head? = some { s with id := 1 } := by
  have hdf : dfsF m (m.length+1) s = s :: (get_children m s).flatMap (dfsF m m.length) := rfl
  have hso : sortOrder m s = s :: ((get_children m s).flatMap (dfsF m m.length) ++
      ((get_roots m).erase s).flatMap (dfsF m (m.length+1))) := by
    unfold sortOrder
    rw [hdf, List.cons_append]
  have h1 : relabelNode (sortOrder m s) 0 s = { s with id := 1 } := by
    unfold relabelNode
    rw [if_pos hsr]
    rw [← hsr]
    have hc : ((0 : Nat) : Int) + 1 = 1 := by norm_num
    rw [hc]
  unfold sortedOf
  rw [List.head?_eq_getElem?]
  rw [List.getElem?_eq_getElem (by rw [List.length_mapIdx, hso]; simp)]
  rw [List.getElem_mapIdx]
  rw [← h1]
  congr 1

theorem sortedOf_cons {m : Morphology} {s : SwcNode} (hsr : s.parent = -1) :
    ∃ t, sortedOf m s = { s with id := 1 } :: t := by
  rw [← List.head?_eq_some_iff]
  exact sortedOf_head hsr

/-- C1 (counterexample): a tree with a unique soma whose soma is not a root.
The tree is valid and has exactly one type-1 node, yet sort_morph_ids
returns identifiers 2 and 3 (not the contiguous range 1..2) and the soma
receives identifier 3, not 1: the root relabeling passes overwrite the
labels of the soma pass, so the claim fails for a non-root soma. -/
theorem sort_ids_nonroot_soma_cex :
    exNonRootSoma.filter (fun n => n.type == 1) = [nd 2 1 0 1] ∧
    valid exNonRootSoma ∧
    (sort_morph_ids exNonRootSoma none 0).1 = .ok [nd 2 3 0 (-1), nd 3 1 0 2] ∧
    [nd 2 3 0 (-1), nd 3 1 0 2].map (·.id) ≠ intsFrom 1 exNonRootSoma.length ∧
    ∀ n ∈ [nd 2 3 0 (-1), nd 3 1 0 2], n.type = 1 → n.id ≠ 1 :=
  ⟨rfl, by decide, rfl, by decide, by decide⟩

/-- C1 (amended): for every well-formed tree whose soma lookup succeeds and
whose soma is a root, sort_morph_ids returns exactly the relabeled
enumeration sortedOf: the soma subtree in depth-first pre-order followed by
each remaining root subtree, node i of the order receiving identifier i+1
with parents remapped through the order (and -1 kept); consequently the
identifiers are the contiguous range 1..N and the first output node is the
soma carrying identifier 1. -/
theorem sort_ids_contiguous {m : Morphology} (hv : valid m) {s : SwcNode}
    (hsoma : get_soma m = some s) (hroot : s.parent = -1) (sid : Nat) :
    sort_morph_ids m none sid = (.ok (sortedOf m s), []) ∧
    (sortedOf m s).map (·.id) = intsFrom 1 m.length ∧
    (sortedOf m s).head? = some { s with id := 1 } := by
  have hs : s ∈ m := by
    unfold get_soma at hsoma
    exact List.mem_of_find?_eq_some hsoma
  exact ⟨sort_morph_ids_eq hv hs hroot none sid hsoma, sortedOf_map_id hv hs hroot,
    sortedOf_head hroot⟩

/-- C1 (witness): the amended theorem applied to the five-node example tree
with soma 3 at a root. -/
theorem sort_ids_contiguous_witness :
    sort_morph_ids exSorted none 0 = (.ok (sortedOf exSorted (nd 3 1 0 (-1))), []) ∧
    (sortedOf exSorted (nd 3 1 0 (-1))).map (·.id) = intsFrom 1 exSorted.length ∧
    (sortedOf exSorted (nd 3 1 0 (-1))).head? = some { nd 3 1 0 (-1) with id := 1 } :=
  sort_ids_contiguous (by decide) (by rfl) (by rfl) 0

/-- C4 (counterexample): remove_duplicate_soma is not idempotent.  On the
valid five-node tree exDupTwin the first call succeeds (the non-root soma
triggers the sorting path, after which the returned identifiers start at 2
and a different type-1 node has become the first soma found), and the
second call then removes that node's coordinate twin: the two results
differ, refuting idempotence on trees where it succeeds. -/
theorem remove_dup_not_idempotent_cex :
    valid exDupTwin ∧
    (remove_duplicate_soma exDupTwin none).1.1 = .ok
      [ { id := 2, type := 3, x := 5, y := 0, z := 0, radius := 1, parent := -1 },
        { id := 3, type := 0, x := 1, y := 0, z := 0, radius := 1, parent := 2 },
        { id := 4, type := 1, x := 10, y := 0, z := 0, radius := 1, parent := 3 },
        { id := 5, type := 1, x := 0, y := 0, z := 0, radius := 1, parent := 2 },
        { id := 6, type := 0, x := 10, y := 0, z := 0, radius := 1, parent := -1 } ] ∧
    (remove_duplicate_soma
      [ { id := 2, type := 3, x := 5, y := 0, z := 0, radius := 1, parent := -1 },
        { id := 3, type := 0, x := 1, y := 0, z := 0, radius := 1, parent := 2 },
        { id := 4, type := 1, x := 10, y := 0, z := 0, radius := 1, parent := 3 },
        { id := 5, type := 1, x := 0, y := 0, z := 0, radius := 1, parent := 2 },
        { id := 6, type := 0, x := 10, y := 0, z := 0, radius := 1, parent := -1 } ]
      none).1.1 = .ok
      [ { id := 1, type := 1, x := 10, y := 0, z := 0, radius := 1, parent := -1 },
        { id := 2, type := 3, x := 5, y := 0, z := 0, radius := 1, parent := -1 },
        { id := 3, type := 0, x := 1, y := 0, z := 0, radius := 1, parent := 2 },
        { id := 4, type := 1, x := 0, y := 0, z := 0, radius := 1, parent := 2 } ] ∧
    ([ { id := 1, type := 1, x := 10, y := 0, z := 0, radius := 1, parent := -1 },
        { id := 2, type := 3, x := 5, y := 0, z := 0, radius := 1, parent := -1 },
        { id := 3, type := 0, x := 1, y := 0, z := 0, radius := 1, parent := 2 },
        { id := 4, type := 1, x := 0, y := 0, z := 0, radius := 1, parent := 2 } ] : Morphology) ≠
      [ { id := 2, type := 3, x := 5, y := 0, z := 0, radius := 1, parent := -1 },
        { id := 3, type := 0, x := 1, y := 0, z := 0, radius := 1, parent := 2 },
        { id := 4, type := 1, x := 10, y := 0, z := 0, radius := 1, parent := 3 },
        { id := 5, type := 1, x := 0, y := 0, z := 0, radius := 1, parent := 2 },
        { id := 6, type := 0, x := 10, y := 0, z := 0, radius := 1, parent := -1 } ] :=
  ⟨by decide, rfl, rfl, by decide⟩

theorem filter_unique {α : Type} {q : α → Bool} :
    ∀ {l : List α} {a : α}, l.Nodup → a ∈ l → q a = true →
      (∀ x ∈ l, x ≠ a → q x = false) → l.filter q = [a] := by
  intro l
  induction l with
  | nil => intro a _ h; simp at h
  | cons b t ih =>
    intro a hnodup hmem hqa hother
    have hnd := List.nodup_cons.1 hnodup
    rcases List.mem_cons.1 hmem with rfl | hat
    · rw [List.filter_cons_of_pos hqa]
      have : t.filter q = [] := by
        rw [List.filter_eq_nil]
        intro x hx
        rw [hother x (List.mem_cons_of_mem a hx) (fun he => hnd.1 (he ▸ hx))]
        simp
      rw [this]
    · have hba : b ≠ a := fun he => hnd.1 (he ▸ hat)
      rw [List.filter_cons_of_neg (by rw [hother b (List.mem_cons_self b t) hba]; simp)]
      exact ih hnd.2 hat hqa (fun x hx => hother x (List.mem_cons_of_mem b hx))

theorem applyUpds_const {v : Int} :
    ∀ (ks : List Int) (n : SwcNode),
      applyUpds (ks.map (fun k => (k, v))) n =
        if n.id ∈ ks then { n with parent := v } else n := by
  intro ks
  induction ks with
  | nil => intro n; simp [applyUpds]
  | cons k t ih =>
    intro n
    unfold applyUpds
    rw [List.map_cons, List.foldl_cons]
    by_cases h : n.id = k
    · rw [if_pos h]
      have hstep := ih { n with parent := v }
      unfold applyUpds at hstep
      rw [hstep]
      have hmem : n.id ∈ k :: t := by rw [h]; exact List.mem_cons_self k t
      conv_rhs => rw [if_pos hmem]
      split_ifs <;> rfl
    · rw [if_neg h]
      have hstep := ih n
      unfold applyUpds at hstep
      rw [hstep]
      by_cases hmem : n.id ∈ t
      · rw [if_pos hmem]
        conv_rhs => rw [if_pos (List.mem_cons_of_mem k hmem)]
      · rw [if_neg hmem]
        conv_rhs => rw [if_neg (by simp [List.mem_cons, h, hmem])]

theorem get_soma_map_filter {g : SwcNode → SwcNode} {q : SwcNode → Bool} :
    ∀ {m : Morphology} {s : SwcNode},
      get_soma m = some s → q s = true → g s = s →
      (∀ n ∈ m, n.type ≠ 1 → (g n).type ≠ 1) →
      get_soma ((m.filter q).map g) = some s := by
  intro m
  induction m with
  | nil => intro s h; simp [get_soma] at h
  | cons a t ih =>
    intro s hsoma hq hgs htypes
    unfold get_soma at hsoma
    by_cases ha : ((fun c : SwcNode => c.type == 1) a) = true
    · rw [List.find?_cons_of_pos t ha] at hsoma
      have has : a = s := Option.some.inj hsoma
      subst has
      rw [List.filter_cons_of_pos hq, List.map_cons]
      unfold get_soma
      have hga : ((fun c : SwcNode => c.type == 1) (g a)) = true := by rw [hgs]; exact ha
      rw [List.find?_cons_of_pos (List.map g (List.filter q t)) hga]
      rw [hgs]
    · rw [List.find?_cons_of_neg t ha] at hsoma
      have hat : (g a).type ≠ 1 :=
        htypes a (List.mem_cons_self a t) (by simpa using ha)
      have hrec := ih hsoma hq hgs (fun n hn => htypes n (List.mem_cons_of_mem a hn))
      by_cases hqa : q a = true
      · rw [List.filter_cons_of_pos hqa, List.map_cons]
        unfold get_soma
        have hgat : ¬ ((fun c : SwcNode => c.type == 1) (g a)) = true := by
          simp only [beq_iff_eq]
          exact hat
        rw [List.find?_cons_of_neg (List.map g (List.filter q t)) hgat]
        exact hrec
      · rw [List.filter_cons_of_neg (by simpa using hqa)]
        exact hrec

theorem keepFun_eq (m : Morphology) (s : SwcNode) (n : SwcNode) :
    keepFun m s n =
      if n.id = s.id then { n with parent := -1, type := 1 }
      else if n.id ∈ (m.filter (childTest m s)).map (·.id) then { n with parent := s.id }
      else n := by
  unfold keepFun
  dsimp only
  by_cases h2 : n.id = s.id
  · rw [if_pos h2]
    by_cases h1 : n.id ∈ (m.filter (childTest m s)).map (·.id)
    · rw [if_pos h1]
      rw [if_pos h2, if_pos h2]
    · rw [if_neg h1]
      rw [if_pos h2, if_pos h2]
  · rw [if_neg h2]
    by_cases h1 : n.id ∈ (m.filter (childTest m s)).map (·.id)
    · rw [if_pos h1]
      rw [if_neg h2, if_neg h2]
    · rw [if_neg h1]
      rw [if_neg h2, if_neg h2]

theorem keepFun_id (m : Morphology) (s : SwcNode) (n : SwcNode) :
    (keepFun m s n).id = n.id := by
  rw [keepFun_eq]
  split_ifs <;> rfl

theorem keepFun_coords (m : Morphology) (s : SwcNode) (n : SwcNode) :
    (keepFun m s n).x = n.x ∧ (keepFun m s n).y = n.y ∧ (keepFun m s n).z = n.z := by
  rw [keepFun_eq]
  split_ifs <;> exact ⟨rfl, rfl, rfl⟩

theorem keepFun_type (m : Morphology) (s : SwcNode) {n : SwcNode} (h : n.id ≠ s.id) :
    (keepFun m s n).type = n.type := by
  rw [keepFun_eq, if_neg h]
  split_ifs <;> rfl

theorem keepFun_parent (m : Morphology) (s : SwcNode) (n : SwcNode) :
    (keepFun m s n).parent =
      if n.id = s.id then -1
      else if n.id ∈ (m.filter (childTest m s)).map (·.id) then s.id else n.parent := by
  rw [keepFun_eq]
  split_ifs <;> rfl

theorem keepFun_s {m : Morphology} {s : SwcNode} (hsr : s.parent = -1)
    (htype : s.type = 1) : keepFun m s s = s := by
  rw [keepFun_eq, if_pos rfl]
  rw [← hsr, ← htype]

theorem dupsOf_subset {m : Morphology} {s : SwcNode} {x : SwcNode}
    (hx : x ∈ dupsOf m s) : x ∈ m :=
  (List.mem_filter.1 (List.mem_of_mem_erase hx)).1

theorem s_not_mem_dups {m : Morphology} (hids : (m.map (·.id)).Nodup) {s : SwcNode} :
    s ∉ dupsOf m s := by
  have hmnd : m.Nodup := hids.of_map _
  exact ((List.filter_sublist m).nodup hmnd).not_mem_erase

theorem s_id_not_mem_dupIds {m : Morphology} (hids : (m.map (·.id)).Nodup)
    {s : SwcNode} (hs : s ∈ m) : s.id ∉ dupIdsOf m s := by
  intro hmem
  obtain ⟨d, hd, hdid⟩ := List.mem_map.1 hmem
  have hds : d = s := nodes_eq_of_id_eq hids (dupsOf_subset hd) hs hdid
  exact s_not_mem_dups hids (hds ▸ hd)

theorem keepingOf_ids {m : Morphology} (s : SwcNode) :
    (keepingOf m s).map (·.id) =
      (m.filter (fun n => !((dupIdsOf m s).contains n.id))).map (·.id) := by
  unfold keepingOf
  rw [List.map_map]
  exact List.map_congr_left (fun n _ => keepFun_id m s n)

theorem keepingOf_ids_nodup {m : Morphology} (hids : (m.map (·.id)).Nodup)
    (s : SwcNode) : ((keepingOf m s).map (·.id)).Nodup := by
  rw [keepingOf_ids]
  exact ((List.filter_sublist m).map (·.id)).nodup hids

theorem s_mem_keeping {m : Morphology} (hids : (m.map (·.id)).Nodup) {s : SwcNode}
    (hs : s ∈ m) (hsr : s.parent = -1) (htype : s.type = 1) :
    s ∈ keepingOf m s := by
  unfold keepingOf
  refine List.mem_map.2 ⟨s, List.mem_filter.2 ⟨hs, ?_⟩, keepFun_s hsr htype⟩
  simpa using s_id_not_mem_dupIds hids hs

theorem keeping_soma {m : Morphology} (hids : (m.map (·.id)).Nodup) {s : SwcNode}
    (hs : s ∈ m) (hsr : s.parent = -1) (htype : s.type = 1)
    (hfirst : get_soma m = some s) :
    get_soma (keepingOf m s) = some s := by
  unfold keepingOf
  refine get_soma_map_filter hfirst (by simpa using s_id_not_mem_dupIds hids hs)
    (keepFun_s hsr htype) ?_
  intro n hn hnt
  by_cases hid : n.id = s.id
  · exact absurd ((nodes_eq_of_id_eq hids hn hs hid) ▸ htype) hnt
  · rw [keepFun_type m s hid]
    exact hnt

theorem keeping_coords {m : Morphology} (hids : (m.map (·.id)).Nodup) {s : SwcNode}
    (hs : s ∈ m) (hsr : s.parent = -1) (htype : s.type = 1) :
    (keepingOf m s).filter (fun n => n.x == s.x && n.y == s.y && n.z == s.z) = [s] := by
  unfold keepingOf
  rw [List.filter_map]
  have hco : ∀ n ∈ m.filter (fun n => !((dupIdsOf m s).contains n.id)),
      ((fun n => n.x == s.x && n.y == s.y && n.z == s.z) ∘ keepFun m s) n =
      (fun n => n.x == s.x && n.y == s.y && n.z == s.z) n := by
    intro n _
    simp only [Function.comp]
    rw [(keepFun_coords m s n).1, (keepFun_coords m s n).2.1, (keepFun_coords m s n).2.2]
  rw [List.filter_congr hco]
  have hcomm : (m.filter (fun n => !((dupIdsOf m s).contains n.id))).filter
      (fun n => n.x == s.x && n.y == s.y && n.z == s.z) =
      (m.filter (fun n => n.x == s.x && n.y == s.y && n.z == s.z)).filter
      (fun n => !((dupIdsOf m s).contains n.id)) := by
    rw [List.filter_filter, List.filter_filter]
    exact List.filter_congr (fun x _ => by rw [Bool.and_comm])
  rw [hcomm]
  have hsing : (m.filter (fun n => n.x == s.x && n.y == s.y && n.z == s.z)).filter
      (fun n => !((dupIdsOf m s).contains n.id)) = [s] := by
    refine filter_unique ((List.filter_sublist m).nodup (hids.of_map _))
      (List.mem_filter.2 ⟨hs, by simp⟩)
      (by simpa using s_id_not_mem_dupIds hids hs) ?_
    intro x hx hxs
    have hxdup : x ∈ dupsOf m s := by
      unfold dupsOf
      exact (List.mem_erase_of_ne hxs).2 hx
    have : x.id ∈ dupIdsOf m s := List.mem_map.2 ⟨x, hxdup, rfl⟩
    simpa using this
  rw [hsing]
  have : [s].map (keepFun m s) = [keepFun m s s] := rfl
  rw [this, keepFun_s hsr htype]

theorem keeping_paths {m : Morphology} (hv : valid m) {s : SwcNode} (hs : s ∈ m)
    (hsr : s.parent = -1) (htype : s.type = 1) :
    ∀ k (n : SwcNode), n ∈ m → (!((dupIdsOf m s).contains n.id)) = true →
      (∃ p, IsPath m n p ∧ p.length ≤ k) →
      ∃ p2, IsPath (keepingOf m s) (keepFun m s n) p2 := by
  intro k
  induction k with
  | zero =>
    intro n _ _ hex
    obtain ⟨p, hpath, hlen⟩ := hex
    obtain ⟨q, rfl⟩ := hpath.head_cons
    simp at hlen
  | succ k ih =>
    intro n hn hq hex
    obtain ⟨p, hpath, hlen⟩ := hex
    by_cases hid : n.id = s.id
    · have hns : n = s := nodes_eq_of_id_eq hv.1 hn hs hid
      rw [hns, keepFun_s hsr htype]
      exact ⟨[s], IsPath.root s hsr⟩
    · by_cases hchild : n.id ∈ (m.filter (childTest m s)).map (·.id)
      · have hpar : (keepFun m s n).parent = s.id := by
          rw [keepFun_parent, if_neg hid, if_pos hchild]
        refine ⟨[keepFun m s n, s], IsPath.step _ s [s] ?_ ?_ (IsPath.root s hsr)⟩
        · rw [hpar]
          exact hv.2.1 s hs
        · rw [hpar]
          exact node_by_id_self (keepingOf_ids_nodup hv.1 s)
            (s_mem_keeping hv.1 hs hsr htype)
      · have hpar : (keepFun m s n).parent = n.parent := by
          rw [keepFun_parent, if_neg hid, if_neg hchild]
        by_cases hr : n.parent = -1
        · exact ⟨[keepFun m s n], IsPath.root _ (by rw [hpar]; exact hr)⟩
        · obtain ⟨pn, hpn⟩ := parent_lookup hv hn hr
          have hpnm := node_by_id_mem hpn
          have hpq : (!((dupIdsOf m s).contains pn.id)) = true := by
            have hnotdup : n.parent ∉ dupIdsOf m s := by
              intro hmemdup
              have hnnotdup : n ∉ dupsOf m s := by
                intro hnd
                have : n.id ∈ dupIdsOf m s := List.mem_map.2 ⟨n, hnd, rfl⟩
                simp [this] at hq
              have hct : childTest m s n = true := by
                unfold childTest
                simp only [Bool.and_eq_true, Bool.not_eq_true']
                constructor
                · simpa using hmemdup
                · simpa using hnnotdup
              exact hchild (List.mem_map.2 ⟨n, List.mem_filter.2 ⟨hn, hct⟩, rfl⟩)
            rw [hpnm.2]
            simpa using hnotdup
          have hstep : ∃ q, IsPath m pn q ∧ q.length ≤ k := by
            cases hpath with
            | root _ hr0 => exact absurd hr0 hr
            | step _ pn2 q hnr hf hq2 =>
              have hpe : pn2 = pn := by
                rw [hpn] at hf
                exact (Option.some.inj hf).symm
              subst hpe
              refine ⟨q, hq2, ?_⟩
              simpa using Nat.succ_le_succ_iff.1 hlen
          obtain ⟨p2, hp2⟩ := ih pn hpnm.1 hpq hstep
          refine ⟨keepFun m s n :: p2, IsPath.step _ (keepFun m s pn) p2 ?_ ?_ hp2⟩
          · rw [hpar]
            exact hr
          · rw [hpar]
            have hpnK : keepFun m s pn ∈ keepingOf m s := by
              unfold keepingOf
              exact List.mem_map.2 ⟨pn, List.mem_filter.2 ⟨hpnm.1, hpq⟩, rfl⟩
            have hnode := node_by_id_self (keepingOf_ids_nodup hv.1 s) hpnK
            rw [keepFun_id, hpnm.2] at hnode
            exact hnode

theorem keeping_valid {m : Morphology} (hv : valid m) {s : SwcNode} (hs : s ∈ m)
    (hsr : s.parent = -1) (htype : s.type = 1) : valid (keepingOf m s) := by
  refine ⟨keepingOf_ids_nodup hv.1 s, ?_, ?_⟩
  · intro y hy
    obtain ⟨n, hnf, rfl⟩ := List.mem_map.1 hy
    rw [keepFun_id]
    exact hv.2.1 n (List.mem_filter.1 hnf).1
  · intro y hy
    obtain ⟨n, hnf, rfl⟩ := List.mem_map.1 hy
    have hn := List.mem_filter.1 hnf
    obtain ⟨p, hpath⟩ := valid_isPath hv hn.1
    obtain ⟨p2, hp2⟩ := keeping_paths hv hs hsr htype m.length n hn.1 hn.2
      ⟨p, hpath, hpath.length_le hn.1⟩
    rw [hp2.get_path hy]
    rfl

theorem filter_map_invariant {f : SwcNode → SwcNode} (hid : ∀ n, (f n).id = n.id) :
    ∀ (l : Morphology) (ids : List Int),
      (l.map f).filter (fun n => !(ids.contains n.id)) =
        (l.filter (fun n => !(ids.contains n.id))).map f := by
  intro l ids
  induction l with
  | nil => rfl
  | cons a t ih =>
    rw [List.map_cons, List.filter_cons, List.filter_cons, hid a]
    by_cases hq : (!(ids.contains a.id)) = true
    · rw [if_pos hq, if_pos hq, List.map_cons, ih]
    · rw [if_neg hq, if_neg hq, ih]

theorem keeping_eq (m : Morphology) (s : SwcNode) :
    (setType (setParent
        ((m.filter (childTest m s)).foldl (fun mm n => setParent mm n.id s.id) m)
        s.id (-1)) s.id 1).filter
      (fun n => !((dupIdsOf m s).contains n.id)) = keepingOf m s := by
  have h1 : (m.filter (childTest m s)).foldl (fun mm n => setParent mm n.id s.id) m =
      m.map (fun n => if n.id ∈ (m.filter (childTest m s)).map (·.id)
        then { n with parent := s.id } else n) := by
    calc (m.filter (childTest m s)).foldl (fun mm n => setParent mm n.id s.id) m
        = ((m.filter (childTest m s)).map (fun n => (n.id, s.id))).foldl
            (fun mm kv => setParent mm kv.1 kv.2) m := by rw [List.foldl_map]
      _ = m.map (applyUpds ((m.filter (childTest m s)).map (fun n => (n.id, s.id)))) :=
          foldl_setParent_map _ _
      _ = m.map (fun n => if n.id ∈ (m.filter (childTest m s)).map (·.id)
            then { n with parent := s.id } else n) := by
          refine List.map_congr_left ?_
          intro n _
          rw [show (m.filter (childTest m s)).map (fun c => (c.id, s.id)) =
              ((m.filter (childTest m s)).map (·.id)).map (fun k => (k, s.id)) from by
            rw [List.map_map]
            rfl]
          exact applyUpds_const _ n
  rw [h1]
  unfold setParent setType
  rw [List.map_map, List.map_map]
  have hGid : ∀ n : SwcNode,
      ((((fun n => if n.id = s.id then { n with type := 1 } else n) ∘
        (fun n => if n.id = s.id then { n with parent := -1 } else n)) ∘
       (fun n => if n.id ∈ (m.filter (childTest m s)).map (·.id)
          then { n with parent := s.id } else n)) n).id = n.id := by
    intro n
    simp only [Function.comp]
    split_ifs <;> rfl
  rw [filter_map_invariant hGid]
  rfl

theorem removeDupCore_dup_val {m : Morphology} (hv : valid m) {s : SwcNode}
    (hs : s ∈ m) (hsr : s.parent = -1) (htype : s.type = 1)
    (hfirst : get_soma m = some s) (hne : dupsOf m s ≠ []) :
    (removeDupCore m s).1.1 =
      if s.id ≠ 1 then .ok (sortedOf (keepingOf m s) s) else .ok (keepingOf m s) := by
  have hmem0 : s ∈ m.filter (fun n => n.x == s.x && n.y == s.y && n.z == s.z) :=
    List.mem_filter.2 ⟨hs, by simp⟩
  have hneg : ¬ ((m.filter (fun n => n.x == s.x && n.y == s.y && n.z == s.z)).erase s = []) :=
    hne
  unfold removeDupCore
  dsimp only
  rw [if_pos hmem0, if_neg hneg]
  rw [show (m.filter (fun n => n.x == s.x && n.y == s.y && n.z == s.z)).erase s =
      dupsOf m s from rfl]
  rw [show (dupsOf m s).map (·.id) = dupIdsOf m s from rfl]
  rw [show (fun n => (dupIdsOf m s).contains n.parent && !((dupsOf m s).contains n)) =
      childTest m s from rfl]
  rw [keeping_eq m s]
  rw [keeping_soma hv.1 hs hsr htype hfirst]
  dsimp only
  by_cases hid : s.id ≠ 1
  · rw [if_pos hid, if_pos hid]
    rw [sort_morph_ids_eq (keeping_valid hv hs hsr htype)
      (s_mem_keeping hv.1 hs hsr htype) hsr none 0
      (keeping_soma hv.1 hs hsr htype hfirst)]
  · rw [if_neg hid, if_neg hid]

theorem eq_singleton_of_erase_nil {l : Morphology} {a : SwcNode}
    (ha : a ∈ l) (he : l.erase a = []) : l = [a] := by
  cases l with
  | nil => simp at ha
  | cons b t =>
    rw [List.erase_cons] at he
    by_cases hb : b = a
    · rw [if_pos (by simp [hb])] at he
      rw [hb, he]
    · rw [if_neg (by simp [hb])] at he
      simp at he

theorem removeDup_fixed {m : Morphology} {s : SwcNode}
    (hsoma : get_soma m = some s) (hid1 : s.id = 1)
    (huniq : m.filter (fun n => n.x == s.x && n.y == s.y && n.z == s.z) = [s]) :
    (remove_duplicate_soma m none).1.1 = .ok m := by
  unfold remove_duplicate_soma
  dsimp only
  rw [hsoma]
  dsimp only
  unfold removeDupCore
  dsimp only
  rw [huniq]
  rw [if_pos (List.mem_singleton_self s)]
  rw [List.erase_cons_head]
  rw [if_pos rfl]
  rw [if_pos (show ((some s : Option SwcNode).isSome = true) from rfl)]
  rw [if_neg (show ¬ (s.id ≠ 1) from by simp [hid1])]

theorem sortOrder_head (m : Morphology) (s : SwcNode) :
    ∃ T, sortOrder m s = s :: T := by
  refine ⟨(get_children m s).flatMap (dfsF m m.length) ++
    ((get_roots m).erase s).flatMap (dfsF m (m.length+1)), ?_⟩
  unfold sortOrder
  rw [show dfsF m (m.length+1) s = s :: (get_children m s).flatMap (dfsF m m.length) from rfl,
    List.cons_append]

theorem relabelById_root {m : Morphology} {s : SwcNode} (hsr : s.parent = -1) :
    relabelById (sortOrder m s) s = { s with id := 1 } := by
  obtain ⟨T, hT⟩ := sortOrder_head m s
  unfold relabelById
  rw [hT]
  rw [List.findIdx?_cons]
  rw [if_pos (by simp)]
  dsimp only
  unfold relabelNode
  rw [if_pos hsr, ← hsr]
  have hc : ((0 : Nat) : Int) + 1 = 1 := by norm_num
  rw [hc]

theorem sortedOf_coords_filter {m : Morphology} (hv : valid m) {s : SwcNode}
    (hs : s ∈ m) (hsr : s.parent = -1)
    (huniq : m.filter (fun n => n.x == s.x && n.y == s.y && n.z == s.z) = [s]) :
    (sortedOf m s).filter (fun n => n.x == s.x && n.y == s.y && n.z == s.z) =
      [{ s with id := 1 }] := by
  rw [sortedOf_eq_map_relabelById hv hs hsr]
  rw [List.filter_map]
  have hco : ∀ n ∈ sortOrder m s,
      ((fun n => n.x == s.x && n.y == s.y && n.z == s.z) ∘ relabelById (sortOrder m s)) n =
      (fun n => n.x == s.x && n.y == s.y && n.z == s.z) n := by
    intro n _
    simp only [Function.comp]
    unfold relabelById
    cases hf : (sortOrder m s).findIdx? (fun c => c.id == n.id) with
    | none => rfl
    | some j => rfl
  rw [List.filter_congr hco]
  have hperm : ((sortOrder m s).filter
      (fun n => n.x == s.x && n.y == s.y && n.z == s.z)).Perm
      (m.filter (fun n => n.x == s.x && n.y == s.y && n.z == s.z)) :=
    (sortOrder_perm hv hs hsr).filter _
  rw [huniq] at hperm
  rw [List.perm_singleton.1 hperm]
  have hone : [s].map (relabelById (sortOrder m s)) = [relabelById (sortOrder m s) s] := rfl
  rw [hone, relabelById_root hsr]

theorem sortedOf_get_soma {m : Morphology} {s : SwcNode} (hsr : s.parent = -1)
    (htype : s.type = 1) : get_soma (sortedOf m s) = some { s with id := 1 } := by
  obtain ⟨t, hcons⟩ := sortedOf_cons hsr
  rw [hcons]
  unfold get_soma
  have hpos : ((fun c : SwcNode => c.type == 1) ({ s with id := 1 } : SwcNode)) = true := by
    show (s.type == 1) = true
    simp [htype]
  rw [List.find?_cons_of_pos t hpos]

theorem removeDup_fixed_sorted {m : Morphology} (hv : valid m) {s : SwcNode}
    (hs : s ∈ m) (hsr : s.parent = -1) (htype : s.type = 1)
    (huniq : m.filter (fun n => n.x == s.x && n.y == s.y && n.z == s.z) = [s]) :
    (remove_duplicate_soma (sortedOf m s) none).1.1 = .ok (sortedOf m s) :=
  removeDup_fixed (sortedOf_get_soma hsr htype) rfl
    (sortedOf_coords_filter hv hs hsr huniq)

theorem removeDupCore_nodup_val {m : Morphology} (hv : valid m) {s : SwcNode}
    (hs : s ∈ m) (hsr : s.parent = -1) (htype : s.type = 1)
    (hnodup : dupsOf m s = []) :
    (removeDupCore m s).1.1 = if s.id ≠ 1 then .ok (sortedOf m s) else .ok m := by
  have hmem0 : s ∈ m.filter (fun n => n.x == s.x && n.y == s.y && n.z == s.z) :=
    List.mem_filter.2 ⟨hs, by simp⟩
  have hone : m.filter (fun n => n.x == s.x && n.y == s.y && n.z == s.z) = [s] :=
    eq_singleton_of_erase_nil hmem0 hnodup
  unfold removeDupCore
  dsimp only
  rw [hone]
  rw [if_pos (List.mem_singleton_self s), List.erase_cons_head, if_pos rfl,
    if_pos (show ((some s : Option SwcNode).isSome = true) from rfl)]
  by_cases hid : s.id ≠ 1
  · rw [if_pos hid, if_pos hid]
    rw [sort_morph_ids_eq hv hs hsr (some s) 0 rfl]
    dsimp only
    rw [sortedOf_get_soma hsr htype]
  · rw [if_neg hid, if_neg hid]

/-- C4 (amended): remove_duplicate_soma is idempotent on every well-formed
tree whose soma lookup succeeds and whose soma is a root: whatever branch
the first call takes (pure relabeling, or duplicate removal with adoption
and optional relabeling), its output has a unique node at the soma
coordinates carrying identifier 1 at a root, on which the second call is
the identity. -/
theorem remove_dup_idempotent {m : Morphology} (hv : valid m) {s : SwcNode}
    (hsoma : get_soma m = some s) (hroot : s.parent = -1)
    {y : Morphology} (h1 : (remove_duplicate_soma m none).1.1 = .ok y) :
    (remove_duplicate_soma y none).1.1 = .ok y := by
  have htype : s.type = 1 := by
    unfold get_soma at hsoma
    have := List.find?_some hsoma
    simpa using this
  have hs : s ∈ m := by
    unfold get_soma at hsoma
    exact List.mem_of_find?_eq_some hsoma
  have h1core : (removeDupCore m s).1.1 = .ok y := by
    unfold remove_duplicate_soma at h1
    dsimp only at h1
    rw [hsoma] at h1
    exact h1
  by_cases hdups : dupsOf m s = []
  · rw [removeDupCore_nodup_val hv hs hroot htype hdups] at h1core
    have hone : m.filter (fun n => n.x == s.x && n.y == s.y && n.z == s.z) = [s] :=
      eq_singleton_of_erase_nil (List.mem_filter.2 ⟨hs, by simp⟩) hdups
    by_cases hid : s.id ≠ 1
    · rw [if_pos hid] at h1core
      have hy : y = sortedOf m s := (Except.ok.inj h1core).symm
      subst hy
      exact removeDup_fixed_sorted hv hs hroot htype hone
    · rw [if_neg hid] at h1core
      have hy : y = m := (Except.ok.inj h1core).symm
      subst hy
      exact removeDup_fixed hsoma (by simpa using hid) hone
  · rw [removeDupCore_dup_val hv hs hroot htype hsoma hdups] at h1core
    have hvK := keeping_valid hv hs hroot htype
    have hsK := s_mem_keeping hv.1 hs hroot htype
    have hgsK := keeping_soma hv.1 hs hroot htype hsoma
    have hcoK := keeping_coords hv.1 hs hroot htype
    by_cases hid : s.id ≠ 1
    · rw [if_pos hid] at h1core
      have hy : y = sortedOf (keepingOf m s) s := (Except.ok.inj h1core).symm
      subst hy
      exact removeDup_fixed_sorted hvK hsK hroot htype hcoK
    · rw [if_neg hid] at h1core
      have hy : y = keepingOf m s := (Except.ok.inj h1core).symm
      subst hy
      exact removeDup_fixed hgsK (by simpa using hid) hcoK

/-- C4 (witness): the amended idempotence applied to the four-node example
tree whose soma has identifier 1 at a root and no coordinate twin. -/
theorem remove_dup_idempotent_witness :
    (remove_duplicate_soma exSegment none).1.1 = .ok exSegment :=
  @remove_dup_idempotent exSegment (by decide) (nd 1 1 0 (-1)) rfl rfl exSegment rfl

theorem path_transfer {cur : Morphology} (hcur : (cur.map (·.id)).Nodup) :
    ∀ {m : Morphology} {y : SwcNode} {q : List SwcNode}, IsPath m y q →
      (∀ v ∈ q, v ∈ cur) → IsPath cur y q := by
  intro m y q hq
  induction hq with
  | root a har => intro _; exact IsPath.root a har
  | step a pa qa hnr hf hqa ih =>
    intro hmem
    have hpa : pa ∈ cur := by
      obtain ⟨q2, rfl⟩ := hqa.head_cons
      exact hmem pa (List.mem_cons_of_mem a (List.mem_cons_self pa q2))
    have hlook : node_by_id cur a.parent = some pa := by
      have h := node_by_id_self hcur hpa
      rwa [(node_by_id_mem hf).2] at h
    exact IsPath.step a pa qa hnr hlook
      (ih (fun v hv => hmem v (List.mem_cons_of_mem a hv)))

theorem mem_dfsF_iff {m : Morphology} (hv : valid m) {n : SwcNode} (hn : n ∈ m)
    {f : Nat} (hf : m.length ≤ f) {x : SwcNode} :
    x ∈ dfsF m f n ↔ x ∈ m ∧ Anc m n x := by
  constructor
  · exact fun hx => dfs_mem_anc hv hn hx
  · rintro ⟨hxm, p, hp, hnp⟩
    obtain ⟨⟨g, hg⟩, hget⟩ := List.mem_iff_get.1 hnp
    have hx2 := dfs_complete hxm hp g hg f
      (by have := hp.length_le hxm; omega)
    rwa [hget] at hx2

theorem dfsF_length_fuel {m : Morphology} (hv : valid m) {n : SwcNode} (hn : n ∈ m)
    {f : Nat} (hf : m.length ≤ f) :
    (dfsF m f n).length = (dfsF m (m.length+1) n).length := by
  have hperm : (dfsF m f n).Perm (dfsF m (m.length+1) n) := by
    refine (List.perm_ext_iff_of_nodup ((dfs_nodup hv hn).of_map _)
      ((dfs_nodup hv hn).of_map _)).2 ?_
    intro x
    rw [mem_dfsF_iff hv hn hf, mem_dfsF_iff hv hn (Nat.le_succ _)]
  exact hperm.length_eq

theorem dfsF_length_decomp {m : Morphology} (hv : valid m) {n : SwcNode} (hn : n ∈ m) :
    (dfsF m (m.length+1) n).length =
      1 + ((get_children m n).map (fun c => (dfsF m (m.length+1) c).length)).sum := by
  rw [show dfsF m (m.length+1) n = n :: (get_children m n).flatMap (dfsF m m.length)
    from rfl]
  rw [List.length_cons, List.length_flatMap]
  have hcong : (get_children m n).map (List.length ∘ dfsF m m.length) =
      (get_children m n).map (fun c => (dfsF m (m.length+1) c).length) := by
    refine List.map_congr_left ?_
    intro c hc
    exact dfsF_length_fuel hv (mem_childrenOfId.1 hc).1 le_rfl
  rw [hcong]
  omega

theorem dfsF_length_le {m : Morphology} (hv : valid m) {n : SwcNode} (hn : n ∈ m)
    (f : Nat) : (dfsF m f n).length ≤ m.length := by
  have hnodup : (dfsF m f n).Nodup := (dfs_nodup hv hn).of_map _
  have hsub : ∀ x ∈ dfsF m f n, x ∈ m := fun x hx => (dfs_mem_anc hv hn hx).1
  exact (hnodup.subperm hsub).length_le

theorem bfs_sound {m : Morphology} (hv : valid m) :
    ∀ (f : Nat) (q : List (SwcNode × Nat)), (∀ pr ∈ q, pr.1 ∈ m) →
      ∀ pr2 ∈ bfsQ m f q, pr2.1 ∈ m ∧ ∃ pr ∈ q, Anc m pr.1 pr2.1 := by
  intro f
  induction f with
  | zero => intro q _ pr2 h; simp [bfsQ] at h
  | succ f ih =>
    intro q hq pr2 hpr2
    match q with
    | [] => simp [bfsQ] at hpr2
    | (n, d) :: rest =>
      rw [bfsQ] at hpr2
      rcases List.mem_cons.1 hpr2 with rfl | h2
      · refine ⟨hq (n,d) (List.mem_cons_self _ _), (n,d), List.mem_cons_self _ _, ?_⟩
        obtain ⟨p, hp⟩ := valid_isPath hv (hq (n,d) (List.mem_cons_self _ _))
        exact Anc.refl hp
      · have hq2 : ∀ pr ∈ rest ++ (get_children m n).map (fun c => (c, d+1)),
            pr.1 ∈ m := by
          intro pr hpr
          rcases List.mem_append.1 hpr with h | h
          · exact hq pr (List.mem_cons_of_mem _ h)
          · obtain ⟨c, hc, rfl⟩ := List.mem_map.1 h
            exact (mem_childrenOfId.1 hc).1
        obtain ⟨hm2, pr, hprq, hanc⟩ := ih _ hq2 pr2 h2
        refine ⟨hm2, ?_⟩
        rcases List.mem_append.1 hprq with h | h
        · exact ⟨pr, List.mem_cons_of_mem _ h, hanc⟩
        · obtain ⟨c, hc, rfl⟩ := List.mem_map.1 h
          refine ⟨(n,d), List.mem_cons_self _ _, ?_⟩
          exact anc_parent_lift hv (hq (n,d) (List.mem_cons_self _ _))
            (mem_childrenOfId.1 hc).2 hanc

theorem bfs_complete {m : Morphology} (hv : valid m) :
    ∀ (f : Nat) (q : List (SwcNode × Nat)), (∀ pr ∈ q, pr.1 ∈ m) →
      (q.map (fun pr => (dfsF m (m.length+1) pr.1).length)).sum ≤ f →
      ∀ x ∈ m, (∃ pr ∈ q, Anc m pr.1 x) → x ∈ (bfsQ m f q).map (·.1) := by
  intro f
  induction f with
  | zero =>
    rintro q hq hsum x hx ⟨pr, hprq, hanc⟩
    exfalso
    have hpos : 1 ≤ (dfsF m (m.length+1) pr.1).length := by
      rw [dfsF_length_decomp hv (hq pr hprq)]
      omega
    have hmm : (dfsF m (m.length+1) pr.1).length ∈
        q.map (fun pr => (dfsF m (m.length+1) pr.1).length) :=
      List.mem_map.2 ⟨pr, hprq, rfl⟩
    have hmem := List.single_le_sum (fun (a : Nat) _ => Nat.zero_le a) _ hmm
    omega
  | succ f ih =>
    rintro q hq hsum x hx ⟨pr, hprq, hanc⟩
    match q with
    | [] => simp at hprq
    | (n, d) :: rest =>
      rw [bfsQ, List.map_cons]
      have hq2 : ∀ pr2 ∈ rest ++ (get_children m n).map (fun c => (c, d+1)),
          pr2.1 ∈ m := by
        intro pr2 hpr2
        rcases List.mem_append.1 hpr2 with h | h
        · exact hq pr2 (List.mem_cons_of_mem _ h)
        · obtain ⟨c, hc, rfl⟩ := List.mem_map.1 h
          exact (mem_childrenOfId.1 hc).1
      have hsum2 : ((rest ++ (get_children m n).map (fun c => (c, d+1))).map
          (fun pr => (dfsF m (m.length+1) pr.1).length)).sum ≤ f := by
        rw [List.map_append, List.sum_append, List.map_map]
        have hnm : n ∈ m := hq (n,d) (List.mem_cons_self _ _)
        have hd := dfsF_length_decomp hv hnm
        rw [List.map_cons, List.sum_cons] at hsum
        dsimp only at hsum
        have hcomp : ((get_children m n).map
            ((fun pr : SwcNode × Nat => (dfsF m (m.length+1) pr.1).length) ∘
              (fun c => (c, d+1)))).sum =
            ((get_children m n).map (fun c => (dfsF m (m.length+1) c).length)).sum := rfl
        rw [hcomp]
        omega
      rcases List.mem_cons.1 hprq with rfl | hpr2
      · by_cases hxn : x = n
        · exact List.mem_cons.2 (Or.inl hxn)
        · obtain ⟨c, hcm, hcp, hcanc⟩ := Anc.exists_child hx hanc hxn
          have hcchild : c ∈ get_children m n := mem_childrenOfId.2 ⟨hcm, hcp⟩
          refine List.mem_cons_of_mem _ (ih _ hq2 hsum2 x hx ⟨(c, d+1), ?_, hcanc⟩)
          exact List.mem_append.2 (Or.inr (List.mem_map.2 ⟨c, hcchild, rfl⟩))
      · exact List.mem_cons_of_mem _
          (ih _ hq2 hsum2 x hx ⟨pr, List.mem_append.2 (Or.inl hpr2), hanc⟩)

theorem bfs_tree_mem {m : Morphology} (hv : valid m) {r : SwcNode} (hr : r ∈ m) :
    ∀ x, x ∈ (bfs_tree r m).1 ↔ (x ∈ m ∧ Anc m r x) := by
  intro x
  unfold bfs_tree
  dsimp only
  constructor
  · intro hx
    obtain ⟨pr2, hpr2, hfst⟩ := List.mem_map.1 hx
    obtain ⟨hm, pr, hpr, hanc⟩ := bfs_sound hv _ _
      (by
        intro pr hpr
        rw [List.mem_singleton] at hpr
        rw [hpr]
        exact hr) pr2 hpr2
    rw [List.mem_singleton] at hpr
    subst hpr
    rw [← hfst]
    exact ⟨hm, hanc⟩
  · rintro ⟨hxm, hanc⟩
    refine bfs_complete hv (m.length+1) [(r,0)]
      (by
        intro pr hpr
        rw [List.mem_singleton] at hpr
        rw [hpr]
        exact hr) ?_ x hxm ⟨(r,0), List.mem_singleton_self _, hanc⟩
    have hle := dfsF_length_le hv hr (m.length+1)
    simp only [List.map_cons, List.map_nil, List.sum_cons, List.sum_nil]
    omega

theorem closest_fold_inv (s : SwcNode) :
    ∀ (L : List SwcNode) (acc : Bool × Int × SwcNode),
      acc.2.1 = sqDist acc.2.2 s →
      (L.foldl (closestStep s) acc).2.1 = sqDist (L.foldl (closestStep s) acc).2.2 s ∧
      (L.foldl (closestStep s) acc = acc ∨
        ((L.foldl (closestStep s) acc).2.2 ∈ L ∧ (L.foldl (closestStep s) acc).1 = true)) ∧
      (L.foldl (closestStep s) acc).2.1 ≤ acc.2.1 ∧
      (∀ y ∈ L, (L.foldl (closestStep s) acc).2.1 ≤ sqDist y s) ∧
      (acc.1 = true → (L.foldl (closestStep s) acc).1 = true) := by
  intro L
  induction L with
  | nil =>
    intro acc hacc
    exact ⟨hacc, Or.inl rfl, le_rfl, by simp, fun h => h⟩
  | cons a t ih =>
    intro acc hacc
    rw [List.foldl_cons]
    rw [show closestStep s acc a =
      (if sqDist a s < acc.2.1 then (true, sqDist a s, a) else acc) from rfl]
    by_cases h : sqDist a s < acc.2.1
    · rw [if_pos h]
      obtain ⟨h1, h2, h3, h4, h5⟩ := ih (true, sqDist a s, a) rfl
      refine ⟨h1, ?_, ?_, ?_, fun _ => h5 rfl⟩
      · rcases h2 with he | ⟨hm, hf⟩
        · right
          rw [he]
          exact ⟨List.mem_cons_self a t, rfl⟩
        · exact Or.inr ⟨List.mem_cons_of_mem a hm, hf⟩
      · exact le_trans h3 (le_of_lt h)
      · intro y hy
        rcases List.mem_cons.1 hy with rfl | hyt
        · exact h3
        · exact h4 y hyt
    · rw [if_neg h]
      obtain ⟨h1, h2, h3, h4, h5⟩ := ih acc hacc
      refine ⟨h1, ?_, h3, ?_, h5⟩
      · rcases h2 with he | ⟨hm, hf⟩
        · exact Or.inl he
        · exact Or.inr ⟨List.mem_cons_of_mem a hm, hf⟩
      · intro y hy
        rcases List.mem_cons.1 hy with rfl | hyt
        · exact le_trans h3 (not_lt.1 h)
        · exact h4 y hyt

theorem closest_fold_noimprove (s : SwcNode) :
    ∀ (L : List SwcNode) (acc : Bool × Int × SwcNode),
      (∀ y ∈ L, ¬ (sqDist y s < acc.2.1)) → L.foldl (closestStep s) acc = acc := by
  intro L
  induction L with
  | nil => intro acc _; rfl
  | cons a t ih =>
    intro acc hno
    rw [List.foldl_cons]
    rw [show closestStep s acc a =
      (if sqDist a s < acc.2.1 then (true, sqDist a s, a) else acc) from rfl]
    rw [if_neg (hno a (List.mem_cons_self a t))]
    exact ih acc (fun y hy => hno y (List.mem_cons_of_mem a hy))

theorem closest_fold_improve (s : SwcNode) :
    ∀ (L : List SwcNode) (acc : Bool × Int × SwcNode),
      (∃ y ∈ L, sqDist y s < acc.2.1) →
      (L.foldl (closestStep s) acc).1 = true ∧
      (L.foldl (closestStep s) acc).2.1 < acc.2.1 := by
  intro L
  induction L with
  | nil =>
    rintro acc ⟨y, hy, _⟩
    simp at hy
  | cons a t ih =>
    rintro acc ⟨y, hy, hlt⟩
    rw [List.foldl_cons]
    rw [show closestStep s acc a =
      (if sqDist a s < acc.2.1 then (true, sqDist a s, a) else acc) from rfl]
    by_cases h : sqDist a s < acc.2.1
    · rw [if_pos h]
      have hinv := closest_fold_inv s t (true, sqDist a s, a) rfl
      exact ⟨hinv.2.2.2.2 rfl, lt_of_le_of_lt hinv.2.2.1 h⟩
    · rw [if_neg h]
      refine ih acc ⟨y, ?_, hlt⟩
      rcases List.mem_cons.1 hy with rfl | hyt
      · exact absurd hlt h
      · exact hyt

theorem sqDist_parent_right (a b : SwcNode) (v : Int) :
    sqDist a { b with parent := v } = sqDist a b := rfl

theorem chainUpd_parentOnly (pr : Int) (ks : List Int) (x : SwcNode) :
    ∃ v, chainUpd pr ks x = { x with parent := v } := by
  unfold chainUpd
  cases chainAssign pr ks x.id with
  | none => exact ⟨x.parent, rfl⟩
  | some v => exact ⟨v, rfl⟩

theorem sqDist_chainUpd (pr : Int) (ks : List Int) (x s0 : SwcNode) :
    sqDist (chainUpd pr ks x) s0 = sqDist x s0 := by
  obtain ⟨v, hvv⟩ := chainUpd_parentOnly pr ks x
  rw [hvv]
  rfl

theorem map_chainUpd_ids (pr : Int) (ks : List Int) (M : Morphology) :
    (M.map (chainUpd pr ks)).map (·.id) = M.map (·.id) := by
  rw [List.map_map]
  exact List.map_congr_left (fun n _ => chainUpd_id pr ks n)

theorem anc_all_path {m : Morphology} {y : SwcNode} {q : List SwcNode}
    (hq : IsPath m y q) {r : SwcNode} (hr : r.parent = -1) (hrq : r ∈ q) :
    ∀ v ∈ q, Anc m r v := by
  intro v hvq
  obtain ⟨i, hi, hget, hdrop⟩ := hq.mem_imp_path hvq
  have hlast : r = q.getLast hq.ne_nil := root_anc_last hr hq hrq
  refine ⟨q.drop i, hdrop, ?_⟩
  rw [hlast, List.getLast_eq_getElem]
  refine List.mem_iff_getElem.2 ⟨q.length - 1 - i, ?_, ?_⟩
  · rw [List.length_drop]
    omega
  · rw [List.getElem_drop]
    congr 1
    omega

theorem path_mem_anc {M : Morphology} {l : SwcNode} {pl : List SwcNode}
    (hpl : IsPath M l pl) {v : SwcNode} (hv2 : v ∈ pl) :
    Anc M (pl.getLast hpl.ne_nil) v :=
  anc_all_path hpl hpl.last_root (List.getLast_mem hpl.ne_nil) v hv2

theorem anc_mem_path {M : Morphology} {w : SwcNode} {q : List SwcNode}
    (hq : IsPath M w q) {v : SwcNode} (hvq : v ∈ q) {a : SwcNode}
    (hav : Anc M a v) : a ∈ q := by
  obtain ⟨i, hi, hget, hdrop⟩ := hq.mem_imp_path hvq
  obtain ⟨p, hp, hap⟩ := hav
  rw [hp.deterministic hdrop] at hap
  exact List.mem_of_mem_drop hap

theorem child_off_path {M : Morphology} (hv : valid M) {l : SwcNode} (hl : l ∈ M)
    {pl : List SwcNode} (hpl : IsPath M l pl) {v : SwcNode} (hvm : v ∈ M)
    (hvid : v.id ∉ pl.map (·.id)) {c : SwcNode} (hc : c ∈ M)
    (hcp : c.parent = v.id) : c.id ∉ pl.map (·.id) := by
  intro hcid
  obtain ⟨u, hu, huid⟩ := List.mem_map.1 hcid
  have hueq : u = c := nodes_eq_of_id_eq hv.1 (hpl.subset_of_mem hl u hu) hc huid
  rw [hueq] at hu
  obtain ⟨i, hi, hget, _⟩ := hpl.mem_imp_path hu
  by_cases hi1 : i + 1 < pl.length
  · have hcons := (hpl.consecutive i hi1).2
    rw [hget, hcp] at hcons
    have hvm2 := node_by_id_mem hcons
    exact hvid (List.mem_map.2 ⟨pl.get ⟨i+1, hi1⟩,
      List.get_mem pl _ _, hvm2.2⟩)
  · have hieq : i = pl.length - 1 := by omega
    subst hieq
    rw [List.get_eq_getElem] at hget
    have hlr := hpl.last_root
    rw [List.getLast_eq_getElem, hget, hcp] at hlr
    exact hv.2.1 v hvm hlr

theorem seg_path {M : Morphology} (hv : valid M) {l : SwcNode} (hl : l ∈ M)
    {pl : List SwcNode} (hpl : IsPath M l pl) :
    ∀ (k : Nat) (w : SwcNode), w ∈ M →
      (∃ qw, IsPath M w qw ∧ qw.length ≤ k ∧ pl.getLast hpl.ne_nil ∈ qw) →
      ∃ q2, IsPath (M.map (chainUpd (-1) (pl.map (·.id))))
          (chainUpd (-1) (pl.map (·.id)) w) q2 ∧
        ∀ u ∈ q2, ∃ t, t ∈ M ∧ u = chainUpd (-1) (pl.map (·.id)) t ∧
          Anc M (pl.getLast hpl.ne_nil) t := by
  have hnodup := path_ids_nodup hv hl hpl
  intro k
  induction k with
  | zero =>
    rintro w hw ⟨qw, hqw, hle, _⟩
    obtain ⟨q0, rfl⟩ := hqw.head_cons
    simp at hle
  | succ k ih =>
    rintro w hw ⟨qw, hqw, hle, hrq⟩
    by_cases hwid : w.id ∈ pl.map (·.id)
    · obtain ⟨u, hu, huid⟩ := List.mem_map.1 hwid
      have hueq : u = w := nodes_eq_of_id_eq hv.1 (hpl.subset_of_mem hl u hu) hw huid
      rw [hueq] at hu
      obtain ⟨⟨j, hj⟩, hget⟩ := List.mem_iff_get.1 hu
      refine ⟨((pl.take (j+1)).map (chainUpd (-1) (pl.map (·.id)))).reverse, ?_, ?_⟩
      · have hrp := rev_path hv hl hpl j hj
        rwa [hget] at hrp
      · intro u2 hu2
        rw [List.mem_reverse] at hu2
        obtain ⟨t, ht, rfl⟩ := List.mem_map.1 hu2
        have htpl : t ∈ pl := List.mem_of_mem_take ht
        exact ⟨t, hpl.subset_of_mem hl t htpl, rfl, path_mem_anc hpl htpl⟩
    · have hUw : chainUpd (-1) (pl.map (·.id)) w = w := chainUpd_of_not_mem hwid _
      have hwr : w ≠ pl.getLast hpl.ne_nil := by
        intro he
        exact hwid (he ▸ List.mem_map.2
          ⟨pl.getLast hpl.ne_nil, List.getLast_mem hpl.ne_nil, rfl⟩)
      cases hqw with
      | root _ har =>
        rw [List.mem_singleton] at hrq
        exact absurd hrq.symm hwr
      | step _ pw qp hnr hf hqp =>
        have hrqp : pl.getLast hpl.ne_nil ∈ qp := by
          rcases List.mem_cons.1 hrq with he | h
          · exact absurd he.symm hwr
          · exact h
        have hpwm : pw ∈ M := (node_by_id_mem hf).1
        have hlep : qp.length ≤ k := by
          simp only [List.length_cons] at hle
          omega
        obtain ⟨q2p, hq2p, hmem⟩ := ih pw hpwm ⟨qp, hqp, hlep, hrqp⟩
        rw [hUw]
        refine ⟨w :: q2p,
          IsPath.step w (chainUpd (-1) (pl.map (·.id)) pw) q2p hnr ?_ hq2p, ?_⟩
        · rw [node_by_id_map (chainUpd_id _ _), hf]
          rfl
        · intro u hu
          rcases List.mem_cons.1 hu with rfl | hu2
          · exact ⟨u, hw, hUw.symm, ⟨u :: qp, IsPath.step u pw qp hnr hf hqp, hrq⟩⟩
          · exact hmem u hu2

theorem offseg_path {M : Morphology} (hv : valid M) {l : SwcNode} (hl : l ∈ M)
    {pl : List SwcNode} (hpl : IsPath M l pl) {w : SwcNode} (hw : w ∈ M)
    {qw : List SwcNode} (hqw : IsPath M w qw)
    (hnor : pl.getLast hpl.ne_nil ∉ qw) :
    (∀ v ∈ qw, v.id ∉ pl.map (·.id)) ∧
    IsPath (M.map (chainUpd (-1) (pl.map (·.id)))) w qw := by
  have hdisj : ∀ v ∈ qw, v.id ∉ pl.map (·.id) := by
    intro v hvq hvid
    obtain ⟨u, hu, huid⟩ := List.mem_map.1 hvid
    have huv : u = v := nodes_eq_of_id_eq hv.1 (hpl.subset_of_mem hl u hu)
      (hqw.subset_of_mem hw v hvq) huid
    rw [huv] at hu
    exact hnor (anc_mem_path hqw hvq (path_mem_anc hpl hu))
  refine ⟨hdisj, path_transfer ?_ hqw ?_⟩
  · rw [map_chainUpd_ids]
    exact hv.1
  · intro v hvq
    have hUv : chainUpd (-1) (pl.map (·.id)) v = v :=
      chainUpd_of_not_mem (hdisj v hvq) _
    rw [← hUv]
    exact List.mem_map.2 ⟨v, hqw.subset_of_mem hw v hvq, rfl⟩

theorem re_root_valid {M : Morphology} (hv : valid M) {l : SwcNode} (hl : l ∈ M)
    {pl : List SwcNode} (hpl : IsPath M l pl) :
    valid (M.map (chainUpd (-1) (pl.map (·.id)))) := by
  refine ⟨?_, ?_, ?_⟩
  · rw [map_chainUpd_ids]
    exact hv.1
  · intro n hn
    obtain ⟨w, hwM, rfl⟩ := List.mem_map.1 hn
    rw [chainUpd_id]
    exact hv.2.1 w hwM
  · intro n hn
    obtain ⟨w, hwM, rfl⟩ := List.mem_map.1 hn
    obtain ⟨qw, hqw⟩ := valid_isPath hv hwM
    by_cases hrq : pl.getLast hpl.ne_nil ∈ qw
    · obtain ⟨q2, hq2, _⟩ := seg_path hv hl hpl qw.length w hwM ⟨qw, hqw, le_rfl, hrq⟩
      rw [hq2.get_path hn]
      rfl
    · obtain ⟨hdisj, hpath2⟩ := offseg_path hv hl hpl hwM hqw hrq
      have hUw : chainUpd (-1) (pl.map (·.id)) w = w := by
        refine chainUpd_of_not_mem (hdisj w ?_) _
        obtain ⟨q0, rfl⟩ := hqw.head_cons
        exact List.mem_cons_self _ _
      rw [hUw] at hn ⊢
      rw [hpath2.get_path hn]
      rfl

theorem chainUpd_root_cases {M : Morphology} (hv : valid M) {l : SwcNode} (hl : l ∈ M)
    {pl : List SwcNode} (hpl : IsPath M l pl) {w : SwcNode} (hw : w ∈ M)
    (hroot : (chainUpd (-1) (pl.map (·.id)) w).parent = -1) :
    (w.id ∉ pl.map (·.id) ∧ w.parent = -1) ∨ w = l := by
  have hnodup := path_ids_nodup hv hl hpl
  by_cases hwid : w.id ∈ pl.map (·.id)
  · right
    obtain ⟨u, hu, huid⟩ := List.mem_map.1 hwid
    have huw : u = w := nodes_eq_of_id_eq hv.1 (hpl.subset_of_mem hl u hu) hw huid
    rw [huw] at hu
    obtain ⟨⟨j, hj⟩, hget⟩ := List.mem_iff_get.1 hu
    rw [← hget] at hroot
    rw [chainUpd_at_get hnodup (-1) j hj] at hroot
    match j, hj with
    | 0, hj =>
      rw [← hget]
      obtain ⟨q0, rfl⟩ := hpl.head_cons
      rfl
    | j0+1, hj =>
      exfalso
      dsimp only at hroot
      rw [List.get_cons_succ] at hroot
      have hj0 : j0 < pl.length := by omega
      have hjm : j0 < (pl.map (·.id)).length := by simpa using hj0
      have hgm : (pl.map (·.id)).get ⟨j0, hjm⟩ = (pl.get ⟨j0, hj0⟩).id := by
        rw [List.get_eq_getElem, List.getElem_map]
        rw [List.get_eq_getElem]
      rw [hgm] at hroot
      exact hv.2.1 _ (hpl.subset_of_mem hl _ (List.get_mem pl j0 hj0)) hroot
  · left
    rw [chainUpd_of_not_mem hwid] at hroot
    exact ⟨hwid, hroot⟩

theorem chainUpd_path_parent {M : Morphology} (hv : valid M) {l : SwcNode}
    (hl : l ∈ M) {pl : List SwcNode} (hpl : IsPath M l pl)
    (j0 : Nat) (hj : j0 + 1 < pl.length) :
    (chainUpd (-1) (pl.map (·.id)) (pl.get ⟨j0+1, hj⟩)).parent =
      (pl.get ⟨j0, by omega⟩).id := by
  have hnodup := path_ids_nodup hv hl hpl
  rw [chainUpd_at_get hnodup (-1) (j0+1) hj]
  show (-1 :: pl.map (·.id)).get ⟨j0+1, by simp; omega⟩ = _
  rw [List.get_cons_succ]
  rw [List.get_eq_getElem, List.getElem_map]
  rw [List.get_eq_getElem]

theorem children_frame {M : Morphology} (hv : valid M) {l : SwcNode} (hl : l ∈ M)
    {pl : List SwcNode} (hpl : IsPath M l pl) {y : SwcNode} (hy : y ∈ M)
    (hyid : y.id ∉ pl.map (·.id)) :
    childrenOfId (M.map (chainUpd (-1) (pl.map (·.id)))) y.id = childrenOfId M y.id := by
  have hnodup := path_ids_nodup hv hl hpl
  unfold childrenOfId
  rw [List.filter_map]
  have hcong : ∀ c ∈ M,
      ((fun c => c.parent == y.id) ∘ chainUpd (-1) (pl.map (·.id))) c =
      (fun c => c.parent == y.id) c := by
    intro c hc
    simp only [Function.comp]
    by_cases hcid : c.id ∈ pl.map (·.id)
    · obtain ⟨u, hu, huid⟩ := List.mem_map.1 hcid
      have huc : u = c := nodes_eq_of_id_eq hv.1 (hpl.subset_of_mem hl u hu) hc huid
      rw [huc] at hu
      obtain ⟨⟨j, hj⟩, hget⟩ := List.mem_iff_get.1 hu
      have hleft : ((chainUpd (-1) (pl.map (·.id)) c).parent == y.id) = false := by
        rw [beq_eq_false_iff_ne]
        rw [← hget]
        match j, hj with
        | 0, hj =>
          rw [chainUpd_at_get hnodup (-1) 0 hj]
          show (-1 : Int) ≠ y.id
          intro he
          exact hv.2.1 y hy he.symm
        | j0+1, hj =>
          rw [chainUpd_path_parent hv hl hpl j0 hj]
          intro he
          exact hyid (List.mem_map.2 ⟨pl.get ⟨j0, by omega⟩,
            List.get_mem pl _ _, he⟩)
      have hright : (c.parent == y.id) = false := by
        rw [beq_eq_false_iff_ne]
        intro he
        exact child_off_path hv hl hpl hy hyid hc he hcid
      rw [hleft, hright]
    · rw [chainUpd_of_not_mem hcid]
  rw [List.filter_congr hcong]
  have hid2 : ∀ c ∈ M.filter (fun c => c.parent == y.id),
      chainUpd (-1) (pl.map (·.id)) c = c := by
    intro c hc
    have h1 := List.mem_filter.1 hc
    refine chainUpd_of_not_mem (child_off_path hv hl hpl hy hyid h1.1 ?_) _
    simpa using h1.2
  calc (M.filter (fun c => c.parent == y.id)).map (chainUpd (-1) (pl.map (·.id)))
      = (M.filter (fun c => c.parent == y.id)).map (fun c => c) :=
        List.map_congr_left hid2
    _ = M.filter (fun c => c.parent == y.id) := List.map_id' _

theorem re_root_leaf_cases {M : Morphology} (hv : valid M) {l : SwcNode} (hl : l ∈ M)
    {pl : List SwcNode} (hpl : IsPath M l pl) {w : SwcNode} (hw : w ∈ M)
    (hleaf2 : (get_children (M.map (chainUpd (-1) (pl.map (·.id))))
      (chainUpd (-1) (pl.map (·.id)) w)).isEmpty = true) :
    ((w.id ∉ pl.map (·.id)) ∧ (get_children M w).isEmpty = true) ∨
      w = pl.getLast hpl.ne_nil := by
  have hnodup := path_ids_nodup hv hl hpl
  by_cases hwid : w.id ∈ pl.map (·.id)
  · obtain ⟨u, hu, huid⟩ := List.mem_map.1 hwid
    have huw : u = w := nodes_eq_of_id_eq hv.1 (hpl.subset_of_mem hl u hu) hw huid
    rw [huw] at hu
    obtain ⟨⟨j, hj⟩, hget⟩ := List.mem_iff_get.1 hu
    by_cases hjl : j + 1 < pl.length
    · exfalso
      have hchild : chainUpd (-1) (pl.map (·.id)) (pl.get ⟨j+1, hjl⟩) ∈
          get_children (M.map (chainUpd (-1) (pl.map (·.id))))
            (chainUpd (-1) (pl.map (·.id)) w) := by
        unfold get_children
        refine mem_childrenOfId.2 ⟨?_, ?_⟩
        · exact List.mem_map.2 ⟨pl.get ⟨j+1, hjl⟩,
            hpl.subset_of_mem hl _ (List.get_mem pl _ _), rfl⟩
        · rw [chainUpd_path_parent hv hl hpl j hjl, chainUpd_id, hget]
      rw [List.isEmpty_iff] at hleaf2
      rw [hleaf2] at hchild
      simp at hchild
    · right
      have hjeq : j = pl.length - 1 := by omega
      subst hjeq
      rw [← hget, List.getLast_eq_getElem, List.get_eq_getElem]
  · left
    refine ⟨hwid, ?_⟩
    have hUw : chainUpd (-1) (pl.map (·.id)) w = w := chainUpd_of_not_mem hwid _
    rw [hUw] at hleaf2
    unfold get_children at hleaf2 ⊢
    rw [children_frame hv hl hpl hw hwid] at hleaf2
    exact hleaf2

theorem re_root_eq {M : Morphology} (hv : valid M) {l : SwcNode} (hl : l ∈ M)
    {pl : List SwcNode} (hpl : IsPath M l pl) :
    re_root_morphology l M = (.ok (M.map (chainUpd (-1) (pl.map (·.id)))),
      M.map (chainUpd (-1) (pl.map (·.id)))) := by
  unfold re_root_morphology
  rw [hpl.get_path hl]
  dsimp only
  have hE : ((pl.map (·.id)).zip (-1 :: pl.map (·.id))).foldl
      (fun mm kv => setParent mm kv.1 kv.2) M =
      M.map (chainUpd (-1) (pl.map (·.id))) := by
    rw [foldl_setParent_map]
    exact List.map_congr_left (fun n _ =>
      applyUpds_eq_chainUpd (path_ids_nodup hv hl hpl) (-1) n)
  rw [hE]

theorem stable_frame {M : Morphology} (hv : valid M) {l : SwcNode} (hl : l ∈ M)
    {pl : List SwcNode} (hpl : IsPath M l pl) {w : SwcNode} (hw : w ∈ M)
    (hwroot : w.parent = -1) (hwne : w ≠ pl.getLast hpl.ne_nil)
    {s0 : SwcNode} (hst : Stable s0 M w) :
    Stable s0 (M.map (chainUpd (-1) (pl.map (·.id)))) w := by
  intro y hy hancy hyleaf
  obtain ⟨v, hvM, rfl⟩ := List.mem_map.1 hy
  obtain ⟨qv, hqv⟩ := valid_isPath hv hvM
  by_cases hrq : pl.getLast hpl.ne_nil ∈ qv
  · exfalso
    obtain ⟨q2, hq2, hmem⟩ := seg_path hv hl hpl qv.length v hvM ⟨qv, hqv, le_rfl, hrq⟩
    obtain ⟨p2, hp2, hwp2⟩ := hancy
    rw [hp2.deterministic hq2] at hwp2
    obtain ⟨t, htM, hteq, htanc⟩ := hmem w hwp2
    have hid : w.id = t.id := by
      rw [hteq, chainUpd_id]
    have htw : t = w := nodes_eq_of_id_eq hv.1 htM hw hid.symm
    rw [htw] at htanc
    obtain ⟨pw, hpw, hrpw⟩ := htanc
    have hpwr : pw = [w] := hpw.deterministic (IsPath.root w hwroot)
    rw [hpwr, List.mem_singleton] at hrpw
    exact hwne hrpw.symm
  · obtain ⟨hdisj, hpath2⟩ := offseg_path hv hl hpl hvM hqv hrq
    have hvhead : v ∈ qv := by
      obtain ⟨q0, rfl⟩ := hqv.head_cons
      exact List.mem_cons_self _ _
    have hUv : chainUpd (-1) (pl.map (·.id)) v = v :=
      chainUpd_of_not_mem (hdisj v hvhead) _
    rw [hUv] at hancy hyleaf ⊢
    obtain ⟨p2, hp2, hwp2⟩ := hancy
    rw [hp2.deterministic hpath2] at hwp2
    have hancM : Anc M w v := ⟨qv, hqv, hwp2⟩
    have hleafM : (get_children M v).isEmpty = true := by
      unfold get_children at hyleaf ⊢
      rwa [children_frame hv hl hpl hvM (hdisj v hvhead)] at hyleaf
    exact hst v hvM hancM hleafM

theorem new_root_stable {M : Morphology} (hv : valid M) {l : SwcNode} (hl : l ∈ M)
    {pl : List SwcNode} (hpl : IsPath M l pl) {s0 : SwcNode}
    (hmin : ∀ y ∈ M, Anc M (pl.getLast hpl.ne_nil) y →
      (get_children M y).isEmpty = true → sqDist l s0 ≤ sqDist y s0)
    (hlr : sqDist l s0 < sqDist (pl.getLast hpl.ne_nil) s0) :
    Stable s0 (M.map (chainUpd (-1) (pl.map (·.id))))
      (chainUpd (-1) (pl.map (·.id)) l) := by
  intro y hy hancy hyleaf
  obtain ⟨v, hvM, rfl⟩ := List.mem_map.1 hy
  rw [sqDist_chainUpd, sqDist_chainUpd]
  rcases re_root_leaf_cases hv hl hpl hvM hyleaf with ⟨hvid, hvleafM⟩ | hvr
  · have hancMrv : Anc M (pl.getLast hpl.ne_nil) v := by
      obtain ⟨qv, hqv⟩ := valid_isPath hv hvM
      by_cases hrq : pl.getLast hpl.ne_nil ∈ qv
      · exact ⟨qv, hqv, hrq⟩
      · exfalso
        obtain ⟨hdisj, hpath2⟩ := offseg_path hv hl hpl hvM hqv hrq
        have hvhead : v ∈ qv := by
          obtain ⟨q0, rfl⟩ := hqv.head_cons
          exact List.mem_cons_self _ _
        have hUv : chainUpd (-1) (pl.map (·.id)) v = v :=
          chainUpd_of_not_mem (hdisj v hvhead) _
        rw [hUv] at hancy
        obtain ⟨p2, hp2, hlp2⟩ := hancy
        rw [hp2.deterministic hpath2] at hlp2
        have hlid : (chainUpd (-1) (pl.map (·.id)) l).id = l.id := chainUpd_id _ _ _
        have hlin : l.id ∈ pl.map (·.id) := by
          refine List.mem_map.2 ⟨l, ?_, rfl⟩
          obtain ⟨q0, rfl⟩ := hpl.head_cons
          exact List.mem_cons_self _ _
        have := hdisj _ hlp2
        rw [hlid] at this
        exact this hlin
    exact not_lt.2 (hmin v hvM hancMrv hvleafM)
  · rw [hvr]
    exact lt_asymm hlr

theorem checkRootStep_stable {s0 : SwcNode} {M : Morphology} (hv : valid M)
    {rid : Int} {r : SwcNode} (hr : node_by_id M rid = some r)
    (hstable : Stable s0 M r) (ch : Bool) :
    checkRootStep s0 M ch rid = .ok (M, ch) := by
  unfold checkRootStep
  rw [hr]
  dsimp only
  have hrm := (node_by_id_mem hr).1
  have hno : ∀ y ∈ ((bfs_tree r M).1).filter (fun n => (get_children M n).isEmpty),
      ¬ (sqDist y s0 < (ch, sqDist r s0, r).2.1) := by
    intro y hy
    have h1 := List.mem_filter.1 hy
    have h2 := (bfs_tree_mem hv hrm y).1 h1.1
    exact hstable y h2.1 h2.2 h1.2
  rw [closest_fold_noimprove s0 _ _ hno]
  rw [if_pos (show (((ch, sqDist r s0, r) : Bool × Int × SwcNode).2.2 == r) = true
    from by simp)]

theorem checkRootStep_unstable {s0 : SwcNode} {M : Morphology} (hv : valid M)
    {rid : Int} {r : SwcNode} (hr : node_by_id M rid = some r) (hrroot : r.parent = -1)
    (hexists : ∃ y, y ∈ M ∧ Anc M r y ∧ (get_children M y).isEmpty = true ∧
      sqDist y s0 < sqDist r s0) (ch : Bool) :
    ∃ l pl, l ∈ M ∧ IsPath M l pl ∧ pl.getLast? = some r ∧ l ≠ r ∧
      (get_children M l).isEmpty = true ∧ Anc M r l ∧
      sqDist l s0 < sqDist r s0 ∧
      (∀ y ∈ M, Anc M r y → (get_children M y).isEmpty = true →
        sqDist l s0 ≤ sqDist y s0) ∧
      checkRootStep s0 M ch rid =
        .ok (M.map (chainUpd (-1) (pl.map (·.id))), true) := by
  unfold checkRootStep
  rw [hr]
  dsimp only
  have hrm := (node_by_id_mem hr).1
  obtain ⟨y0, hy0M, hy0anc, hy0leaf, hy0lt⟩ := hexists
  have hy0in : y0 ∈ ((bfs_tree r M).1).filter (fun n => (get_children M n).isEmpty) :=
    List.mem_filter.2 ⟨(bfs_tree_mem hv hrm y0).2 ⟨hy0M, hy0anc⟩, hy0leaf⟩
  have himp := closest_fold_improve s0
    (((bfs_tree r M).1).filter (fun n => (get_children M n).isEmpty))
    (ch, sqDist r s0, r) ⟨y0, hy0in, hy0lt⟩
  have hinv := closest_fold_inv s0
    (((bfs_tree r M).1).filter (fun n => (get_children M n).isEmpty))
    (ch, sqDist r s0, r) rfl
  set res := (((bfs_tree r M).1).filter (fun n => (get_children M n).isEmpty)).foldl
    (closestStep s0) (ch, sqDist r s0, r) with hres
  have hne : res ≠ (ch, sqDist r s0, r) := by
    intro he
    rw [he] at himp
    exact lt_irrefl _ himp.2
  have hmemflag : res.2.2 ∈ ((bfs_tree r M).1).filter
      (fun n => (get_children M n).isEmpty) ∧ res.1 = true := by
    rcases hinv.2.1 with he | h
    · exact absurd he hne
    · exact h
  have hlM : res.2.2 ∈ M ∧ Anc M r res.2.2 := by
    have h1 := List.mem_filter.1 hmemflag.1
    exact (bfs_tree_mem hv hrm _).1 h1.1
  have hlleaf : (get_children M res.2.2).isEmpty = true :=
    (List.mem_filter.1 hmemflag.1).2
  have hldist : sqDist res.2.2 s0 < sqDist r s0 := by
    have := hinv.1
    rw [← this]
    exact himp.2
  have hlne : res.2.2 ≠ r := by
    intro he
    rw [he] at hldist
    exact lt_irrefl _ hldist
  have hmin : ∀ y ∈ M, Anc M r y → (get_children M y).isEmpty = true →
      sqDist res.2.2 s0 ≤ sqDist y s0 := by
    intro y hyM hyanc hyleaf
    have hyin : y ∈ ((bfs_tree r M).1).filter (fun n => (get_children M n).isEmpty) :=
      List.mem_filter.2 ⟨(bfs_tree_mem hv hrm y).2 ⟨hyM, hyanc⟩, hyleaf⟩
    have := hinv.2.2.2.1 y hyin
    rw [← hinv.1]
    exact this
  obtain ⟨pl, hpl⟩ := valid_isPath hv hlM.1
  have hrpl : r ∈ pl := by
    obtain ⟨p, hp, hrp⟩ := hlM.2
    rwa [hp.deterministic hpl] at hrp
  have hlast : r = pl.getLast hpl.ne_nil := root_anc_last hrroot hpl hrpl
  refine ⟨res.2.2, pl, hlM.1, hpl, ?_, hlne, hlleaf, hlM.2, hldist, hmin, ?_⟩
  · rw [List.getLast?_eq_getLast pl hpl.ne_nil, ← hlast]
  · rw [if_neg (show ¬ ((res.2.2 == r) = true) from by
      rw [beq_eq_false_iff_ne.2 hlne]; exact fun h => Bool.false_ne_true h)]
    rw [re_root_eq hv hlM.1 hpl]
    dsimp only
    rw [hmemflag.2]

theorem parentsOnly_refl (m : Morphology) : ParentsOnly m m := by
  refine ⟨rfl, ?_⟩
  intro j hj hj2
  rfl

theorem parentsOnly_map_chainUpd {m cur : Morphology} (h : ParentsOnly m cur)
    (pr : Int) (ks : List Int) : ParentsOnly m (cur.map (chainUpd pr ks)) := by
  refine ⟨by rw [List.length_map]; exact h.1, ?_⟩
  intro j hj hj2
  have hjc : j < cur.length := by rwa [List.length_map] at hj
  have hmap : (cur.map (chainUpd pr ks)).get ⟨j, hj⟩ =
      chainUpd pr ks (cur.get ⟨j, hjc⟩) := by
    rw [List.get_eq_getElem, List.getElem_map, List.get_eq_getElem]
  obtain ⟨v, hvv⟩ := chainUpd_parentOnly pr ks (cur.get ⟨j, hjc⟩)
  have hrec := h.2 j hjc hj2
  rw [hmap, hvv, hrec]

theorem parentsOnly_cons {a b : SwcNode} {m cur : Morphology}
    (h : ParentsOnly (a :: m) (b :: cur)) :
    b = { a with parent := b.parent } ∧ ParentsOnly m cur := by
  constructor
  · have := h.2 0 (by simp) (by simp)
    exact this
  · refine ⟨by have := h.1; simpa using this, ?_⟩
    intro j hj hj2
    have := h.2 (j+1) (by simp; omega) (by simp; omega)
    exact this

theorem get_soma_parentsOnly :
    ∀ {m cur : Morphology}, ParentsOnly m cur →
      ∀ {s : SwcNode}, get_soma m = some s →
        ∃ v, get_soma cur = some { s with parent := v } := by
  intro m
  induction m with
  | nil =>
    intro cur _ s hs
    simp [get_soma] at hs
  | cons a t ih =>
    intro cur hpo s hs
    match cur with
    | [] =>
      have := hpo.1
      simp at this
    | b :: cur2 =>
      obtain ⟨hb, hpo2⟩ := parentsOnly_cons hpo
      unfold get_soma at hs ⊢
      by_cases ha : ((fun c : SwcNode => c.type == 1) a) = true
      · rw [List.find?_cons_of_pos t ha] at hs
        have has : a = s := Option.some.inj hs
        subst has
        have hbpos : ((fun c : SwcNode => c.type == 1) b) = true := by
          rw [hb]
          exact ha
        rw [List.find?_cons_of_pos cur2 hbpos]
        exact ⟨b.parent, by rw [hb]⟩
      · rw [List.find?_cons_of_neg t ha] at hs
        have hbneg : ¬ ((fun c : SwcNode => c.type == 1) b) = true := by
          rw [hb]
          exact ha
        rw [List.find?_cons_of_neg cur2 hbneg]
        exact ih hpo2 hs

theorem checkLoop_run {m : Morphology} {s0 : SwcNode} :
    ∀ (rest : List Int) (cur : Morphology) (ch : Bool),
      valid cur → ParentsOnly m cur → rest.Nodup →
      (∀ rid ∈ rest, ∃ r, node_by_id cur rid = some r ∧ r.parent = -1) →
      (∀ z ∈ get_roots cur, z.id ∉ rest → z.id = s0.id ∨ Stable s0 cur z) →
      ∃ m2 ch2, checkLoop s0 cur ch rest = .ok (m2, ch2) ∧
        valid m2 ∧ ParentsOnly m m2 ∧
        (∀ z ∈ get_roots m2, z.id = s0.id ∨ Stable s0 m2 z) ∧
        (ch = true → ch2 = true) ∧
        ((∃ rid ∈ rest, ∃ r, node_by_id cur rid = some r ∧
          ∃ y ∈ cur, Anc cur r y ∧ (get_children cur y).isEmpty = true ∧
            sqDist y s0 < sqDist r s0) → ch2 = true) := by
  intro rest
  induction rest with
  | nil =>
    intro cur ch hvcur hpo _ _ hstab
    refine ⟨cur, ch, rfl, hvcur, hpo, ?_, fun h => h, ?_⟩
    · intro z hz
      exact hstab z hz (List.not_mem_nil _)
    · rintro ⟨rid, hrid, _⟩
      simp at hrid
  | cons rid rest' ih =>
    intro cur ch hvcur hpo hnodup hroots hstab
    obtain ⟨r, hr, hrroot⟩ := hroots rid (List.mem_cons_self _ _)
    have hrcur : r ∈ cur := (node_by_id_mem hr).1
    have hrid : r.id = rid := (node_by_id_mem hr).2
    have hndtail : rest'.Nodup := (List.nodup_cons.1 hnodup).2
    have hndhead : rid ∉ rest' := (List.nodup_cons.1 hnodup).1
    by_cases huns : ∃ y, y ∈ cur ∧ Anc cur r y ∧ (get_children cur y).isEmpty = true ∧
        sqDist y s0 < sqDist r s0
    · obtain ⟨l, pl, hlcur, hpl, hlast?, hlne, hlleaf, hlanc, hldist, hmin, hstep⟩ :=
        checkRootStep_unstable hvcur hr hrroot huns ch
      have hlastr : pl.getLast hpl.ne_nil = r :=
        Option.some.inj ((List.getLast?_eq_getLast pl hpl.ne_nil).symm.trans hlast?)
      have hv2 : valid (cur.map (chainUpd (-1) (pl.map (·.id)))) :=
        re_root_valid hvcur hlcur hpl
      have hpo2 : ParentsOnly m (cur.map (chainUpd (-1) (pl.map (·.id)))) :=
        parentsOnly_map_chainUpd hpo _ _
      have hroots2 : ∀ rid2 ∈ rest', ∃ r2,
          node_by_id (cur.map (chainUpd (-1) (pl.map (·.id)))) rid2 = some r2 ∧
            r2.parent = -1 := by
        intro rid2 hrid2
        obtain ⟨r2, hr2, hr2root⟩ := hroots rid2 (List.mem_cons_of_mem _ hrid2)
        have hr2cur : r2 ∈ cur := (node_by_id_mem hr2).1
        have hr2id : r2.id = rid2 := (node_by_id_mem hr2).2
        have hr2off : r2.id ∉ pl.map (·.id) := by
          intro hin
          obtain ⟨u, hu, huid⟩ := List.mem_map.1 hin
          have huu : u = r2 :=
            nodes_eq_of_id_eq hvcur.1 (hpl.subset_of_mem hlcur u hu) hr2cur huid
          rw [huu] at hu
          have h2last : r2 = pl.getLast hpl.ne_nil := root_anc_last hr2root hpl hu
          have : rid2 = rid := by rw [← hr2id, h2last, hlastr, hrid]
          exact hndhead (this ▸ hrid2)
        have hU2 : chainUpd (-1) (pl.map (·.id)) r2 = r2 := chainUpd_of_not_mem hr2off _
        refine ⟨r2, ?_, hr2root⟩
        rw [← hr2id]
        exact node_by_id_self hv2.1 (List.mem_map.2 ⟨r2, hr2cur, hU2⟩)
      have hstab2 : ∀ z ∈ get_roots (cur.map (chainUpd (-1) (pl.map (·.id)))),
          z.id ∉ rest' → z.id = s0.id ∨
            Stable s0 (cur.map (chainUpd (-1) (pl.map (·.id)))) z := by
        intro z hz hzr
        obtain ⟨hzcur2, hzroot⟩ := mem_get_roots.1 hz
        obtain ⟨w, hwcur, hwz⟩ := List.mem_map.1 hzcur2
        rcases chainUpd_root_cases hvcur hlcur hpl hwcur
            (by rw [hwz]; exact hzroot) with ⟨hwoff, hwroot⟩ | hwl
        · have hUw : chainUpd (-1) (pl.map (·.id)) w = w := chainUpd_of_not_mem hwoff _
          have hzw : z = w := by rw [← hwz, hUw]
          subst hzw
          have hwrid : z.id ≠ rid := by
            intro he
            have hwr : z = r := nodes_eq_of_id_eq hvcur.1 hwcur hrcur (by rw [he, hrid])
            apply hwoff
            refine List.mem_map.2 ⟨pl.getLast hpl.ne_nil, List.getLast_mem _, ?_⟩
            rw [hlastr, ← hwr]
          have hwnotin : z.id ∉ rid :: rest' := by
            intro hin
            rcases List.mem_cons.1 hin with he | ht
            · exact hwrid he
            · exact hzr ht
          rcases hstab z (mem_get_roots.2 ⟨hwcur, hwroot⟩) hwnotin with hsid | hstabw
          · exact Or.inl hsid
          · refine Or.inr ?_
            have hwne : z ≠ pl.getLast hpl.ne_nil := by
              intro he
              exact hwoff (List.mem_map.2 ⟨pl.getLast hpl.ne_nil,
                List.getLast_mem _, by rw [← he]⟩)
            exact stable_frame hvcur hlcur hpl hwcur hwroot hwne hstabw
        · refine Or.inr ?_
          have hzl : z = chainUpd (-1) (pl.map (·.id)) l := by rw [← hwz, hwl]
          rw [hzl]
          have hmin2 : ∀ y ∈ cur, Anc cur (pl.getLast hpl.ne_nil) y →
              (get_children cur y).isEmpty = true → sqDist l s0 ≤ sqDist y s0 := by
            rw [hlastr]
            exact hmin
          have hlr2 : sqDist l s0 < sqDist (pl.getLast hpl.ne_nil) s0 := by
            rw [hlastr]
            exact hldist
          exact new_root_stable hvcur hlcur hpl hmin2 hlr2
      obtain ⟨m2, ch2, hrun, hv3, hpo3, hstab3, hflag, _⟩ :=
        ih (cur.map (chainUpd (-1) (pl.map (·.id)))) true hv2 hpo2 hndtail hroots2 hstab2
      refine ⟨m2, ch2, ?_, hv3, hpo3, hstab3, fun _ => hflag rfl, fun _ => hflag rfl⟩
      simp only [checkLoop]
      rw [hstep]
      exact hrun
    · push_neg at huns
      have hstabr : Stable s0 cur r := fun y hy ha hleaf => not_lt.2 (huns y hy ha hleaf)
      have hstep := checkRootStep_stable hvcur hr hstabr ch
      have hroots2 : ∀ rid2 ∈ rest', ∃ r2, node_by_id cur rid2 = some r2 ∧
          r2.parent = -1 := fun rid2 h2 => hroots rid2 (List.mem_cons_of_mem _ h2)
      have hstab2 : ∀ z ∈ get_roots cur, z.id ∉ rest' →
          z.id = s0.id ∨ Stable s0 cur z := by
        intro z hz hzr
        by_cases hzid : z.id = rid
        · have hzr2 : z = r := nodes_eq_of_id_eq hvcur.1 (mem_get_roots.1 hz).1 hrcur
            (by rw [hzid, hrid])
          exact Or.inr (hzr2 ▸ hstabr)
        · refine hstab z hz ?_
          intro hin
          rcases List.mem_cons.1 hin with he | ht
          · exact hzid he
          · exact hzr ht
      obtain ⟨m2, ch2, hrun, hv3, hpo3, hstab3, hflag, hflag2⟩ :=
        ih cur ch hvcur hpo hndtail hroots2 hstab2
      refine ⟨m2, ch2, ?_, hv3, hpo3, hstab3, hflag, ?_⟩
      · simp only [checkLoop]
        rw [hstep]
        exact hrun
      · rintro ⟨rid2, hrid2, r2, hr2, y, hy, hya, hyl, hyd⟩
        rcases List.mem_cons.1 hrid2 with he | ht
        · rw [he] at hr2
          have hr2r : r2 = r := Option.some.inj (hr2.symm.trans hr)
          rw [hr2r] at hya hyd
          exact absurd hyd (not_lt.2 (huns y hy hya hyl))
        · exact hflag2 ⟨rid2, ht, r2, hr2, y, hy, hya, hyl, hyd⟩

theorem segsame_anc {m cur : Morphology} (hvm : valid m)
    (hcids : (cur.map (·.id)).Nodup) {r : SwcNode} (hrroot : r.parent = -1)
    (hsub : ∀ y ∈ m, Anc m r y → y ∈ cur) {y : SwcNode} (hym : y ∈ m)
    (ha : Anc m r y) : Anc cur r y := by
  obtain ⟨q, hq, hrq⟩ := ha
  have hall := anc_all_path hq hrroot hrq
  refine ⟨q, path_transfer hcids hq ?_, hrq⟩
  intro v hvq
  exact hsub v (hq.subset_of_mem hym v hvq) (hall v hvq)

theorem seg_desc_sub {m cur : Morphology} (hvm : valid m) (hvc : valid cur)
    {r : SwcNode} (hrm : r ∈ m) (hrroot : r.parent = -1)
    (hseg : ∀ y ∈ m, Anc m r y → y ∈ cur ∧ get_children cur y = get_children m y)
    {y : SwcNode} (hyc : y ∈ cur) (ha : Anc cur r y) : y ∈ m ∧ Anc m r y := by
  obtain ⟨q, hq, hrq⟩ := ha
  obtain ⟨q0, rfl⟩ := hq.head_cons
  obtain ⟨g, hg, hget, _⟩ := hq.mem_imp_path hrq
  have hstep : ∀ k, k ≤ g → ((y :: q0).get ⟨g - k, by omega⟩) ∈ m ∧
      Anc m r ((y :: q0).get ⟨g - k, by omega⟩) := by
    intro k
    induction k with
    | zero =>
      intro _
      have h00 : (y :: q0).get ⟨g - 0, by omega⟩ = r := by
        have : g - 0 = g := by omega
        simp only [this]
        exact hget
      rw [h00]
      exact ⟨hrm, ⟨[r], IsPath.root r hrroot, List.mem_singleton.2 rfl⟩⟩
    | succ k0 ih =>
      intro hk
      obtain ⟨hvm2, hanc2⟩ := ih (by omega)
      have hlt : g - (k0+1) + 1 < (y :: q0).length := by omega
      have hcons := hq.consecutive (g - (k0+1)) hlt
      have hvv : (y :: q0).get ⟨g - (k0+1) + 1, hlt⟩ =
          (y :: q0).get ⟨g - k0, by omega⟩ := by
        congr 1
        exact Fin.mk_eq_mk.2 (by omega)
      rw [hvv] at hcons
      have hum : (y :: q0).get ⟨g - (k0+1), by omega⟩ ∈ cur :=
        hq.subset_of_mem hyc _ (List.get_mem _ _ _)
      have hvid := (node_by_id_mem hcons.2).2
      have hchild : (y :: q0).get ⟨g - (k0+1), by omega⟩ ∈
          get_children m ((y :: q0).get ⟨g - k0, by omega⟩) := by
        rw [← (hseg _ hvm2 hanc2).2]
        exact mem_childrenOfId.2 ⟨hum, hvid.symm⟩
      have humem := mem_childrenOfId.1 hchild
      obtain ⟨p2, hp2, hrp2⟩ := hanc2
      refine ⟨humem.1, ⟨_ :: p2, IsPath.step _ _ p2 ?_ ?_ hp2,
        List.mem_cons_of_mem _ hrp2⟩⟩
      · rw [humem.2]
        intro he
        exact hvm.2.1 _ hvm2 he
      · rw [humem.2]
        exact node_by_id_self hvm.1 hvm2
  have hfin := hstep g le_rfl
  have hgg : g - g = 0 := by omega
  simp only [hgg, List.get_cons_zero] at hfin
  exact hfin

theorem roots_persist_step {cur : Morphology} (hvc : valid cur) {l : SwcNode}
    (hl : l ∈ cur) {pl : List SwcNode} (hpl : IsPath cur l pl) {rid2 : Int}
    {r2 : SwcNode} (hr2 : node_by_id cur rid2 = some r2) (hr2root : r2.parent = -1)
    (hne : rid2 ≠ (pl.getLast hpl.ne_nil).id) :
    node_by_id (cur.map (chainUpd (-1) (pl.map (·.id)))) rid2 = some r2 := by
  have hr2cur : r2 ∈ cur := (node_by_id_mem hr2).1
  have hr2id : r2.id = rid2 := (node_by_id_mem hr2).2
  have hr2off : r2.id ∉ pl.map (·.id) := by
    intro hin
    obtain ⟨u, hu, huid⟩ := List.mem_map.1 hin
    have huu : u = r2 := nodes_eq_of_id_eq hvc.1 (hpl.subset_of_mem hl u hu) hr2cur huid
    rw [huu] at hu
    have h2last : r2 = pl.getLast hpl.ne_nil := root_anc_last hr2root hpl hu
    exact hne (by rw [← hr2id, h2last])
  have hU2 : chainUpd (-1) (pl.map (·.id)) r2 = r2 := chainUpd_of_not_mem hr2off _
  have hnodup2 : ((cur.map (chainUpd (-1) (pl.map (·.id)))).map (·.id)).Nodup := by
    rw [map_chainUpd_ids]
    exact hvc.1
  rw [← hr2id]
  exact node_by_id_self hnodup2 (List.mem_map.2 ⟨r2, hr2cur, hU2⟩)

theorem segsame_frame {m cur : Morphology} (hvm : valid m) (hvc : valid cur)
    {l : SwcNode} (hl : l ∈ cur) {pl : List SwcNode} (hpl : IsPath cur l pl)
    {rid2 : Int} (hss : SegSame m cur rid2)
    (hne : rid2 ≠ (pl.getLast hpl.ne_nil).id) :
    SegSame m (cur.map (chainUpd (-1) (pl.map (·.id)))) rid2 := by
  obtain ⟨r2, hr2m, hr2root, hr2cur, hseg⟩ := hss
  have hoff : ∀ y ∈ m, Anc m r2 y → y.id ∉ pl.map (·.id) := by
    intro y hym hay hin
    obtain ⟨u, hu, huid⟩ := List.mem_map.1 hin
    have hyc : y ∈ cur := (hseg y hym hay).1
    have huu : u = y := nodes_eq_of_id_eq hvc.1 (hpl.subset_of_mem hl u hu) hyc huid
    rw [huu] at hu
    have hanc1 : Anc cur (pl.getLast hpl.ne_nil) y := path_mem_anc hpl hu
    have hanc2 : Anc cur r2 y := segsame_anc hvm hvc.1 hr2root
      (fun z hz haz => (hseg z hz haz).1) hym hay
    have hrr := two_roots_common_desc hpl.last_root hr2root hanc1 hanc2 rfl
    refine hne ?_
    rw [hrr]
    exact ((node_by_id_mem hr2m).2).symm
  refine ⟨r2, hr2m, hr2root, ?_, ?_⟩
  · exact roots_persist_step hvc hl hpl hr2cur hr2root hne
  · intro y hym hay
    have hyoff := hoff y hym hay
    have hyc : y ∈ cur := (hseg y hym hay).1
    have hUy : chainUpd (-1) (pl.map (·.id)) y = y := chainUpd_of_not_mem hyoff _
    refine ⟨List.mem_map.2 ⟨y, hyc, hUy⟩, ?_⟩
    unfold get_children
    rw [children_frame hvc hl hpl hyc hyoff]
    have hcc := (hseg y hym hay).2
    unfold get_children at hcc
    exact hcc

theorem chainUpd_head {cur : Morphology} (hvc : valid cur) {l : SwcNode}
    (hl : l ∈ cur) {pl : List SwcNode} (hpl : IsPath cur l pl) :
    chainUpd (-1) (pl.map (·.id)) l = { l with parent := -1 } := by
  have hnodup := path_ids_nodup hvc hl hpl
  obtain ⟨q0, rfl⟩ := hpl.head_cons
  have hlt0 : 0 < (l :: q0).length := by simp
  exact chainUpd_at_get hnodup (-1) 0 hlt0

theorem checkLoop_persist {s0 : SwcNode} :
    ∀ (rest : List Int) (cur : Morphology) (ch : Bool),
      valid cur → rest.Nodup →
      (∀ rid ∈ rest, ∃ r, node_by_id cur rid = some r ∧ r.parent = -1) →
      ∀ w ∈ get_roots cur, w.id ∉ rest →
      ∃ m2 ch2, checkLoop s0 cur ch rest = .ok (m2, ch2) ∧ w ∈ get_roots m2 := by
  intro rest
  induction rest with
  | nil =>
    intro cur ch _ _ _ w hw _
    exact ⟨cur, ch, rfl, hw⟩
  | cons rid rest' ih =>
    intro cur ch hvcur hnodup hroots w hw hwnot
    obtain ⟨r, hr, hrroot⟩ := hroots rid (List.mem_cons_self _ _)
    have hrid : r.id = rid := (node_by_id_mem hr).2
    have hndtail := (List.nodup_cons.1 hnodup).2
    have hndhead := (List.nodup_cons.1 hnodup).1
    have hwrid : w.id ≠ rid := fun he => hwnot (List.mem_cons.2 (Or.inl he))
    have hwtail : w.id ∉ rest' := fun ht => hwnot (List.mem_cons.2 (Or.inr ht))
    by_cases huns : ∃ y, y ∈ cur ∧ Anc cur r y ∧ (get_children cur y).isEmpty = true ∧
        sqDist y s0 < sqDist r s0
    · obtain ⟨l, pl, hlcur, hpl, hlast?, hlne, hlleaf, hlanc, hldist, hmin, hstep⟩ :=
        checkRootStep_unstable hvcur hr hrroot huns ch
      have hlastr : pl.getLast hpl.ne_nil = r :=
        Option.some.inj ((List.getLast?_eq_getLast pl hpl.ne_nil).symm.trans hlast?)
      have hv2 := re_root_valid hvcur hlcur hpl
      have hroots2 : ∀ rid2 ∈ rest', ∃ r2,
          node_by_id (cur.map (chainUpd (-1) (pl.map (·.id)))) rid2 = some r2 ∧
            r2.parent = -1 := by
        intro rid2 h2
        obtain ⟨r2, hr2, hr2root⟩ := hroots rid2 (List.mem_cons_of_mem _ h2)
        refine ⟨r2, roots_persist_step hvcur hlcur hpl hr2 hr2root ?_, hr2root⟩
        rw [hlastr, hrid]
        intro he
        exact hndhead (he ▸ h2)
      obtain ⟨hwcur, hwroot⟩ := mem_get_roots.1 hw
      have hwoff : w.id ∉ pl.map (·.id) := by
        intro hin
        obtain ⟨u, hu, huid⟩ := List.mem_map.1 hin
        have huu : u = w :=
          nodes_eq_of_id_eq hvcur.1 (hpl.subset_of_mem hlcur u hu) hwcur huid
        rw [huu] at hu
        have hwl : w = pl.getLast hpl.ne_nil := root_anc_last hwroot hpl hu
        refine hwrid ?_
        rw [hwl, hlastr, hrid]
      have hUw : chainUpd (-1) (pl.map (·.id)) w = w := chainUpd_of_not_mem hwoff _
      have hw2 : w ∈ get_roots (cur.map (chainUpd (-1) (pl.map (·.id)))) :=
        mem_get_roots.2 ⟨List.mem_map.2 ⟨w, hwcur, hUw⟩, hwroot⟩
      obtain ⟨m2, ch2, hrun, hwin⟩ :=
        ih (cur.map (chainUpd (-1) (pl.map (·.id)))) true hv2 hndtail hroots2 w hw2 hwtail
      refine ⟨m2, ch2, ?_, hwin⟩
      simp only [checkLoop]
      rw [hstep]
      exact hrun
    · push_neg at huns
      have hstabr : Stable s0 cur r := fun y hy ha hleaf => not_lt.2 (huns y hy ha hleaf)
      have hstep := checkRootStep_stable hvcur hr hstabr ch
      obtain ⟨m2, ch2, hrun, hwin⟩ := ih cur ch hvcur hndtail
        (fun rid2 h2 => hroots rid2 (List.mem_cons_of_mem _ h2)) w hw hwtail
      refine ⟨m2, ch2, ?_, hwin⟩
      simp only [checkLoop]
      rw [hstep]
      exact hrun

theorem checkLoop_track {m : Morphology} {s0 : SwcNode} (hvm : valid m) :
    ∀ (rest : List Int) (cur : Morphology) (ch : Bool),
      valid cur → rest.Nodup →
      (∀ rid ∈ rest, ∃ r, node_by_id cur rid = some r ∧ r.parent = -1) →
      ∀ rid0 ∈ rest, SegSame m cur rid0 →
      ∀ (r : SwcNode), node_by_id m rid0 = some r →
      (∃ y ∈ m, Anc m r y ∧ (get_children m y).isEmpty = true ∧
        sqDist y s0 < sqDist r s0) →
      ∃ m2 ch2 l, checkLoop s0 cur ch rest = .ok (m2, ch2) ∧
        l ∈ m ∧ Anc m r l ∧ (get_children m l).isEmpty = true ∧
        sqDist l s0 < sqDist r s0 ∧
        (∀ y ∈ m, Anc m r y → (get_children m y).isEmpty = true →
          sqDist l s0 ≤ sqDist y s0) ∧
        { l with parent := -1 } ∈ get_roots m2 := by
  intro rest
  induction rest with
  | nil =>
    intro cur ch _ _ _ rid0 h0
    exact absurd h0 (List.not_mem_nil _)
  | cons rid rest' ih =>
    intro cur ch hvcur hnodup hroots rid0 hrid0 hss r hrm hex
    obtain ⟨rh, hrh, hrhroot⟩ := hroots rid (List.mem_cons_self _ _)
    have hrhid : rh.id = rid := (node_by_id_mem hrh).2
    have hndtail := (List.nodup_cons.1 hnodup).2
    have hndhead := (List.nodup_cons.1 hnodup).1
    rcases List.mem_cons.1 hrid0 with heq | htail
    · subst heq
      obtain ⟨r2, hr2m, hr2root, hr2cur, hseg⟩ := hss
      have hr2r : r2 = r := Option.some.inj (hr2m.symm.trans hrm)
      subst hr2r
      obtain ⟨y, hym, hyanc, hyleaf, hydist⟩ := hex
      have hycur := (hseg y hym hyanc).1
      have hyanccur : Anc cur r2 y := segsame_anc hvm hvcur.1 hr2root
        (fun z hz haz => (hseg z hz haz).1) hym hyanc
      have hyleafcur : (get_children cur y).isEmpty = true := by
        rw [(hseg y hym hyanc).2]
        exact hyleaf
      have huns : ∃ y2, y2 ∈ cur ∧ Anc cur r2 y2 ∧
          (get_children cur y2).isEmpty = true ∧ sqDist y2 s0 < sqDist r2 s0 :=
        ⟨y, hycur, hyanccur, hyleafcur, hydist⟩
      obtain ⟨l, pl, hlcur, hpl, hlast?, hlne, hlleafc, hlancc, hldistc, hminc, hstep⟩ :=
        checkRootStep_unstable hvcur hr2cur hr2root huns ch
      have hlastr : pl.getLast hpl.ne_nil = r2 :=
        Option.some.inj ((List.getLast?_eq_getLast pl hpl.ne_nil).symm.trans hlast?)
      have hlm2 := seg_desc_sub hvm hvcur (node_by_id_mem hr2m).1 hr2root hseg hlcur hlancc
      have hlleafm : (get_children m l).isEmpty = true := by
        rw [← (hseg l hlm2.1 hlm2.2).2]
        exact hlleafc
      have hminm : ∀ y2 ∈ m, Anc m r2 y2 → (get_children m y2).isEmpty = true →
          sqDist l s0 ≤ sqDist y2 s0 := by
        intro y2 hy2 ha2 hleaf2
        refine hminc y2 (hseg y2 hy2 ha2).1
          (segsame_anc hvm hvcur.1 hr2root (fun z hz haz => (hseg z hz haz).1) hy2 ha2) ?_
        rw [(hseg y2 hy2 ha2).2]
        exact hleaf2
      have hv2 := re_root_valid hvcur hlcur hpl
      have hroots2 : ∀ rid2 ∈ rest', ∃ r3,
          node_by_id (cur.map (chainUpd (-1) (pl.map (·.id)))) rid2 = some r3 ∧
            r3.parent = -1 := by
        intro rid2 h2
        obtain ⟨r3, hr3, hr3root⟩ := hroots rid2 (List.mem_cons_of_mem _ h2)
        refine ⟨r3, roots_persist_step hvcur hlcur hpl hr3 hr3root ?_, hr3root⟩
        rw [hlastr, (node_by_id_mem hr2cur).2]
        intro he
        exact hndhead (he ▸ h2)
      have hUl : chainUpd (-1) (pl.map (·.id)) l = { l with parent := -1 } :=
        chainUpd_head hvcur hlcur hpl
      have hUlroots : ({ l with parent := -1 } : SwcNode) ∈
          get_roots (cur.map (chainUpd (-1) (pl.map (·.id)))) :=
        mem_get_roots.2 ⟨List.mem_map.2 ⟨l, hlcur, hUl⟩, rfl⟩
      have hlidnot : ({ l with parent := -1 } : SwcNode).id ∉ rest' := by
        show l.id ∉ rest'
        intro hin
        obtain ⟨rx, hrx, hrxroot⟩ := hroots l.id (List.mem_cons_of_mem _ hin)
        have hrxl : rx = l := nodes_eq_of_id_eq hvcur.1 (node_by_id_mem hrx).1 hlcur
          (node_by_id_mem hrx).2
        rw [hrxl] at hrxroot
        have hpl1 : pl = [l] := hpl.deterministic (IsPath.root l hrxroot)
        have hr2pl : r2 ∈ pl := by
          rw [← hlastr]
          exact List.getLast_mem hpl.ne_nil
        rw [hpl1] at hr2pl
        exact hlne (List.mem_singleton.1 hr2pl).symm
      obtain ⟨m2, ch2, hrun, hlin⟩ := checkLoop_persist rest'
        (cur.map (chainUpd (-1) (pl.map (·.id)))) true hv2 hndtail hroots2
        _ hUlroots hlidnot
      refine ⟨m2, ch2, l, ?_, hlm2.1, hlm2.2, hlleafm, hldistc, hminm, hlin⟩
      simp only [checkLoop]
      rw [hstep]
      exact hrun
    · by_cases huns : ∃ y, y ∈ cur ∧ Anc cur rh y ∧ (get_children cur y).isEmpty = true ∧
          sqDist y s0 < sqDist rh s0
      · obtain ⟨l, pl, hlcur, hpl, hlast?, hlne, hlleaf, hlanc, hldist, hmin, hstep⟩ :=
          checkRootStep_unstable hvcur hrh hrhroot huns ch
        have hlastr : pl.getLast hpl.ne_nil = rh :=
          Option.some.inj ((List.getLast?_eq_getLast pl hpl.ne_nil).symm.trans hlast?)
        have hv2 := re_root_valid hvcur hlcur hpl
        have hroots2 : ∀ rid2 ∈ rest', ∃ r3,
            node_by_id (cur.map (chainUpd (-1) (pl.map (·.id)))) rid2 = some r3 ∧
              r3.parent = -1 := by
          intro rid2 h2
          obtain ⟨r3, hr3, hr3root⟩ := hroots rid2 (List.mem_cons_of_mem _ h2)
          refine ⟨r3, roots_persist_step hvcur hlcur hpl hr3 hr3root ?_, hr3root⟩
          rw [hlastr, hrhid]
          intro he
          exact hndhead (he ▸ h2)
        have hne0 : rid0 ≠ (pl.getLast hpl.ne_nil).id := by
          rw [hlastr, hrhid]
          intro he
          exact hndhead (he ▸ htail)
        have hss2 := segsame_frame hvm hvcur hlcur hpl hss hne0
        obtain ⟨m2, ch2, l0, hrun, h1, h2, h3, h4, h5, h6⟩ :=
          ih (cur.map (chainUpd (-1) (pl.map (·.id)))) true hv2 hndtail hroots2
            rid0 htail hss2 r hrm hex
        refine ⟨m2, ch2, l0, ?_, h1, h2, h3, h4, h5, h6⟩
        simp only [checkLoop]
        rw [hstep]
        exact hrun
      · push_neg at huns
        have hstabr : Stable s0 cur rh := fun y hy ha hleaf => not_lt.2 (huns y hy ha hleaf)
        have hstep := checkRootStep_stable hvcur hrh hstabr ch
        obtain ⟨m2, ch2, l0, hrun, h1, h2, h3, h4, h5, h6⟩ :=
          ih cur ch hvcur hndtail (fun rid2 h2 => hroots rid2 (List.mem_cons_of_mem _ h2))
            rid0 htail hss r hrm hex
        refine ⟨m2, ch2, l0, ?_, h1, h2, h3, h4, h5, h6⟩
        simp only [checkLoop]
        rw [hstep]
        exact hrun

theorem checkLoop_allstable {s0 : SwcNode} {M : Morphology} (hv : valid M) :
    ∀ (rids : List Int) (ch : Bool),
      (∀ rid ∈ rids, ∃ r, node_by_id M rid = some r ∧ Stable s0 M r) →
      checkLoop s0 M ch rids = .ok (M, ch) := by
  intro rids
  induction rids with
  | nil =>
    intro ch _
    rfl
  | cons rid rest ih =>
    intro ch hall
    obtain ⟨r, hr, hst⟩ := hall rid (List.mem_cons_self _ _)
    have hstep := checkRootStep_stable hv hr hst ch
    simp only [checkLoop]
    rw [hstep]
    exact ih ch (fun rid2 h2 => hall rid2 (List.mem_cons_of_mem _ h2))

/-- C6: on every well-formed tree whose soma lookup succeeds at a root
soma record, if some disconnected segment (a non-soma root r) has a leaf
strictly nearer the soma coordinate than r itself, then
check_morph_for_segment_restructuring re-roots that segment at the
closest such leaf (the leaf record, now with parent -1, is a root of the
output and minimizes the distance among the segment's leaves), only
parent fields are changed, and the call reports a change (True); applying
the function again to the returned tree reports no further change
(False). -/
theorem check_restructures_and_stabilizes {m : Morphology} (hv : valid m)
    {s : SwcNode} (hsoma : get_soma m = some s)
    {r : SwcNode} (hr : r ∈ get_roots m) (hrs : r ≠ s)
    {x : SwcNode} (hx : x ∈ m) (hanc : Anc m r x)
    (hleaf : (get_children m x).isEmpty = true)
    (hnear : sqDist x s < sqDist r s) :
    ∃ m2 l, check_morph_for_segment_restructuring m = (.ok (m2, true), m) ∧
      (check_morph_for_segment_restructuring m2).1 = .ok (m2, false) ∧
      l ∈ m ∧ Anc m r l ∧ (get_children m l).isEmpty = true ∧
      sqDist l s < sqDist r s ∧
      (∀ y ∈ m, Anc m r y → (get_children m y).isEmpty = true →
        sqDist l s ≤ sqDist y s) ∧
      { l with parent := -1 } ∈ get_roots m2 ∧
      ParentsOnly m m2 := by
  obtain ⟨hrm, hrroot⟩ := mem_get_roots.1 hr
  have hnodup0 : (((get_roots m).filter (fun n => !(n == s))).map (·.id)).Nodup :=
    ((List.filter_sublist (get_roots m)).map (·.id)).nodup (get_roots_ids_nodup hv.1)
  have hroots0 : ∀ rid ∈ ((get_roots m).filter (fun n => !(n == s))).map (·.id),
      ∃ r2, node_by_id m rid = some r2 ∧ r2.parent = -1 := by
    intro rid hrid
    obtain ⟨z, hz, rfl⟩ := List.mem_map.1 hrid
    obtain ⟨hzroots, _⟩ := List.mem_filter.1 hz
    obtain ⟨hzm, hzroot⟩ := mem_get_roots.1 hzroots
    exact ⟨z, node_by_id_self hv.1 hzm, hzroot⟩
  have hstab0 : ∀ z ∈ get_roots m,
      z.id ∉ ((get_roots m).filter (fun n => !(n == s))).map (·.id) →
      z.id = s.id ∨ Stable s m z := by
    intro z hz hznot
    by_cases hzs : z = s
    · exact Or.inl (by rw [hzs])
    · exfalso
      refine hznot (List.mem_map.2 ⟨z, List.mem_filter.2 ⟨hz, ?_⟩, rfl⟩)
      rw [Bool.not_eq_true', beq_eq_false_iff_ne]
      exact hzs
  obtain ⟨m2, ch2, hrun, hv3, hpo3, hstab3, _, hflag2⟩ :=
    checkLoop_run (((get_roots m).filter (fun n => !(n == s))).map (·.id)) m false
      hv (parentsOnly_refl m) hnodup0 hroots0 hstab0
  have hridin : r.id ∈ ((get_roots m).filter (fun n => !(n == s))).map (·.id) := by
    refine List.mem_map.2 ⟨r, List.mem_filter.2 ⟨hr, ?_⟩, rfl⟩
    rw [Bool.not_eq_true', beq_eq_false_iff_ne]
    exact hrs
  have hch2 : ch2 = true := hflag2 ⟨r.id, hridin, r, node_by_id_self hv.1 hrm,
    x, hx, hanc, hleaf, hnear⟩
  have hss0 : SegSame m m r.id := ⟨r, node_by_id_self hv.1 hrm, hrroot,
    node_by_id_self hv.1 hrm, fun y hy _ => ⟨hy, rfl⟩⟩
  obtain ⟨m2t, ch2t, l, hrunt, hlm, hlanc, hlleaf, hldist, hlmin, hlroots⟩ :=
    checkLoop_track hv (((get_roots m).filter (fun n => !(n == s))).map (·.id)) m false
      hv hnodup0 hroots0 r.id hridin hss0 r (node_by_id_self hv.1 hrm)
      ⟨x, hx, hanc, hleaf, hnear⟩
  have heqq : m2 = m2t := by
    have h1 := Except.ok.inj (hrun.symm.trans hrunt)
    exact congrArg Prod.fst h1
  rw [← heqq] at hlroots
  have hcall1 : check_morph_for_segment_restructuring m = (.ok (m2, true), m) := by
    unfold check_morph_for_segment_restructuring
    dsimp only
    rw [hsoma]
    dsimp only
    rw [hrun, hch2]
  obtain ⟨v, hsoma2⟩ := get_soma_parentsOnly hpo3 hsoma
  have hs2m2 : ({ s with parent := v } : SwcNode) ∈ m2 :=
    List.mem_of_find?_eq_some hsoma2
  have hallstab : ∀ rid ∈ ((get_roots m2).filter
      (fun n => !(n == { s with parent := v }))).map (·.id),
      ∃ r2, node_by_id m2 rid = some r2 ∧ Stable { s with parent := v } m2 r2 := by
    intro rid hrid
    obtain ⟨z, hz, rfl⟩ := List.mem_map.1 hrid
    obtain ⟨hzroots, hzne⟩ := List.mem_filter.1 hz
    have hzm2 : z ∈ m2 := (mem_get_roots.1 hzroots).1
    refine ⟨z, node_by_id_self hv3.1 hzm2, ?_⟩
    rcases hstab3 z hzroots with hzid | hzstab
    · exfalso
      have hz2 : z = { s with parent := v } :=
        nodes_eq_of_id_eq hv3.1 hzm2 hs2m2 (by rw [hzid])
      rw [hz2] at hzne
      simp at hzne
    · intro y hy ha hl
      rw [sqDist_parent_right, sqDist_parent_right]
      exact hzstab y hy ha hl
  have hloop2 := checkLoop_allstable hv3 (((get_roots m2).filter
      (fun n => !(n == { s with parent := v }))).map (·.id)) false hallstab
  have hcall2 : (check_morph_for_segment_restructuring m2).1 = .ok (m2, false) := by
    unfold check_morph_for_segment_restructuring
    dsimp only
    rw [hsoma2]
    dsimp only
    rw [hloop2]
  exact ⟨m2, l, hcall1, hcall2, hlm, hlanc, hlleaf, hldist, hlmin, hlroots, hpo3⟩

theorem check_restructures_and_stabilizes_witness :
    ∃ m2 l, check_morph_for_segment_restructuring exSegment = (.ok (m2, true), exSegment) ∧
      (check_morph_for_segment_restructuring m2).1 = .ok (m2, false) ∧
      l ∈ exSegment ∧ Anc exSegment (nd 10 3 100 (-1)) l ∧
      (get_children exSegment l).isEmpty = true ∧
      sqDist l (nd 1 1 0 (-1)) < sqDist (nd 10 3 100 (-1)) (nd 1 1 0 (-1)) ∧
      (∀ y ∈ exSegment, Anc exSegment (nd 10 3 100 (-1)) y →
        (get_children exSegment y).isEmpty = true →
          sqDist l (nd 1 1 0 (-1)) ≤ sqDist y (nd 1 1 0 (-1))) ∧
      { l with parent := -1 } ∈ get_roots m2 ∧
      ParentsOnly exSegment m2 :=
  @check_restructures_and_stabilizes exSegment (by decide) (nd 1 1 0 (-1)) rfl
    (nd 10 3 100 (-1)) (by decide) (by decide) (nd 12 3 1 11) (by decide)
    ⟨[nd 12 3 1 11, nd 11 3 50 10, nd 10 3 100 (-1)],
     IsPath.step (nd 12 3 1 11) (nd 11 3 50 10) [nd 11 3 50 10, nd 10 3 100 (-1)]
       (by decide) (by decide)
       (IsPath.step (nd 11 3 50 10) (nd 10 3 100 (-1)) [nd 10 3 100 (-1)]
         (by decide) (by decide)
         (IsPath.root (nd 10 3 100 (-1)) (by decide))),
     by decide⟩
    (by decide) (by decide)
